import Mathlib

/-!
# eiblog: the in-memory content index (db.go, model.go)

A shallow embedding of the article index kept in the global `Ei`:
the chronological list `Ei.Articles`, the slug lookup `Ei.MapArticles`,
the navigation pointers `Prev`/`Next`, the tag, series and archive indices,
and pagination.

Conventions of the embedding
* `*Article` is an address `Ptr`; the Article objects live in `Account.mem`.
  A nil pointer is `none`.
* A run-time panic of the Go code is a `Fault`; functions that can panic
  return `Except Fault _`.
* `int`/`int64` values are `Int`. No arithmetic of the embedded code leaves the
  64-bit range for inputs a Go program can hold, so no wrap-around is modelled.
* `time.Time` is `Time`, the wall-clock reading in one fixed location.
* Collaborators outside the repository (the store, the identifier generator,
  the text pipeline) enter as parameters carrying their answers.
* `sort.Sort` is the routine of the Go library, the pattern-defeating
  quicksort, embedded function by function as `goSort`. It is not stable.
-/

namespace Eiblog

/-- The run-time panics of the embedded Go code. `noID` is not a panic: it marks
that the supplied answers of the identifier generator ran out while the
allocation loop of `AddArticle` was still running. -/
inductive Fault where
  | nilDereference
  | indexOutOfRange
  | sliceBounds
  | divideByZero
  | noID
deriving DecidableEq, Repr

deriving instance DecidableEq for Except

/-- A `time.Time`: year, month and the offset inside the month, read in one
fixed location. -/
structure Time where
  year : Int
  month : Nat
  nsec : Nat
deriving DecidableEq, Repr

/-- The zero value `time.Time{}`. -/
def Time.zero : Time := ⟨1, 1, 0⟩

/-- `t.After(u)`: the instant `t` is after `u`. -/
def Time.After (t u : Time) : Bool :=
  decide (u.year < t.year) ||
    (decide (u.year = t.year) &&
      (decide (u.month < t.month) ||
        (decide (u.month = t.month) && decide (u.nsec < t.nsec))))

/-- The year and month of `t.Date()`. -/
def Time.Date (t : Time) : Int × Nat := (t.year, t.month)

/-- An address of an Article object (`*Article`, non-nil). -/
abbrev Ptr := Nat

/-- The error values returned by the store. -/
abbrev Error := String

/-- The struct `Article` of model.go. -/
structure Article where
  ID : Int := 0
  Author : String := ""
  Title : String := ""
  Slug : String := ""
  Count : Int := 0
  Content : String := ""
  SerieID : Int := 0
  Tags : List String := []
  IsDraft : Bool := false
  CreateTime : Time := Time.zero
  UpdateTime : Time := Time.zero
  DeleteTime : Time := Time.zero
  Prev : Option Ptr := none
  Next : Option Ptr := none
  Header : String := ""
  Excerpt : String := ""
  Desc : String := ""
  Thread : String := ""
deriving DecidableEq, Repr

/-- The struct `Serie` of model.go; `Articles` is a `SortArticles`. -/
structure Serie where
  ID : Int := 0
  Name : String := ""
  Slug : String := ""
  Desc : String := ""
  CreateTime : Time := Time.zero
  Articles : List Ptr := []
deriving DecidableEq, Repr

/-- The struct `Archive` of model.go. -/
structure Archive where
  Time : Time := Time.zero
  Articles : List Ptr := []
deriving DecidableEq, Repr

/-- The global `Ei`: the fields of `Blogger` the index uses, together with the
memory `mem` in which the Article objects live. `CH` records the tokens sent
on the channel `Ei.CH`, oldest first. -/
structure Account where
  Series : List Serie := []
  Archives : List Archive := []
  Tags : String → Option (List Ptr) := fun _ => none
  Articles : List Ptr := []
  MapArticles : String → Option Ptr := fun _ => none
  CH : List String := []
  mem : Ptr → Article := fun _ => {}
  SeriesSay : String := ""
  ArchivesSay : String := ""
  PageSeries : String := ""
  PageArchives : String := ""

/-- The constant `SERIES_MD`. -/
def SERIES_MD : String := "series_md"

/-- The constant `ARCHIVE_MD`. -/
def ARCHIVE_MD : String := "archive_md"

/-- Writing one Article object in memory. -/
def Account.store (s : Account) (p : Ptr) (a : Article) : Account :=
  { s with mem := fun q => if q = p then a else s.mem q }

/-- The assignment `p.Prev = v`. -/
def Account.setPrev (s : Account) (p : Ptr) (v : Option Ptr) : Account :=
  s.store p { s.mem p with Prev := v }

/-- The assignment `p.Next = v`. -/
def Account.setNext (s : Account) (p : Ptr) (v : Option Ptr) : Account :=
  s.store p { s.mem p with Next := v }

/-- The identifier of the article a pointer refers to. -/
def Account.idOf (s : Account) (p : Ptr) : Int := (s.mem p).ID

/-! ## Pagination -/

/-- The first loop of `PageList`: `l` runs down from `len(Ei.Articles)` until
`Ei.Articles[l-1].ID >= StartID`; given the list reversed, it returns `l`. -/
def lastVisible (StartID : Int) (mem : Ptr → Article) : List Ptr → Nat
  | [] => 0
  | p :: rest =>
    if StartID ≤ (mem p).ID then rest.length + 1 else lastVisible StartID mem rest

/-- The function `PageList(p, n)`: previous page, next page and the articles
of the page. -/
def PageList (StartID : Int) (s : Account) (p n : Int) :
    Except Fault (Int × Int × List Ptr) :=
  let l : Int := lastVisible StartID s.mem s.Articles.reverse
  if l = 0 then .ok (0, 0, [])
  else if n = 0 then .error Fault.divideByZero
  else
    let m0 := Int.tdiv l n
    let m := if Int.tmod l n > 0 then m0 + 1 else m0
    let p := if p > m then m else p
    let prev := if p > 1 then p - 1 else 0
    let next := if p < m then p + 1 else 0
    let b := (p - 1) * n
    let e0 := p * n
    let e := if e0 > l then l else e0
    if 0 ≤ b ∧ b ≤ e ∧ e ≤ (s.Articles.length : Int) then
      .ok (prev, next, (s.Articles.take e.toNat).drop b.toNat)
    else .error Fault.sliceBounds

/-- The reference definition of a page, following the specification: with `l`
the number of visible articles, `m = ceil(l / n)` pages, the requested page
clamped down to `q = min p m`, the articles at positions `(q-1)*n` up to
`min (q*n) l` exclusive. Returns previous page, next page, articles. -/
def PageRef (StartID : Int) (s : Account) (p n : Int) : Int × Int × List Ptr :=
  let l : Int := (s.Articles.filter (fun a => decide (StartID ≤ (s.mem a).ID))).length
  if l = 0 then (0, 0, [])
  else
    let m := (l + n - 1) / n
    let q := min p m
    (if q > 1 then q - 1 else 0, if q < m then q + 1 else 0,
      (s.Articles.drop ((q - 1) * n).toNat).take (min (q * n) l - (q - 1) * n).toNat)

/-- Every article below the boundary comes after every article at or above it. -/
def HiddenLast (StartID : Int) (s : Account) : Prop :=
  s.Articles.Pairwise (fun a b => (s.mem a).ID < StartID → (s.mem b).ID < StartID)

/-- The state of the pagination scenario: articles 103, 102, 101 in descending
creation time. -/
def exPage : Account :=
  { Articles := [0, 1, 2],
    mem := fun q =>
      if q = 0 then { ID := 103, Slug := "c", CreateTime := ⟨2020, 1, 3⟩ }
      else if q = 1 then { ID := 102, Slug := "b", CreateTime := ⟨2020, 1, 2⟩ }
      else if q = 2 then { ID := 101, Slug := "a", CreateTime := ⟨2020, 1, 1⟩ }
      else {} }

/-- The chronological list is sorted by creation time descending: for
positions `i < j` the article at `j` is not created after the article at `i`. -/
def ChronSorted (s : Account) : Prop :=
  s.Articles.Pairwise
    (fun a b => (s.mem b).CreateTime.After (s.mem a).CreateTime = false)

/-- A list sorted by creation time in which an article below the boundary 100
(identifier 5) lies between two visible articles. -/
def exMid : Account :=
  { Articles := [0, 1, 2],
    mem := fun q =>
      if q = 0 then { ID := 300, Slug := "x", CreateTime := ⟨2020, 1, 9⟩ }
      else if q = 1 then { ID := 5, Slug := "about", CreateTime := ⟨2020, 1, 7⟩ }
      else if q = 2 then { ID := 200, Slug := "y", CreateTime := ⟨2020, 1, 5⟩ }
      else {} }

/-! ## The library routine `sort.Sort`

The routine lies outside the repository. It is the pattern-defeating quicksort
of the Go library (Go 1.19 and later), written here function by function.
`data` is a list, `data.Swap(i, j)` is `swapAt`, `data.Less(i, j)` is `lessAt`
over the `Less` of the sorted type. Loops carry a counter that bounds their
rounds. -/

/-- The call `data.Swap(i, j)`. -/
def swapAt {α : Type} (l : List α) (i j : Nat) : List α :=
  match l[i]?, l[j]? with
  | some x, some y => (l.set i y).set j x
  | _, _ => l

/-- The call `data.Less(i, j)`, for `less` the order of the elements. -/
def lessAt {α : Type} (less : α → α → Bool) (l : List α) (i j : Nat) : Bool :=
  match l[i]?, l[j]? with
  | some x, some y => less x y
  | _, _ => false

/-- The inner loop of `insertionSort`:
`for j := i; j > a && data.Less(j, j-1); j-- { data.Swap(j, j-1) }`. -/
def insertLeft {α : Type} (less : α → α → Bool) (a : Nat) : Nat → List α → List α
  | 0, l => l
  | j + 1, l =>
    if j + 1 > a && lessAt less l (j + 1) j then insertLeft less a j (swapAt l (j + 1) j)
    else l

/-- The outer loop of `insertionSort`, `for i := a + 1; i < b; i++`, with `k`
rounds left. -/
def insertionLoop {α : Type} (less : α → α → Bool) (a b : Nat) : Nat → Nat → List α → List α
  | 0, _, l => l
  | k + 1, i, l =>
    if i < b then insertionLoop less a b k (i + 1) (insertLeft less a i l) else l

/-- The function `insertionSort(data, a, b)`. -/
def insertionSort {α : Type} (less : α → α → Bool) (l : List α) (a b : Nat) : List α :=
  insertionLoop less a b (b - a) (a + 1) l

/-- The function `siftDown(data, lo, hi, first)`: the loop from `root` on, with
`k` rounds left. -/
def siftDown {α : Type} (less : α → α → Bool) (hi first : Nat) : Nat → Nat → List α → List α
  | 0, _, l => l
  | k + 1, root, l =>
    if 2 * root + 1 ≥ hi then l
    else
      let child :=
        if 2 * root + 1 + 1 < hi &&
            lessAt less l (first + (2 * root + 1)) (first + (2 * root + 1) + 1) then
          2 * root + 1 + 1
        else 2 * root + 1
      if !lessAt less l (first + root) (first + child) then l
      else siftDown less hi first k child (swapAt l (first + root) (first + child))

/-- The first loop of `heapSort`, `for i := (hi - 1) / 2; i >= 0; i--`, with
`i + 1` rounds left. -/
def heapBuild {α : Type} (less : α → α → Bool) (hi first : Nat) : Nat → List α → List α
  | 0, l => l
  | i + 1, l => heapBuild less hi first i (siftDown less hi first hi i l)

/-- The second loop of `heapSort`, `for i := hi - 1; i >= 0; i--`, with `i + 1`
rounds left. -/
def heapPop {α : Type} (less : α → α → Bool) (first : Nat) : Nat → List α → List α
  | 0, l => l
  | i + 1, l => heapPop less first i (siftDown less i first i 0 (swapAt l first (first + i)))

/-- The function `heapSort(data, a, b)`. -/
def heapSort {α : Type} (less : α → α → Bool) (l : List α) (a b : Nat) : List α :=
  heapPop less a (b - a) (heapBuild less (b - a) a ((b - a - 1) / 2 + 1) l)

/-- The method `Next` of `xorshift`, on 64 bits. -/
def xorshiftNext (r : Nat) : Nat :=
  let r1 := r ^^^ ((r <<< 13) % 2 ^ 64)
  let r2 := r1 ^^^ (r1 >>> 7)
  r2 ^^^ ((r2 <<< 17) % 2 ^ 64)

/-- The number of binary digits of `n`, with `k` halvings left. -/
def bitsLenAux : Nat → Nat → Nat
  | 0, _ => 0
  | k + 1, n => if n = 0 then 0 else bitsLenAux k (n / 2) + 1

/-- The function `bits.Len`. -/
def bitsLen (n : Nat) : Nat := bitsLenAux n n

/-- The function `nextPowerOfTwo(length)`. -/
def nextPowerOfTwo (length : Nat) : Nat := 2 ^ bitsLen length

/-- The loop of `breakPatterns`, `for i := 0; i < 3; i++`, with `k` rounds
left and `random` the state of the generator. -/
def breakLoop {α : Type} (a length modulus idx : Nat) : Nat → Nat → Nat → List α → List α
  | 0, _, _, l => l
  | k + 1, i, random, l =>
    let next := xorshiftNext random
    let other := next &&& (modulus - 1)
    let other1 := if other ≥ length then other - length else other
    breakLoop a length modulus idx k (i + 1) next (swapAt l (idx - 1 + i) (a + other1))

/-- The function `breakPatterns(data, a, b)`. -/
def breakPatterns {α : Type} (l : List α) (a b : Nat) : List α :=
  if b - a ≥ 8 then
    breakLoop a (b - a) (nextPowerOfTwo (b - a)) (a + (b - a) / 4 * 2 - 1) 3 0 (b - a) l
  else l

/-- The type `sortedHint`. -/
inductive SortedHint
  | unknownHint
  | increasingHint
  | decreasingHint
deriving DecidableEq, Repr

/-- The function `order2(data, a, b, swaps)`: the two indices in order, and the
counter. -/
def order2 {α : Type} (less : α → α → Bool) (l : List α) (a b swaps : Nat) : Nat × Nat × Nat :=
  if lessAt less l b a then (b, a, swaps + 1) else (a, b, swaps)

/-- The function `median(data, a, b, c, swaps)`: the index of the median, and
the counter. -/
def median {α : Type} (less : α → α → Bool) (l : List α) (a b c swaps : Nat) : Nat × Nat :=
  let r1 := order2 less l a b swaps
  let r2 := order2 less l r1.2.1 c r1.2.2
  let r3 := order2 less l r1.1 r2.1 r2.2.2
  (r3.2.1, r3.2.2)

/-- The function `medianAdjacent(data, a, swaps)`. -/
def medianAdjacent {α : Type} (less : α → α → Bool) (l : List α) (a swaps : Nat) : Nat × Nat :=
  median less l (a - 1) a (a + 1) swaps

/-- The function `choosePivot(data, a, b)`. -/
def choosePivot {α : Type} (less : α → α → Bool) (l : List α) (a b : Nat) : Nat × SortedHint :=
  let len := b - a
  let i := a + len / 4 * 1
  let j := a + len / 4 * 2
  let k := a + len / 4 * 3
  let r :=
    if len ≥ 8 then
      if len ≥ 50 then
        let ri := medianAdjacent less l i 0
        let rj := medianAdjacent less l j ri.2
        let rk := medianAdjacent less l k rj.2
        median less l ri.1 rj.1 rk.1 rk.2
      else median less l i j k 0
    else (j, 0)
  if r.2 = 0 then (r.1, SortedHint.increasingHint)
  else if r.2 = 12 then (r.1, SortedHint.decreasingHint)
  else (r.1, SortedHint.unknownHint)

/-- The loop of `reverseRange`, `for i < j`, with `k` rounds left. -/
def reverseLoop {α : Type} : Nat → Nat → Nat → List α → List α
  | 0, _, _, l => l
  | k + 1, i, j, l => if i < j then reverseLoop k (i + 1) (j - 1) (swapAt l i j) else l

/-- The function `reverseRange(data, a, b)`. -/
def reverseRange {α : Type} (l : List α) (a b : Nat) : List α :=
  reverseLoop (b - a) a (b - 1) l

/-- The scan of `partialInsertionSort`,
`for i < b && !data.Less(i, i-1) { i++ }`, with `k` rounds left: the final
`i`. -/
def scanSorted {α : Type} (less : α → α → Bool) (l : List α) (b : Nat) : Nat → Nat → Nat
  | 0, i => i
  | k + 1, i => if i < b && !lessAt less l i (i - 1) then scanSorted less l b k (i + 1) else i

/-- The loop of `partialInsertionSort` that shifts the smaller one to the left,
`for j := i - 1; j >= 1; j--`. -/
def shiftLeft {α : Type} (less : α → α → Bool) : Nat → List α → List α
  | 0, l => l
  | j + 1, l => if !lessAt less l (j + 1) j then l else shiftLeft less j (swapAt l (j + 1) j)

/-- The loop of `partialInsertionSort` that shifts the greater one to the
right, `for j := i + 1; j < b; j++`, with `k` rounds left. -/
def shiftRight {α : Type} (less : α → α → Bool) (b : Nat) : Nat → Nat → List α → List α
  | 0, _, l => l
  | k + 1, j, l =>
    if j < b then
      if !lessAt less l j (j - 1) then l else shiftRight less b k (j + 1) (swapAt l j (j - 1))
    else l

/-- The outer loop of `partialInsertionSort`, `for j := 0; j < maxSteps; j++`,
with `s` rounds left. -/
def partialLoop {α : Type} (less : α → α → Bool) (a b : Nat) : Nat → Nat → List α → List α × Bool
  | 0, _, l => (l, false)
  | s + 1, i, l =>
    let i1 := scanSorted less l b (b - i) i
    if i1 = b then (l, true)
    else if b - a < 50 then (l, false)
    else
      let l1 := swapAt l i1 (i1 - 1)
      let l2 := if i1 - a ≥ 2 then shiftLeft less (i1 - 1) l1 else l1
      let l3 := if b - i1 ≥ 2 then shiftRight less b (b - (i1 + 1)) (i1 + 1) l2 else l2
      partialLoop less a b s i1 l3

/-- The function `partialInsertionSort(data, a, b)`. -/
def partialInsertionSort {α : Type} (less : α → α → Bool) (l : List α) (a b : Nat) :
    List α × Bool :=
  partialLoop less a b 5 (a + 1) l

/-- The scan `for i <= j && !data.Less(a, i) { i++ }` of `partitionEqual`, with
`k` rounds left. -/
def equalUp {α : Type} (less : α → α → Bool) (l : List α) (a j : Nat) : Nat → Nat → Nat
  | 0, i => i
  | k + 1, i => if i ≤ j && !lessAt less l a i then equalUp less l a j k (i + 1) else i

/-- The scan `for i <= j && data.Less(a, j) { j-- }` of `partitionEqual`, with
`k` rounds left. -/
def equalDown {α : Type} (less : α → α → Bool) (l : List α) (a i : Nat) : Nat → Nat → Nat
  | 0, j => j
  | k + 1, j => if i ≤ j && lessAt less l a j then equalDown less l a i k (j - 1) else j

/-- The loop of `partitionEqual`, with `k` rounds left: the data and the
returned index. -/
def partitionEqualLoop {α : Type} (less : α → α → Bool) (a : Nat) :
    Nat → Nat → Nat → List α → List α × Nat
  | 0, i, _, l => (l, i)
  | k + 1, i, j, l =>
    let i1 := equalUp less l a j (j + 1 - i) i
    let j1 := equalDown less l a i1 (j + 1 - i1) j
    if i1 > j1 then (l, i1)
    else partitionEqualLoop less a k (i1 + 1) (j1 - 1) (swapAt l i1 j1)

/-- The function `partitionEqual(data, a, b, pivot)`. -/
def partitionEqual {α : Type} (less : α → α → Bool) (l : List α) (a b pivot : Nat) :
    List α × Nat :=
  partitionEqualLoop less a (b - a) (a + 1) (b - 1) (swapAt l a pivot)

/-- The scan `for i <= j && data.Less(i, a) { i++ }` of `partition`, with `k`
rounds left. -/
def lessUp {α : Type} (less : α → α → Bool) (l : List α) (a j : Nat) : Nat → Nat → Nat
  | 0, i => i
  | k + 1, i => if i ≤ j && lessAt less l i a then lessUp less l a j k (i + 1) else i

/-- The scan `for i <= j && !data.Less(j, a) { j-- }` of `partition`, with `k`
rounds left. -/
def lessDown {α : Type} (less : α → α → Bool) (l : List α) (a i : Nat) : Nat → Nat → Nat
  | 0, j => j
  | k + 1, j => if i ≤ j && !lessAt less l j a then lessDown less l a i k (j - 1) else j

/-- The second loop of `partition`, with `k` rounds left: the data and the
final `j`. -/
def partitionLoop {α : Type} (less : α → α → Bool) (a : Nat) :
    Nat → Nat → Nat → List α → List α × Nat
  | 0, _, j, l => (l, j)
  | k + 1, i, j, l =>
    let i1 := lessUp less l a j (j + 1 - i) i
    let j1 := lessDown less l a i1 (j + 1 - i1) j
    if i1 > j1 then (l, j1)
    else partitionLoop less a k (i1 + 1) (j1 - 1) (swapAt l i1 j1)

/-- The function `partition(data, a, b, pivot)`: the data, the new index of the
pivot and `alreadyPartitioned`. -/
def partition {α : Type} (less : α → α → Bool) (l : List α) (a b pivot : Nat) :
    List α × Nat × Bool :=
  let l1 := swapAt l a pivot
  let i := lessUp less l1 a (b - 1) (b - 1 + 1 - (a + 1)) (a + 1)
  let j := lessDown less l1 a i (b - 1 + 1 - i) (b - 1)
  if i > j then (swapAt l1 j a, j, true)
  else
    let r := partitionLoop less a (b - a) (i + 1) (j - 1) (swapAt l1 i j)
    (swapAt r.1 r.2 a, r.2, false)

/-- The function `pdqsort(data, a, b, limit)`: one round of its loop and what
follows, with `k` rounds left; `wasBalanced` and `wasPartitioned` are the
variables of the loop. -/
def pdqsort {α : Type} (less : α → α → Bool) :
    Nat → List α → Nat → Nat → Nat → Bool → Bool → List α
  | 0, l, _, _, _, _, _ => l
  | k + 1, l, a, b, limit, wasBalanced, wasPartitioned =>
    if b - a ≤ 12 then insertionSort less l a b
    else if limit = 0 then heapSort less l a b
    else
      let l1 := if !wasBalanced then breakPatterns l a b else l
      let limit1 := if !wasBalanced then limit - 1 else limit
      let ph := choosePivot less l1 a b
      let l2 := if ph.2 = SortedHint.decreasingHint then reverseRange l1 a b else l1
      let pivot := if ph.2 = SortedHint.decreasingHint then (b - 1) - (ph.1 - a) else ph.1
      let hint := if ph.2 = SortedHint.decreasingHint then SortedHint.increasingHint else ph.2
      let r :=
        if wasBalanced && wasPartitioned && decide (hint = SortedHint.increasingHint) then
          partialInsertionSort less l2 a b
        else (l2, false)
      if r.2 then r.1
      else if a > 0 && !lessAt less r.1 (a - 1) pivot then
        let pe := partitionEqual less r.1 a b pivot
        pdqsort less k pe.1 pe.2 b limit1 wasBalanced wasPartitioned
      else
        let pt := partition less r.1 a b pivot
        let mid := pt.2.1
        if mid - a < b - mid then
          pdqsort less k (pdqsort less k pt.1 a mid limit1 true true) (mid + 1) b limit1
            (decide (mid - a ≥ (b - a) / 8)) pt.2.2
        else
          pdqsort less k (pdqsort less k pt.1 (mid + 1) b limit1 true true) a mid limit1
            (decide (b - mid ≥ (b - a) / 8)) pt.2.2

/-- The function `sort.Sort(data)`. -/
def goSort {α : Type} (less : α → α → Bool) (l : List α) : List α :=
  if l.length ≤ 1 then l
  else pdqsort less (l.length + 1) l 0 l.length (bitsLen l.length) true true

/-- The lists reached from `l` by calls `data.Swap(i, j)` with both indices in
`[a, b)`. -/
inductive SwapsIn {α : Type} (a b : Nat) : List α → List α → Prop
  | refl (l : List α) : SwapsIn a b l l
  | step (l l1 : List α) (i j : Nat) : a ≤ i → i < b → a ≤ j → j < b → b ≤ l.length →
      SwapsIn a b (swapAt l i j) l1 → SwapsIn a b l l1

/-- The order `x <= y` read off `Less`: `y` is not less than `x`. -/
def LeOf {α : Type} (less : α → α → Bool) (x y : α) : Prop := less y x = false

/-- The part `data[a:b]` is in order. -/
def SortedIn {α : Type} (less : α → α → Bool) (l : List α) (a b : Nat) : Prop :=
  ∀ i j x y, a ≤ i → i < j → j < b → l[i]? = some x → l[j]? = some y → LeOf less x y

/-- Every element of `data[a:b]` satisfies `P`. -/
def AllAt {α : Type} (l : List α) (a b : Nat) (P : α → Prop) : Prop :=
  ∀ k x, a ≤ k → k < b → l[k]? = some x → P x

/-- The element at `p` is not after the element at `q` in the order. -/
def LeAt {α : Type} (less : α → α → Bool) (l : List α) (p q : Nat) : Prop :=
  ∀ x y, l[p]? = some x → l[q]? = some y → LeOf less x y

/-- The index at which the element of index `p` stands after `Swap(i, j)`. -/
def swapIdx (i j p : Nat) : Nat := if p = j then i else if p = i then j else p

/-- The two properties of `Less` that sorting needs: it is asymmetric, and
"not less" is transitive. -/
structure WeakOrder {α : Type} (less : α → α → Bool) : Prop where
  asymm : ∀ x y, less x y = true → less y x = false
  trans : ∀ x y z, less y x = false → less z y = false → less z x = false

/-- The element before `data[a:b]`, when there is one, is not after any element
of `data[a:b]`. -/
def LowBound {α : Type} (less : α → α → Bool) (l : List α) (a b : Nat) : Prop :=
  ∀ q, 0 < a → l[a - 1]? = some q → AllAt l a b (fun x => LeOf less q x)

/-- The heap order on the nodes `0`, ..., `hi - 1` that stand at `first`,
`first + 1`, ...: every node whose parent is `lo` or later is not after its
parent. -/
def HeapFrom {α : Type} (less : α → α → Bool) (l : List α) (first hi lo : Nat) : Prop :=
  ∀ c, 1 ≤ c → c < hi → lo ≤ (c - 1) / 2 → LeAt less l (first + c) (first + (c - 1) / 2)

/-- The heap order with the node `r` still to be sifted down: every node whose
parent is `lo` or later and is not `r` is not after its parent, and the
children of `r` are not after the parent of `r`. -/
def HeapExc {α : Type} (less : α → α → Bool) (l : List α) (first hi lo r : Nat) : Prop :=
  ∀ c, 1 ≤ c → c < hi → lo ≤ (c - 1) / 2 →
    ((c - 1) / 2 ≠ r → LeAt less l (first + c) (first + (c - 1) / 2)) ∧
    ((c - 1) / 2 = r → 1 ≤ r → lo ≤ (r - 1) / 2 → LeAt less l (first + c) (first + (r - 1) / 2))

/-! ## The chronological list and the navigation pointers -/

/-- `SortArticles.Less` on two elements: `a` is created after `b`. -/
def lessArticle (mem : Ptr → Article) (a b : Ptr) : Bool :=
  (mem a).CreateTime.After (mem b).CreateTime

/-- The order a sorted `SortArticles` has: `b` is not `Less` than `a`. -/
def notAfter (mem : Ptr → Article) (a b : Ptr) : Prop :=
  lessArticle mem b a = false

instance (mem : Ptr → Article) : DecidableRel (notAfter mem) :=
  fun a b => inferInstanceAs (Decidable (lessArticle mem b a = false))

/-- `sort.Sort` on a `SortArticles`: the library routine `goSort` with
`SortArticles.Less`. Up to 12 elements it is an insertion sort, which leaves
articles of equal creation time in their given order; on longer lists it does
not. -/
def sortArticles (mem : Ptr → Article) (l : List Ptr) : List Ptr :=
  goSort (lessArticle mem) l

/-- The loop of `GetArticle`, at position `i` of the list. -/
def GetArticle.find (mem : Ptr → Article) (id : Int) : List Ptr → Nat → Option (Nat × Ptr)
  | [], _ => none
  | p :: ps, i => if id = (mem p).ID then some (i, p) else GetArticle.find mem id ps (i + 1)

/-- The function `GetArticle(id)`: position and pointer of the first listed
article with that identifier; `none` stands for the pair `(-1, nil)`. -/
def GetArticle (s : Account) (id : Int) : Option (Nat × Ptr) :=
  GetArticle.find s.mem id s.Articles 0

/-- The function `DelFromLinkedList(artc)`; `artc` may be nil. -/
def DelFromLinkedList (s : Account) (artc : Option Ptr) : Except Fault Account :=
  match artc with
  | none => .error Fault.nilDereference
  | some a =>
    match (s.mem a).Prev, (s.mem a).Next with
    | none, none => .ok s
    | none, some n => .ok (s.setPrev n none)
    | some p, none => .ok (s.setNext p none)
    | some p, some n =>
      -- artc.Prev.Next = artc.Next
      let s1 := s.setNext p (some n)
      -- artc.Next.Prev = artc.Prev, read after the first assignment
      match (s1.mem a).Next with
      | none => .error Fault.nilDereference
      | some n1 => .ok (s1.setPrev n1 (s1.mem a).Prev)

/-- The function `AddToLinkedList(id)`. -/
def AddToLinkedList (StartID : Int) (s : Account) (id : Int) : Except Fault Account :=
  match GetArticle s id with
  | none => .ok s
  | some (i, artc) =>
    if i = 0 then
      -- Ei.Articles[i+1]
      match s.Articles[i + 1]? with
      | none => .error Fault.indexOutOfRange
      | some nx =>
        if StartID ≤ (s.mem nx).ID then
          .ok ((s.setNext artc (some nx)).setPrev nx (some artc))
        else .ok s
    else
      -- Ei.Articles[i-1]
      match s.Articles[i - 1]? with
      | none => .error Fault.indexOutOfRange
      | some pv =>
        if StartID ≤ (s.mem pv).ID then
          let s1 := s.setPrev artc (some pv)
          match (s1.mem pv).Next with
          | none => .ok (s1.setNext pv (some artc))
          | some n =>
            let s2 := s1.setNext artc (some n)
            -- Ei.Articles[i-1].Next.Prev = artc, read after the assignment before
            match (s2.mem pv).Next with
            | none => .error Fault.nilDereference
            | some n2 => .ok ((s2.setPrev n2 (some artc)).setNext pv (some artc))
        else .ok s

/-- What the text pipeline of `GenerateExcerptAndRender` derives from the
content of an article: a description (when the content starts with the
description prefix), a header (when the rendered page has one), the rendered
content and the excerpt. -/
structure Derived where
  Desc : Option String
  Header : Option String
  Content : String
  Excerpt : String

/-- The text pipeline (markdown renderer, regular expressions, `IgnoreHtmlTag`,
configured prefix and length), which lies outside the repository: from the
content of an article to the derived texts, or a panic. -/
abbrev Renderer := String → Except Fault Derived

/-- The function `GenerateExcerptAndRender(artc)`: it writes `Desc`, `Header`,
`Content` and `Excerpt` of the article and nothing else. -/
def GenerateExcerptAndRender (R : Renderer) (s : Account) (artc : Ptr) :
    Except Fault Account :=
  match R (s.mem artc).Content with
  | .error f => .error f
  | .ok d =>
    .ok (s.store artc
      { s.mem artc with
        Desc := d.Desc.getD (s.mem artc).Desc
        Header := d.Header.getD (s.mem artc).Header
        Content := d.Content
        Excerpt := d.Excerpt })

/-! ## The tag, series and archive indices -/

/-- Sending `tok` on `Ei.CH` when `b` holds. -/
def Account.send (s : Account) (b : Bool) (tok : String) : Account :=
  if b then { s with CH := s.CH ++ [tok] } else s

/-- The assignment `Ei.Tags[tag] = v`; `none` is `delete(Ei.Tags, tag)`. -/
def Account.setTag (s : Account) (tag : String) (v : Option (List Ptr)) : Account :=
  { s with Tags := fun t => if t = tag then v else s.Tags t }

/-- One round of the tag loop of `upArticle`. -/
def upTag (artc : Ptr) (needSort : Bool) (s : Account) (tag : String) : Account :=
  let b := (s.Tags tag).getD [] ++ [artc]
  s.setTag tag (some (if needSort then sortArticles s.mem b else b))

/-- The series loop of `upArticle`: the first series with the identifier of
the article gets it appended; the flag tells whether one was found. -/
def upSerie (mem : Ptr → Article) (artc : Ptr) (needSort : Bool) :
    List Serie → List Serie × Bool
  | [] => ([], false)
  | se :: rest =>
    if se.ID = (mem artc).SerieID then
      let b := se.Articles ++ [artc]
      ({ se with Articles := if needSort then sortArticles mem b else b } :: rest, true)
    else
      let r := upSerie mem artc needSort rest
      (se :: r.1, r.2)

/-- The archive loop of `upArticle`: the first bucket of the year and month of
the article gets it appended; the flag tells whether one was found. -/
def upArchive (mem : Ptr → Article) (artc : Ptr) (needSort : Bool) :
    List Archive → List Archive × Bool
  | [] => ([], false)
  | ar :: rest =>
    if ar.Time.Date = (mem artc).CreateTime.Date then
      let b := ar.Articles ++ [artc]
      ({ ar with Articles := if needSort then sortArticles mem b else b } :: rest, true)
    else
      let r := upArchive mem artc needSort rest
      (ar :: r.1, r.2)

/-- The function `upArticle(artc, needSort)`. -/
def upArticle (s : Account) (artc : Ptr) (needSort : Bool) : Account :=
  let s1 := (s.mem artc).Tags.foldl (upTag artc needSort) s
  let se := upSerie s1.mem artc needSort s1.Series
  let s2 := ({ s1 with Series := se.1 }).send (se.2 && needSort) SERIES_MD
  let ar := upArchive s2.mem artc needSort s2.Archives
  if ar.2 then
    ({ s2 with Archives := ar.1 }).send needSort ARCHIVE_MD
  else
    ({ s2 with Archives := s2.Archives ++
        [({ Time := (s2.mem artc).CreateTime, Articles := [artc] } : Archive)] }).send
      needSort ARCHIVE_MD

/-- The effect of `append(x[0:i], x[i+1:]...)` on the backing array `arr` of a
slice `x` of length `len`: the elements after position `i` move one place to
the left, the place `len - 1` and those after it keep what they held. -/
def removeAt {α : Type} (arr : List α) (len i : Nat) : List α :=
  arr.take i ++ (arr.drop (i + 1)).take (len - (i + 1)) ++ arr.drop (len - 1)

/-- The inner tag loop of `dropArticle`, `for i, v := range Ei.Tags[tag]`, from
position `i` on with `k` rounds left. The range runs over the backing array
`arr` of the bucket as it was when the loop started, while the body shortens
the bucket in place; `cur` is the present length of `Ei.Tags[tag]`, `none`
once the key is deleted. -/
def dropTagLoop (artc : Ptr) : Nat → Nat → List Ptr → Option Nat →
    Except Fault (List Ptr × Option Nat)
  | 0, _, arr, cur => .ok (arr, cur)
  | k + 1, i, arr, cur =>
    if arr[i]? = some artc then
      match cur with
      | none => .error Fault.sliceBounds
      | some len =>
        if i + 1 ≤ len then
          dropTagLoop artc k (i + 1) (removeAt arr len i)
            (if len - 1 = 0 then none else some (len - 1))
        else .error Fault.sliceBounds
    else dropTagLoop artc k (i + 1) arr cur

/-- One round of the outer tag loop of `dropArticle`. -/
def dropTag (artc : Ptr) (s : Account) (tag : String) : Except Fault Account :=
  match s.Tags tag with
  | none => .ok s
  | some b =>
    match dropTagLoop artc b.length 0 b (some b.length) with
    | .error f => .error f
    | .ok (arr, cur) => .ok (s.setTag tag (cur.map (fun len => arr.take len)))

/-- The outer tag loop of `dropArticle`. -/
def dropTags (artc : Ptr) : Account → List String → Except Fault Account
  | s, [] => .ok s
  | s, tag :: rest =>
    match dropTag artc s tag with
    | .error f => .error f
    | .ok s1 => dropTags artc s1 rest

/-- The series loop of `dropArticle`: every series with the identifier of the
article loses the first occurrence of it; the number counts the tokens sent. -/
def dropSeries (sid : Int) (artc : Ptr) : List Serie → List Serie × Nat
  | [] => ([], 0)
  | se :: rest =>
    let r := dropSeries sid artc rest
    if se.ID = sid ∧ artc ∈ se.Articles then
      ({ se with Articles := se.Articles.erase artc } :: r.1, r.2 + 1)
    else (se :: r.1, r.2)

/-- The state of the archive loop of `dropArticle`. `Ei.Archives` is a slice of
pointers: `objs` holds the Archive objects, named by their position when the
loop started, `arr` is the backing array of the slice (the names), `len` the
present length of `Ei.Archives`, `sent` the number of tokens sent. -/
structure ArchLoop where
  objs : List Archive
  arr : List Nat
  len : Nat
  sent : Nat

/-- The archive loop of `dropArticle`, `for i, archive := range Ei.Archives`,
from position `i` on with `k` rounds left; `ym` is the year and month of the
article. -/
def dropArchLoop (ym : Int × Nat) (artc : Ptr) : Nat → Nat → ArchLoop →
    Except Fault ArchLoop
  | 0, _, st => .ok st
  | k + 1, i, st =>
    match st.arr[i]? with
    | none => .error Fault.indexOutOfRange
    | some o =>
      match st.objs[o]? with
      | none => .error Fault.indexOutOfRange
      | some archive =>
        if archive.Time.Date = ym ∧ artc ∈ archive.Articles then
          -- Ei.Archives[i]
          if i < st.len then
            let left := archive.Articles.erase artc
            let objs := st.objs.set o { archive with Articles := left }
            if left.length = 0 then
              dropArchLoop ym artc k (i + 1)
                { objs := objs, arr := removeAt st.arr st.len i, len := st.len - 1,
                  sent := st.sent + 1 }
            else
              dropArchLoop ym artc k (i + 1) { st with objs := objs, sent := st.sent + 1 }
          else .error Fault.indexOutOfRange
        else dropArchLoop ym artc k (i + 1) st

/-- The archive part of `dropArticle`: the archives left and the number of
tokens sent. -/
def dropArchives (ym : Int × Nat) (artc : Ptr) (as : List Archive) :
    Except Fault (List Archive × Nat) :=
  match dropArchLoop ym artc as.length 0
      { objs := as, arr := List.range as.length, len := as.length, sent := 0 } with
  | .error f => .error f
  | .ok st => .ok ((st.arr.take st.len).filterMap (fun o => st.objs[o]?), st.sent)

/-- The function `dropArticle(artc)`. -/
def dropArticle (s : Account) (artc : Ptr) : Except Fault Account :=
  match dropTags artc s (s.mem artc).Tags with
  | .error f => .error f
  | .ok s1 =>
    let se := dropSeries (s1.mem artc).SerieID artc s1.Series
    let s2 := { s1 with Series := se.1, CH := s1.CH ++ List.replicate se.2 SERIES_MD }
    match dropArchives (s2.mem artc).CreateTime.Date artc s2.Archives with
    | .error f => .error f
    | .ok ar =>
      .ok { s2 with Archives := ar.1, CH := s2.CH ++ List.replicate ar.2 ARCHIVE_MD }

/-! ## The mutations -/

/-- The allocation loop of `AddArticle`: `gen` lists the identifiers that
`node.Generate()` yields, in order; the first one not below `StartID` is
taken. `none`: the list ran out with the loop still running. -/
def allocID (StartID : Int) : List Int → Option Int
  | [] => none
  | id :: rest => if id < StartID then allocID StartID rest else some id

/-- The assignment `Ei.MapArticles[slug] = v`; `none` is
`delete(Ei.MapArticles, slug)`. -/
def Account.setSlug (s : Account) (slug : String) (v : Option Ptr) : Account :=
  { s with MapArticles := fun k => if k = slug then v else s.MapArticles k }

/-- The function `AddArticle(artc)`. `gen` lists the identifiers the generator
yields and `insertErr` is the answer of the store to the insert. The result
is the state left behind and the returned error value. -/
def AddArticle (StartID : Int) (R : Renderer) (s : Account) (artc : Ptr)
    (gen : List Int) (insertErr : Option Error) : Except Fault (Account × Option Error) :=
  match allocID StartID gen with
  | none => .error Fault.noID
  | some id =>
    let s0 := s.store artc { s.mem artc with ID := id }
    match insertErr with
    | some e => .ok (s0, some e)
    | none =>
      if (s0.mem artc).IsDraft then .ok (s0, none)
      else
        let s1 := s0.setSlug (s0.mem artc).Slug (some artc)
        let s2 := { s1 with Articles := sortArticles s1.mem (artc :: s1.Articles) }
        match AddToLinkedList StartID s2 (s2.mem artc).ID with
        | .error f => .error f
        | .ok s3 =>
          -- the deferred GenerateExcerptAndRender(artc) runs last
          match GenerateExcerptAndRender R (upArticle s3 artc true) artc with
          | .error f => .error f
          | .ok s5 => .ok (s5, none)

/-- The function `DelArticles(ids...)`. `upd id` is the answer of the store to
the update that marks `id` deleted. The result is the state left behind and
the returned error value. -/
def DelArticles (upd : Int → Option Error) : Account → List Int →
    Except Fault (Account × Option Error)
  | s, [] => .ok (s, none)
  | s, id :: rest =>
    match GetArticle s id with
    | none =>
      -- DelFromLinkedList(nil)
      match DelFromLinkedList s none with
      | .error f => .error f
      | .ok _ => .error Fault.sliceBounds
    | some (i, artc) =>
      match DelFromLinkedList s (some artc) with
      | .error f => .error f
      | .ok s1 =>
        let s2 := { s1 with Articles := s1.Articles.eraseIdx i }
        let s3 := s2.setSlug (s2.mem artc).Slug none
        match upd id with
        | some e => .ok (s3, some e)
        | none =>
          match dropArticle s3 artc with
          | .error f => .error f
          | .ok s4 => DelArticles upd s4 rest

/-- The function `ReplaceArticle(oldArtc, newArtc)`; `oldArtc` may be nil. -/
def ReplaceArticle (StartID : Int) (R : Renderer) (s : Account) (oldArtc : Option Ptr)
    (newArtc : Ptr) : Except Fault Account :=
  let removed : Except Fault Account :=
    match oldArtc with
    | none => .ok s
    | some old =>
      match GetArticle s (s.mem old).ID with
      | none =>
        match DelFromLinkedList s none with
        | .error f => .error f
        | .ok _ => .error Fault.sliceBounds
      | some (i, artc) =>
        match DelFromLinkedList s (some artc) with
        | .error f => .error f
        | .ok s1 =>
          let s2 := { s1 with Articles := s1.Articles.eraseIdx i }
          dropArticle (s2.setSlug (s2.mem artc).Slug none) old
  match removed with
  | .error f => .error f
  | .ok s3 =>
    let s4 := s3.setSlug (s3.mem newArtc).Slug (some newArtc)
    let s5 := { s4 with Articles := sortArticles s4.mem (s4.Articles ++ [newArtc]) }
    match GenerateExcerptAndRender R s5 newArtc with
    | .error f => .error f
    | .ok s6 =>
      match AddToLinkedList StartID s6 (s6.mem newArtc).ID with
      | .error f => .error f
      | .ok s7 => .ok (upArticle s7 newArtc true)

/-- The fields of an article that neither linking nor rendering writes. -/
def Article.core (a : Article) : Int × String × String × Time × Bool × List String × Int :=
  (a.ID, a.Slug, a.Title, a.CreateTime, a.IsDraft, a.Tags, a.SerieID)

/-- The chronological list and the slug lookup are kept, and so is the core of
every article. -/
def KeepsOrder (s s1 : Account) : Prop :=
  s1.Articles = s.Articles ∧ s1.MapArticles = s.MapArticles ∧
    ∀ p, (s1.mem p).core = (s.mem p).core

/-- Only the tag, series and archive indices and the channel differ: the
memory, the chronological list and the slug lookup are the same. -/
def OnlyIndex (s s1 : Account) : Prop :=
  s1.mem = s.mem ∧ s1.Articles = s.Articles ∧ s1.MapArticles = s.MapArticles

/-- One call that mutates the index and returns: `AddArticle` or `DelArticles`,
with any answers of the identifier generator and of the store. -/
inductive Mutation (StartID : Int) (R : Renderer) : Account → Account → Prop where
  | add (s s1 : Account) (artc : Ptr) (gen : List Int) (insertErr e : Option Error) :
      AddArticle StartID R s artc gen insertErr = .ok (s1, e) → Mutation StartID R s s1
  | del (s s1 : Account) (upd : Int → Option Error) (ids : List Int) (e : Option Error) :
      DelArticles upd s ids = .ok (s1, e) → Mutation StartID R s s1

/-- The text pipeline that renders a content as itself. -/
def plainRender : Renderer := fun c => .ok ⟨none, none, c, c⟩

/-- A state with one published article, 200 "hello", indexed in its archive
bucket; at address 1 a new article object with the same slug, at address 2 a
new draft. -/
def exDup : Account :=
  { Articles := [0],
    MapArticles := fun k => if k = "hello" then some 0 else none,
    Archives := [{ Time := ⟨2020, 1, 5⟩, Articles := [0] }],
    mem := fun q =>
      if q = 0 then { ID := 200, Slug := "hello", Title := "old", CreateTime := ⟨2020, 1, 5⟩ }
      else if q = 1 then { Slug := "hello", Title := "new", CreateTime := ⟨2020, 2, 9⟩ }
      else if q = 2 then
        { Slug := "note", Title := "wip", IsDraft := true, CreateTime := ⟨2020, 3, 1⟩ }
      else {} }

/-- A state with three published articles 300, 200, 150 linked in list order,
the middle one tagged "go" and member of the series 7, each indexed in the
archive bucket of its month; at address 3 a new Article object. -/
def exChain : Account :=
  { Articles := [0, 1, 2],
    MapArticles := fun k =>
      if k = "c" then some 0 else if k = "b" then some 1 else if k = "a" then some 2 else none,
    Tags := fun t => if t = "go" then some [1] else none,
    Series := [{ ID := 7, Name := "notes", Articles := [1] }],
    Archives := [{ Time := ⟨2020, 3, 0⟩, Articles := [0] },
      { Time := ⟨2020, 2, 0⟩, Articles := [1] }, { Time := ⟨2020, 1, 0⟩, Articles := [2] }],
    mem := fun q =>
      if q = 0 then
        { ID := 300, Slug := "c", CreateTime := ⟨2020, 3, 0⟩, Next := some 1 }
      else if q = 1 then
        { ID := 200, Slug := "b", Tags := ["go"], SerieID := 7, CreateTime := ⟨2020, 2, 0⟩,
          Prev := some 0, Next := some 2 }
      else if q = 2 then
        { ID := 150, Slug := "a", CreateTime := ⟨2020, 1, 0⟩, Prev := some 1 }
      else if q = 3 then
        { Slug := "d", CreateTime := ⟨2020, 2, 15⟩ }
      else {} }

/-- A state with the published article 200 and the static page "about", whose
identifier 5 lies below the boundary 100 and whose creation time is the zero
time; at address 2 the edited "about" page. Nothing is linked. -/
def exAbout : Account :=
  { Articles := [0, 1],
    MapArticles := fun k => if k = "x" then some 0 else if k = "about" then some 1 else none,
    Archives := [{ Time := ⟨2020, 1, 5⟩, Articles := [0] },
      { Time := Time.zero, Articles := [1] }],
    mem := fun q =>
      if q = 0 then { ID := 200, Slug := "x", CreateTime := ⟨2020, 1, 5⟩ }
      else if q = 1 then { ID := 5, Slug := "about", Title := "About" }
      else if q = 2 then { ID := 5, Slug := "about", Title := "About me" }
      else {} }

/-- No tag key maps to an empty bucket. -/
def NoEmptyTag (s : Account) : Prop :=
  ∀ t b, s.Tags t = some b → b ≠ []

/-- The article `a` is indexed: it occupies the bucket of a tag once for every
time it declares the tag and no other tag bucket; it occurs at most once in a
series' member list, and only in series with its series identifier; it occurs
at most once in an archive bucket, only in a bucket of its creation month, and
in at most one bucket. -/
def Indexed (s : Account) (a : Ptr) : Prop :=
  (∀ t, ((s.Tags t).getD []).count a = (s.mem a).Tags.count t) ∧
  (∀ se ∈ s.Series, se.Articles.count a ≤ 1 ∧
    (a ∈ se.Articles → se.ID = (s.mem a).SerieID)) ∧
  (∀ ar ∈ s.Archives, ar.Articles.count a ≤ 1 ∧
    (a ∈ ar.Articles → ar.Time.Date = (s.mem a).CreateTime.Date)) ∧
  (∀ (i j : Nat) (x y : Archive), s.Archives[i]? = some x → s.Archives[j]? = some y →
    a ∈ x.Articles → a ∈ y.Articles → i = j)

/-! ## The navigation chain -/

/-- The navigation pointers `nx` (Next) and `pv` (Prev) over the list `l`: no
article is listed twice; the pointers of listed articles are mutually inverse
and lead to listed articles, `Next` to an article later in the list and `Prev`
to an earlier one. -/
def NavInv (l : List Ptr) (nx pv : Ptr → Option Ptr) : Prop :=
  l.Nodup ∧
  (∀ a ∈ l, ∀ b, nx a = some b → pv b = some a ∧ [a, b].Sublist l) ∧
  (∀ a ∈ l, ∀ b, pv a = some b → nx b = some a ∧ [b, a].Sublist l)

/-- A consistent index, as far as navigation goes: the chronological list is
sorted by creation time descending, the listed articles have pairwise
different identifiers, and the navigation pointers satisfy `NavInv`. -/
def NavLinked (s : Account) : Prop :=
  ChronSorted s ∧ (s.Articles.map (fun p => (s.mem p).ID)).Nodup ∧
  NavInv s.Articles (fun p => (s.mem p).Next) (fun p => (s.mem p).Prev)

/-- The listed articles have pairwise different creation times. -/
def DistinctTimes (s : Account) : Prop :=
  s.Articles.Pairwise (fun a b => (s.mem a).CreateTime ≠ (s.mem b).CreateTime)

/-- One call that mutates the index and returns. `AddArticle` is given a new
Article object: one that is not listed and has no `Prev` and `Next`, with a
creation time that no listed article has, and the identifier generator yields
an identifier no listed article has. -/
inductive NavStep (StartID : Int) (R : Renderer) : Account → Account → Prop where
  | add (s s1 : Account) (artc : Ptr) (gen : List Int) (insertErr e : Option Error) :
      artc ∉ s.Articles → (s.mem artc).Prev = none → (s.mem artc).Next = none →
      (∀ a ∈ s.Articles, (s.mem a).CreateTime ≠ (s.mem artc).CreateTime) →
      (∀ id, allocID StartID gen = some id → ∀ a ∈ s.Articles, (s.mem a).ID ≠ id) →
      AddArticle StartID R s artc gen insertErr = .ok (s1, e) → NavStep StartID R s s1
  | del (s s1 : Account) (upd : Int → Option Error) (ids : List Int) (e : Option Error) :
      DelArticles upd s ids = .ok (s1, e) → NavStep StartID R s s1

/-- The state of `AddArticle` after `artc.ID = id`. -/
def Account.withID (s : Account) (artc : Ptr) (id : Int) : Account :=
  s.store artc { s.mem artc with ID := id }

/-- The state of `AddArticle` for a published article before linking: the
identifier written, the slug mapped, the article put in front of the list
and the list sorted. -/
def Account.listed (s : Account) (artc : Ptr) (id : Int) : Account :=
  { ((s.withID artc id).setSlug ((s.withID artc id).mem artc).Slug (some artc)) with
    Articles := sortArticles (s.withID artc id).mem (artc :: s.Articles) }

/-! ## Series -/

/-- The error `DelSerie` returns for a series that still has articles. -/
def errSerieNotEmpty : Error := "请删除该专题下的所有文章"

/-- The state of the loop of `DelSerie`. `Ei.Series` is a slice of pointers:
`arr` is its backing array, where `none` is a nil pointer, `len` the present
length of `Ei.Series`, `sent` the number of tokens sent. -/
structure SerieLoop where
  arr : List (Option Serie)
  len : Nat
  sent : Nat

/-- The loop of `DelSerie`, `for i, serie := range Ei.Series`, from position `i`
on with `k` rounds left; the range runs over the backing array while the body
shortens `Ei.Series` in place. `del id` is the answer of the store to the
delete. The result is the state of the loop and the returned error value. -/
def DelSerieLoop (del : Int → Option Error) (id : Int) :
    Nat → Nat → SerieLoop → Except Fault (SerieLoop × Option Error)
  | 0, _, st => .ok (st, none)
  | k + 1, i, st =>
    match st.arr[i]? with
    | none => .error Fault.indexOutOfRange
    | some none => .error Fault.nilDereference
    | some (some serie) =>
      if id = serie.ID then
        if serie.Articles.length > 0 then .ok (st, some errSerieNotEmpty)
        else
          match del id with
          | some e => .ok (st, some e)
          | none =>
            -- Ei.Series[i] = nil
            if i < st.len then
              DelSerieLoop del id k (i + 1)
                { arr := removeAt (st.arr.set i none) st.len i, len := st.len - 1,
                  sent := st.sent + 1 }
            else .error Fault.indexOutOfRange
      else DelSerieLoop del id k (i + 1) st

/-- The function `DelSerie(id)`. No nil pointer lies within the slice that the
loop leaves, so `Ei.Series` is read off without the nil places. -/
def DelSerie (del : Int → Option Error) (s : Account) (id : Int) :
    Except Fault (Account × Option Error) :=
  match DelSerieLoop del id s.Series.length 0
      { arr := s.Series.map some, len := s.Series.length, sent := 0 } with
  | .error f => .error f
  | .ok (st, e) =>
    .ok ({ s with Series := (st.arr.take st.len).reduceOption,
                  CH := s.CH ++ List.replicate st.sent SERIES_MD }, e)

/-- The state `exChain` with three series: 9 and 3 without articles, 7 with the
article 200. -/
def exSeries : Account :=
  { exChain with
    Series := [{ ID := 9, Name := "new" }, { ID := 7, Name := "notes", Articles := [1] },
      { ID := 3, Name := "old" }] }

/-! ## Bootstrap -/

/-- The loop of `loadArticles`, `for i, v := range Ei.Articles`, from position
`i` on with `k` rounds left. -/
def loadLoop (StartID : Int) (R : Renderer) : Nat → Nat → Account → Except Fault Account
  | 0, _, s => .ok s
  | k + 1, i, s =>
    match s.Articles[i]? with
    | none => .error Fault.indexOutOfRange
    | some v =>
      match GenerateExcerptAndRender R s v with
      | .error f => .error f
      | .ok s1 =>
        let s2 := s1.setSlug (s1.mem v).Slug (some v)
        if (s2.mem v).ID < StartID then loadLoop StartID R k (i + 1) s2
        else
          -- if i > 0 { v.Prev = Ei.Articles[i-1] }
          let s3 : Except Fault Account :=
            if i > 0 then
              match s2.Articles[i - 1]? with
              | none => .error Fault.indexOutOfRange
              | some pv => .ok (s2.setPrev v (some pv))
            else .ok s2
          match s3 with
          | .error f => .error f
          | .ok s3 =>
            -- Ei.Articles[i+1]
            match s3.Articles[i + 1]? with
            | none => .error Fault.indexOutOfRange
            | some nx =>
              let s4 := if StartID ≤ (s3.mem nx).ID then s3.setNext v (some nx) else s3
              loadLoop StartID R k (i + 1) (upArticle s4 v false)

/-- The function `loadArticles()`, on the state in which `Ei.Articles` holds
the published articles as the store returned them. -/
def loadArticles (StartID : Int) (R : Renderer) (s : Account) : Except Fault Account :=
  let s0 : Account := { s with Articles := sortArticles s.mem s.Articles }
  match loadLoop StartID R s0.Articles.length 0 s0 with
  | .error f => .error f
  | .ok s1 => .ok ((s1.send true SERIES_MD).send true ARCHIVE_MD)

/-- Fetched from the store: one published article, 200. -/
def exLoadOne : Account :=
  { Articles := [0],
    mem := fun q =>
      if q = 0 then { ID := 200, Slug := "x", CreateTime := ⟨2020, 1, 5⟩ } else {} }

/-- Fetched from the store: the page 5 "about" with a creation time, the
article 200 created before it, and the page 6 "blogroll" with the zero
creation time; 5 and 6 are below the boundary 100. At address 3 a new Article
object, not fetched. -/
def exLoadPages : Account :=
  { Articles := [1, 2, 0],
    mem := fun q =>
      if q = 0 then { ID := 5, Slug := "about", CreateTime := ⟨2020, 3, 0⟩ }
      else if q = 1 then { ID := 200, Slug := "x", CreateTime := ⟨2020, 2, 0⟩ }
      else if q = 2 then { ID := 6, Slug := "blogroll" }
      else if q = 3 then { Slug := "new", CreateTime := ⟨2020, 4, 0⟩ }
      else {} }

/-- Fetched from the store: the articles 200 and 300 with the same creation
time and the page 5, in this order. -/
def exLoadTie : Account :=
  { Articles := [0, 1, 2],
    mem := fun q =>
      if q = 0 then { ID := 200, Slug := "x", CreateTime := ⟨2020, 1, 5⟩ }
      else if q = 1 then { ID := 300, Slug := "y", CreateTime := ⟨2020, 1, 5⟩ }
      else if q = 2 then { ID := 5, Slug := "about" }
      else {} }

/-- The same articles as in `exLoadTie`, returned by the store in another
order. -/
def exLoadTieSwapped : Account :=
  { exLoadTie with Articles := [1, 0, 2] }

/-- The same articles as in `exLoadPages`, returned by the store in another
order. -/
def exLoadPagesSwapped : Account :=
  { exLoadPages with Articles := [2, 0, 1] }

/-! ## The channel and the regeneration worker -/

/-- The capacity of the channel `Ei.CH`: `make(chan string, 2)` in
`loadAccount`. -/
def chanCap : Nat := 2

/-- A send `Ei.CH <- tok`, with `buf` the tokens that wait in the channel: with
room in the buffer the send completes at once; with the buffer full the sender
waits until the worker receives a token, which is `none`. -/
def chanSend (buf : List String) (tok : String) : Option (List String) :=
  if buf.length < chanCap then some (buf ++ [tok]) else none

/-- The sends of `toks`, one after the other, with no receive of the worker in
between; `none` when one of them has to wait. -/
def chanSendAll : List String → List String → Option (List String)
  | buf, [] => some buf
  | buf, tok :: rest =>
    match chanSend buf tok with
    | none => none
    | some buf1 => chanSendAll buf1 rest

/-- One write to the buffer in `generateMarkdown`: a plain text, the heading of
a serie, the year heading or the month heading of an archive (of its `Time`),
the line of a member in the emphasised form, the line of a member in the plain
bullet form. -/
inductive Piece
  | text (t : String)
  | serieHeading (name : String) (id : Int)
  | yearHeading (t : Time)
  | monthHeading (t : Time)
  | emph (artc : Ptr)
  | plain (artc : Ptr)
deriving DecidableEq, Repr

/-- The string a write puts in the buffer. `Format layout t` is `t.Format(layout)`
of the library. -/
def Piece.render (Format : String → Time → String) (mem : Ptr → Article) : Piece → String
  | .text t => t
  | .serieHeading name id => "### " ++ name ++ "\x7b#toc-" ++ toString id ++ "\x7d"
  | .yearHeading t => "\n### " ++ Format "2006 年" t ++ "\n\n"
  | .monthHeading t => "\n### " ++ Format "2006年1月" t ++ "\n\n"
  | .emph artc =>
    "* *[" ++ (mem artc).Title ++ "](/post/" ++ (mem artc).Slug ++
      ".html) <span class=\x22date\x22>(" ++ Format "Jan 02, 2006" (mem artc).CreateTime ++
      ")</span>*\n"
  | .plain artc =>
    "* [" ++ (mem artc).Title ++ "](/post/" ++ (mem artc).Slug ++
      ".html) <span class=\x22date\x22>(" ++ Format "Jan 02, 2006" (mem artc).CreateTime ++
      ")</span>\n"

/-- The order a sorted `SortSeries` has: `b` is not `Less` than `a`, where
`Less` is `s[i].ID > s[j].ID`. -/
def serieNotAfter (a b : Serie) : Prop := ¬ b.ID > a.ID

instance : DecidableRel serieNotAfter :=
  fun a b => inferInstanceAs (Decidable (¬ b.ID > a.ID))

/-- `SortSeries.Less` on two elements. -/
def lessSerie (a b : Serie) : Bool := decide (a.ID > b.ID)

/-- `sort.Sort(Ei.Series)`: the library routine with `SortSeries.Less`. -/
def sortSeries (l : List Serie) : List Serie :=
  goSort lessSerie l

/-- The order a sorted `SortArchives` has: `b` is not `Less` than `a`, where
`Less` is `s[i].Time.After(s[j].Time)`. -/
def archNotAfter (a b : Archive) : Prop := b.Time.After a.Time = false

instance : DecidableRel archNotAfter :=
  fun a b => inferInstanceAs (Decidable (b.Time.After a.Time = false))

/-- `SortArchives.Less` on two elements. -/
def lessArchive (a b : Archive) : Bool := a.Time.After b.Time

/-- `sort.Sort(Ei.Archives)`: the library routine with `SortArchives.Less`. -/
def sortArchives (l : List Archive) : List Archive :=
  goSort lessArchive l

/-- The loop over the series in the case `SERIES_MD`; the members of a serie
are written in the plain bullet form. -/
def seriesLoop : List Serie → List Piece
  | [] => []
  | serie :: rest =>
    [Piece.serieHeading serie.Name serie.ID, Piece.text "\n", Piece.text serie.Desc,
      Piece.text "\n\n"] ++ serie.Articles.map Piece.plain ++ [Piece.text "\n"] ++
      seriesLoop rest

/-- The loop `for i, artc := range archive.Articles`, from index `i` on. -/
def memberPieces (gt12Month : Bool) : Nat → List Ptr → List Piece
  | _, [] => []
  | i, artc :: rest =>
    (if i = 0 && gt12Month then Piece.emph artc else Piece.plain artc) ::
      memberPieces gt12Month (i + 1) rest

/-- The loop `for _, archive := range Ei.Archives` in the case `ARCHIVE_MD`.
The variable `currentYear` holds a year written by `Format("2006 年")`, or the
empty string at the start; two such strings are equal exactly when the years
are, so it is kept as the year number, `none` at the start. -/
def archiveLoop (gt12Month : Bool) : Option Int → List Archive → List Piece
  | _, [] => []
  | currentYear, archive :: rest =>
    if gt12Month then
      let year := archive.Time.year
      if currentYear ≠ some year then
        Piece.yearHeading archive.Time ::
          (memberPieces gt12Month 0 archive.Articles ++ archiveLoop gt12Month (some year) rest)
      else
        memberPieces gt12Month 0 archive.Articles ++ archiveLoop gt12Month currentYear rest
    else
      Piece.monthHeading archive.Time ::
        (memberPieces gt12Month 0 archive.Articles ++ archiveLoop gt12Month currentYear rest)

/-- The writes to the buffer in the case `ARCHIVE_MD`, for the sorted
`Ei.Archives`. -/
def archivePieces (say : String) (archives : List Archive) : List Piece :=
  Piece.text (say ++ "\n") :: archiveLoop (decide (archives.length > 12)) none archives

/-- The writes to the buffer in the case `SERIES_MD`, for the sorted
`Ei.Series`. -/
def seriesPieces (say : String) (series : List Serie) : List Piece :=
  Piece.text say :: Piece.text "\n\n" :: seriesLoop series

/-- One round of the loop of `generateMarkdown`, with `typ` the token received
from `Ei.CH`. `renderPage` is the markdown renderer of the repository applied
to the buffer, `Format` the date formatting of the library. -/
def generateMarkdown (renderPage : String → String) (Format : String → Time → String)
    (s : Account) (typ : String) : Account :=
  if typ = SERIES_MD then
    let series := sortSeries s.Series
    { s with
      Series := series
      PageSeries := renderPage
        (String.join ((seriesPieces s.SeriesSay series).map (Piece.render Format s.mem))) }
  else if typ = ARCHIVE_MD then
    let archives := sortArchives s.Archives
    { s with
      Archives := archives
      PageArchives := renderPage
        (String.join ((archivePieces s.ArchivesSay archives).map (Piece.render Format s.mem))) }
  else s

/-- The members written in the emphasised form, in the order of the markup. -/
def emphasised : List Piece → List Ptr
  | [] => []
  | .emph artc :: rest => artc :: emphasised rest
  | _ :: rest => emphasised rest

/-- The members written in the plain bullet form, in the order of the markup. -/
def plainMembers : List Piece → List Ptr
  | [] => []
  | .plain artc :: rest => artc :: plainMembers rest
  | _ :: rest => plainMembers rest

/-- The times of the year headings, in the order of the markup. -/
def yearHeadings : List Piece → List Time
  | [] => []
  | .yearHeading t :: rest => t :: yearHeadings rest
  | _ :: rest => yearHeadings rest

/-- The times of the month headings, in the order of the markup. -/
def monthHeadings : List Piece → List Time
  | [] => []
  | .monthHeading t :: rest => t :: monthHeadings rest
  | _ :: rest => monthHeadings rest

/-- The archive markup with year headings as the specification words it: a
bucket whose year is the year of no earlier bucket (`seen` holds the years of
the earlier buckets) is the first bucket of its year, and the year heading is
written before its members; the other buckets have their members only. The
first member of each bucket is emphasised. -/
def archiveRef : List Int → List Archive → List Piece
  | _, [] => []
  | seen, archive :: rest =>
    (if archive.Time.year ∈ seen then [] else [Piece.yearHeading archive.Time]) ++
      memberPieces true 0 archive.Articles ++ archiveRef (archive.Time.year :: seen) rest

/-- Thirteen monthly buckets sorted by time descending, December 2020 down to
December 2019, with one member each: the article at address `k` is the member
of the bucket at position `k`. -/
def exThirteen : Account :=
  { Archives :=
      [{ Time := ⟨2020, 12, 0⟩, Articles := [0] }, { Time := ⟨2020, 11, 0⟩, Articles := [1] },
       { Time := ⟨2020, 10, 0⟩, Articles := [2] }, { Time := ⟨2020, 9, 0⟩, Articles := [3] },
       { Time := ⟨2020, 8, 0⟩, Articles := [4] }, { Time := ⟨2020, 7, 0⟩, Articles := [5] },
       { Time := ⟨2020, 6, 0⟩, Articles := [6] }, { Time := ⟨2020, 5, 0⟩, Articles := [7] },
       { Time := ⟨2020, 4, 0⟩, Articles := [8] }, { Time := ⟨2020, 3, 0⟩, Articles := [9] },
       { Time := ⟨2020, 2, 0⟩, Articles := [10] }, { Time := ⟨2020, 1, 0⟩, Articles := [11] },
       { Time := ⟨2019, 12, 0⟩, Articles := [12] }] }

/-- A state with one published article 300, tagged "go", member of the series
7 and of the archive bucket of March 2020; the archive bucket of January 2020
has no member. At address 1 a new article of March 2020 with the tags "go" and
"lean" and the series 7; at address 2 a new article of January 2020. -/
def exRound : Account :=
  { Articles := [0],
    MapArticles := fun k => if k = "c" then some 0 else none,
    Tags := fun t => if t = "go" then some [0] else none,
    Series := [{ ID := 7, Name := "notes", Articles := [0] }],
    Archives := [{ Time := ⟨2020, 3, 0⟩, Articles := [0] },
      { Time := ⟨2020, 1, 0⟩, Articles := [] }],
    mem := fun q =>
      if q = 0 then
        { ID := 300, Slug := "c", Tags := ["go"], SerieID := 7, CreateTime := ⟨2020, 3, 0⟩ }
      else if q = 1 then
        { Slug := "d", Tags := ["go", "lean"], SerieID := 7, CreateTime := ⟨2020, 3, 9⟩ }
      else if q = 2 then
        { Slug := "e", CreateTime := ⟨2020, 1, 5⟩ }
      else {} }

/-- A consistent index with twelve published articles `200`, ..., `211` of one
and the same creation time, listed and linked in this order and members of the
archive bucket of January 2020. At address 12 a new Article object created
before them, at address 13 a new Article object created after them. -/
def exTied : Account :=
  { Articles := [0, 1, 2, 3, 4, 5, 6, 7, 8, 9, 10, 11],
    MapArticles := fun k =>
      (List.range 12).find? (fun q => decide ("post-" ++ toString q = k)),
    Archives := [{ Time := ⟨2020, 1, 0⟩, Articles := [0, 1, 2, 3, 4, 5, 6, 7, 8, 9, 10, 11] }],
    mem := fun q =>
      if q < 12 then
        { ID := 200 + (q : Int), Slug := "post-" ++ toString q, CreateTime := ⟨2020, 1, 0⟩,
          Prev := if q = 0 then none else some (q - 1),
          Next := if q = 11 then none else some (q + 1) }
      else if q = 12 then { Slug := "older", CreateTime := ⟨2019, 12, 0⟩ }
      else if q = 13 then { Slug := "newer", CreateTime := ⟨2020, 2, 0⟩ }
      else {} }

/-! # Theorems -/

/-! ## The library sort: swaps -/

theorem length_swapAt {α : Type} (l : List α) (i j : Nat) : (swapAt l i j).length = l.length := by
  unfold swapAt
  split <;> simp

theorem getElem?_swapAt {α : Type} (l : List α) (i j k : Nat) (hi : i < l.length)
    (hj : j < l.length) :
    (swapAt l i j)[k]? = if k = j then l[i]? else if k = i then l[j]? else l[k]? := by
  unfold swapAt
  rw [List.getElem?_eq_getElem hi, List.getElem?_eq_getElem hj]
  simp only [List.getElem?_set, List.length_set]
  by_cases h1 : j = k
  · subst h1
    simp [List.getElem?_eq_getElem hi, hj]
  · by_cases h2 : i = k
    · subst h2
      simp [h1, List.getElem?_eq_getElem hj, hi, Ne.symm h1]
    · simp [h1, h2, Ne.symm h1, Ne.symm h2]

theorem swapAt_perm {α : Type} (l : List α) (i j : Nat) : (swapAt l i j).Perm l := by
  by_cases hi : i < l.length
  · by_cases hj : j < l.length
    · classical
      rw [List.perm_iff_count]
      intro x
      have key : ∀ (m : List α) (k : Nat) (y : α) (hk : k < m.length),
          (m.set k y).count x + (if m[k] = x then 1 else 0)
            = m.count x + (if y = x then 1 else 0) := by
        intro m
        induction m with
        | nil => intro k y hk; simp at hk
        | cons z m ih =>
          intro k y hk
          cases k with
          | zero =>
            simp only [List.set_cons_zero, List.count_cons, List.getElem_cons_zero, beq_iff_eq]
            omega
          | succ k =>
            have := ih k y (by simpa using hk)
            simp only [List.set_cons_succ, List.count_cons, List.getElem_cons_succ, beq_iff_eq]
            omega
      unfold swapAt
      rw [List.getElem?_eq_getElem hi, List.getElem?_eq_getElem hj]
      simp only
      have h1 := key l i l[j] hi
      have h2 := key (l.set i l[j]) j l[i] (by simpa using hj)
      have hj2 : j < (l.set i l[j]).length := by simpa using hj
      have h3 : (l.set i l[j])[j] = l[j] := by
        rw [List.getElem_set]
        split <;> simp_all
      rw [h3] at h2
      omega
    · unfold swapAt
      rw [List.getElem?_eq_none (by omega : l.length ≤ j)]
      split <;> simp_all
  · unfold swapAt
    rw [List.getElem?_eq_none (by omega : l.length ≤ i)]

theorem swapsIn_trans {α : Type} {a b : Nat} {l l1 l2 : List α} (h1 : SwapsIn a b l l1)
    (h2 : SwapsIn a b l1 l2) : SwapsIn a b l l2 := by
  induction h1 with
  | refl l => exact h2
  | step l l1 i j hai hib haj hjb hb _ ih => exact SwapsIn.step l _ i j hai hib haj hjb hb (ih h2)

theorem swapsIn_swap {α : Type} {a b : Nat} (l : List α) (i j : Nat) (hai : a ≤ i) (hib : i < b)
    (haj : a ≤ j) (hjb : j < b) (hb : b ≤ l.length) : SwapsIn a b l (swapAt l i j) :=
  SwapsIn.step l _ i j hai hib haj hjb hb (SwapsIn.refl _)

theorem swapsIn_length {α : Type} {a b : Nat} {l l1 : List α} (h : SwapsIn a b l l1) :
    l1.length = l.length := by
  induction h with
  | refl l => rfl
  | step l l1 i j _ _ _ _ _ _ ih => rw [ih, length_swapAt]

theorem swapsIn_perm {α : Type} {a b : Nat} {l l1 : List α} (h : SwapsIn a b l l1) :
    l1.Perm l := by
  induction h with
  | refl l => exact List.Perm.refl l
  | step l l1 i j _ _ _ _ _ _ ih => exact ih.trans (swapAt_perm l i j)

theorem swapsIn_mono {α : Type} {a b a1 b1 : Nat} {l l1 : List α} (h : SwapsIn a b l l1)
    (ha : a1 ≤ a) (hb : b ≤ b1) (hl : b1 ≤ l.length) : SwapsIn a1 b1 l l1 := by
  induction h with
  | refl l => exact SwapsIn.refl l
  | step l l1 i j hai hib haj hjb _ _ ih =>
    exact SwapsIn.step l _ i j (by omega) (by omega) (by omega) (by omega) hl
      (ih (by rw [length_swapAt]; exact hl))

/-- Outside `[a, b)` nothing is written. -/
theorem swapsIn_frame {α : Type} {a b : Nat} {l l1 : List α} (h : SwapsIn a b l l1) (k : Nat)
    (hk : k < a ∨ b ≤ k) : l1[k]? = l[k]? := by
  induction h with
  | refl l => rfl
  | step l l1 i j hai hib haj hjb hb _ ih =>
    rw [ih, getElem?_swapAt l i j k (by omega) (by omega)]
    rw [if_neg (by omega), if_neg (by omega)]

/-- What stands in `[a, b)` afterwards stood in `[a, b)` before. -/
theorem swapsIn_from {α : Type} {a b : Nat} {l l1 : List α} (h : SwapsIn a b l l1) (k : Nat)
    (x : α) (hak : a ≤ k) (hkb : k < b) (hx : l1[k]? = some x) :
    ∃ k1, a ≤ k1 ∧ k1 < b ∧ l[k1]? = some x := by
  induction h generalizing k with
  | refl l => exact ⟨k, hak, hkb, hx⟩
  | step l l1 i j hai hib haj hjb hb _ ih =>
    obtain ⟨k1, h1, h2, h3⟩ := ih k hak hkb hx
    rw [getElem?_swapAt l i j k1 (by omega) (by omega)] at h3
    by_cases e1 : k1 = j
    · rw [if_pos e1] at h3
      exact ⟨i, hai, hib, h3⟩
    · rw [if_neg e1] at h3
      by_cases e2 : k1 = i
      · rw [if_pos e2] at h3
        exact ⟨j, haj, hjb, h3⟩
      · rw [if_neg e2] at h3
        exact ⟨k1, h1, h2, h3⟩

theorem swapsIn_allAt {α : Type} {a b : Nat} {l l1 : List α} (h : SwapsIn a b l l1)
    (P : α → Prop) (hP : AllAt l a b P) : AllAt l1 a b P := by
  intro k x hak hkb hx
  obtain ⟨k1, h1, h2, h3⟩ := swapsIn_from h k x hak hkb hx
  exact hP k1 x h1 h2 h3

/-! ## The library sort: order at indices -/

theorem sortedIn_iff {α : Type} (less : α → α → Bool) (l : List α) (a b : Nat) :
    SortedIn less l a b ↔ ∀ p q, a ≤ p → p < q → q < b → LeAt less l p q :=
  ⟨fun h p q h1 h2 h3 x y hx hy => h p q x y h1 h2 h3 hx hy,
   fun h p q x y h1 h2 h3 hx hy => h p q h1 h2 h3 x y hx hy⟩

theorem leAt_swapAt {α : Type} (less : α → α → Bool) (l : List α) (i j p q : Nat)
    (hi : i < l.length) (hj : j < l.length) :
    LeAt less (swapAt l i j) p q ↔ LeAt less l (swapIdx i j p) (swapIdx i j q) := by
  have key : ∀ k, (swapAt l i j)[k]? = l[swapIdx i j k]? := by
    intro k
    rw [getElem?_swapAt l i j k hi hj]
    unfold swapIdx
    split
    · rfl
    · split <;> rfl
  unfold LeAt
  rw [key p, key q]

theorem leAt_of_not_lessAt {α : Type} (less : α → α → Bool) (l : List α) (i j : Nat)
    (h : lessAt less l i j = false) : LeAt less l j i := by
  intro x y hx hy
  unfold lessAt at h
  rw [hy, hx] at h
  exact h

theorem leAt_of_lessAt {α : Type} {less : α → α → Bool} (hw : WeakOrder less) (l : List α)
    (i j : Nat) (h : lessAt less l i j = true) : LeAt less l i j := by
  intro x y hx hy
  unfold lessAt at h
  rw [hx, hy] at h
  exact hw.asymm x y h

theorem leAt_trans {α : Type} {less : α → α → Bool} (hw : WeakOrder less) (l : List α)
    (p q r : Nat) (hq : q < l.length) (h1 : LeAt less l p q) (h2 : LeAt less l q r) :
    LeAt less l p r := by
  intro x z hx hz
  have hy := List.getElem?_eq_getElem hq
  exact hw.trans x l[q] z (h1 x _ hx hy) (h2 _ z hy hz)

theorem leAt_refl {α : Type} {less : α → α → Bool} (hw : WeakOrder less) (l : List α)
    (p : Nat) : LeAt less l p p := by
  intro x y hx hy
  rw [hx] at hy
  cases hy
  unfold LeOf
  cases h : less x x with
  | false => rfl
  | true => exact absurd (hw.asymm x x h) (by simp [h])

theorem leAt_total {α : Type} {less : α → α → Bool} (hw : WeakOrder less) (l : List α)
    (p q : Nat) : LeAt less l p q ∨ LeAt less l q p := by
  cases h : lessAt less l p q with
  | false => exact Or.inr (leAt_of_not_lessAt less l p q h)
  | true => exact Or.inl (leAt_of_lessAt hw l p q h)

/-! ## The library sort: `insertionSort` -/

theorem insertLeft_swaps {α : Type} (less : α → α → Bool) (a b j : Nat) (l : List α)
    (hj : j < b) (hb : b ≤ l.length) : SwapsIn a b l (insertLeft less a j l) := by
  induction j generalizing l with
  | zero => exact SwapsIn.refl l
  | succ j ih =>
    unfold insertLeft
    split
    · rename_i hc
      simp only [Bool.and_eq_true, decide_eq_true_eq] at hc
      exact SwapsIn.step l _ (j + 1) j (by omega) hj (by omega) (by omega) hb
        (ih _ (by omega) (by rw [length_swapAt]; exact hb))
    · exact SwapsIn.refl l

/-- One insertion: the element at `j` travels to the left into the sorted part
before it. -/
theorem insertLeft_sorted {α : Type} {less : α → α → Bool} (hw : WeakOrder less) (a i j : Nat)
    (l : List α) (hji : j ≤ i) (hi : i < l.length)
    (h1 : ∀ p q, a ≤ p → p < q → q < j → LeAt less l p q)
    (h2 : ∀ p q, j ≤ p → p < q → q < i + 1 → LeAt less l p q)
    (h3 : ∀ p q, a ≤ p → p < j → j < q → q < i + 1 → LeAt less l p q) :
    ∀ p q, a ≤ p → p < q → q < i + 1 → LeAt less (insertLeft less a j l) p q := by
  induction j generalizing l with
  | zero =>
    intro p q hp hpq hq
    exact h2 p q (by omega) hpq hq
  | succ j ih =>
    unfold insertLeft
    split
    · rename_i hc
      simp only [Bool.and_eq_true, decide_eq_true_eq] at hc
      obtain ⟨hja, hless⟩ := hc
      have hlt := leAt_of_lessAt hw l (j + 1) j hless
      have hsw : ∀ p q, LeAt less (swapAt l (j + 1) j) p q
          ↔ LeAt less l (swapIdx (j + 1) j p) (swapIdx (j + 1) j q) :=
        fun p q => leAt_swapAt less l (j + 1) j p q (by omega) (by omega)
      apply ih (swapAt l (j + 1) j) (by omega) (by rw [length_swapAt]; exact hi)
      · intro p q hp hpq hq
        rw [hsw]
        unfold swapIdx
        rw [if_neg (by omega), if_neg (by omega), if_neg (by omega), if_neg (by omega)]
        exact h1 p q hp hpq (by omega)
      · intro p q hp hpq hq
        rw [hsw]
        unfold swapIdx
        by_cases e1 : p = j
        · rw [if_pos e1]
          by_cases e2 : q = j + 1
          · rw [if_neg (by omega), if_pos e2]
            exact hlt
          · rw [if_neg (by omega), if_neg e2]
            exact h2 (j + 1) q (le_refl _) (by omega) hq
        · rw [if_neg e1]
          by_cases e3 : p = j + 1
          · rw [if_pos e3, if_neg (by omega), if_neg (by omega)]
            exact h3 j q (by omega) (by omega) (by omega) hq
          · rw [if_neg e3, if_neg (by omega), if_neg (by omega)]
            exact h2 p q (by omega) hpq hq
      · intro p q hp hpj hjq hq
        rw [hsw]
        unfold swapIdx
        rw [if_neg (by omega), if_neg (by omega)]
        by_cases e2 : q = j + 1
        · rw [if_neg (by omega), if_pos e2]
          exact h1 p j hp hpj (by omega)
        · rw [if_neg (by omega), if_neg e2]
          exact h3 p q hp (by omega) (by omega) hq
    · rename_i hc
      intro p q hp hpq hq
      by_cases hja : j + 1 > a
      · have hless : lessAt less l (j + 1) j = false := by
          cases h : lessAt less l (j + 1) j with
          | false => rfl
          | true => exact absurd (by simp [hja, h]) hc
        have hle := leAt_of_not_lessAt less l (j + 1) j hless
        by_cases hq1 : q < j + 1
        · exact h1 p q hp hpq hq1
        · by_cases hp1 : j + 1 ≤ p
          · exact h2 p q hp1 hpq hq
          · by_cases hq2 : q = j + 1
            · subst hq2
              by_cases hp2 : p = j
              · subst hp2; exact hle
              · exact leAt_trans hw l p j (j + 1) (by omega)
                  (h1 p j hp (by omega) (by omega)) hle
            · exact h3 p q hp (by omega) (by omega) hq
      · exact h2 p q (by omega) hpq hq

theorem insertionLoop_swaps {α : Type} (less : α → α → Bool) (a b k i : Nat) (l : List α)
    (hb : b ≤ l.length) : SwapsIn a b l (insertionLoop less a b k i l) := by
  induction k generalizing i l with
  | zero => exact SwapsIn.refl l
  | succ k ih =>
    unfold insertionLoop
    split
    · rename_i hc
      have h1 := insertLeft_swaps less a b i l hc hb
      exact swapsIn_trans h1 (ih _ _ (by rw [swapsIn_length h1]; exact hb))
    · exact SwapsIn.refl l

theorem insertionLoop_sorted {α : Type} {less : α → α → Bool} (hw : WeakOrder less)
    (a b k i : Nat) (l : List α) (hb : b ≤ l.length) (hai : a < i) (hk : b ≤ i + k)
    (h : ∀ p q, a ≤ p → p < q → q < i → LeAt less l p q) :
    ∀ p q, a ≤ p → p < q → q < b → LeAt less (insertionLoop less a b k i l) p q := by
  induction k generalizing i l with
  | zero =>
    intro p q hp hpq hq
    exact h p q hp hpq (by omega)
  | succ k ih =>
    unfold insertionLoop
    split
    · rename_i hc
      have hs := insertLeft_swaps less a b i l hc hb
      apply ih (i + 1) _ (by rw [swapsIn_length hs]; exact hb) (by omega) (by omega)
      exact insertLeft_sorted hw a i i l (le_refl _) (by omega) h
        (fun p q h1 h2 h3 => by omega) (fun p q h1 h2 h3 h4 => by omega)
    · intro p q hp hpq hq
      exact h p q hp hpq (by omega)

theorem insertionSort_swaps {α : Type} (less : α → α → Bool) (l : List α) (a b : Nat)
    (hb : b ≤ l.length) : SwapsIn a b l (insertionSort less l a b) :=
  insertionLoop_swaps less a b (b - a) (a + 1) l hb

theorem insertionSort_sorted {α : Type} {less : α → α → Bool} (hw : WeakOrder less)
    (l : List α) (a b : Nat) (hb : b ≤ l.length) :
    SortedIn less (insertionSort less l a b) a b := by
  rw [sortedIn_iff]
  exact insertionLoop_sorted hw a b (b - a) (a + 1) l hb (by omega) (by omega)
    (fun p q h1 h2 h3 => by omega)

/-! ## The library sort: `partition` -/

theorem lessUp_spec {α : Type} {less : α → α → Bool} (hw : WeakOrder less) (l : List α)
    (a j k i : Nat) (hk : j + 1 ≤ i + k) (hij : i ≤ j + 1)
    (hL : ∀ t, a < t → t < i → LeAt less l t a) :
    i ≤ lessUp less l a j k i ∧ lessUp less l a j k i ≤ j + 1 ∧
    (∀ t, a < t → t < lessUp less l a j k i → LeAt less l t a) ∧
    (lessUp less l a j k i ≤ j → lessAt less l (lessUp less l a j k i) a = false) := by
  induction k generalizing i with
  | zero =>
    unfold lessUp
    exact ⟨le_refl _, hij, hL, fun h => by omega⟩
  | succ k ih =>
    unfold lessUp
    split
    · rename_i hc
      simp only [Bool.and_eq_true, decide_eq_true_eq] at hc
      obtain ⟨h1, h2, h3, h4⟩ := ih (i + 1) (by omega) (by omega) (by
        intro t hat hti
        by_cases e : t = i
        · subst e; exact leAt_of_lessAt hw l t a hc.2
        · exact hL t hat (by omega))
      exact ⟨by omega, h2, h3, h4⟩
    · rename_i hc
      refine ⟨le_refl _, hij, hL, fun h => ?_⟩
      cases hl : lessAt less l i a with
      | false => rfl
      | true => exact absurd (by simp [h, hl]) hc

theorem lessDown_spec {α : Type} (less : α → α → Bool) (l : List α)
    (a b i k j : Nat) (hk : j + 1 ≤ i + k) (hij : i ≤ j + 1) (hi : 1 ≤ i)
    (hR : ∀ t, j < t → t < b → LeAt less l a t) :
    lessDown less l a i k j ≤ j ∧ i ≤ lessDown less l a i k j + 1 ∧
    (∀ t, lessDown less l a i k j < t → t < b → LeAt less l a t) ∧
    (i ≤ lessDown less l a i k j → lessAt less l (lessDown less l a i k j) a = true) := by
  induction k generalizing j with
  | zero =>
    unfold lessDown
    exact ⟨le_refl _, hij, hR, fun h => by omega⟩
  | succ k ih =>
    unfold lessDown
    split
    · rename_i hc
      simp only [Bool.and_eq_true, decide_eq_true_eq, Bool.not_eq_true'] at hc
      obtain ⟨h1, h2, h3, h4⟩ := ih (j - 1) (by omega) (by omega) (by
        intro t hjt htb
        by_cases e : t = j
        · subst e; exact leAt_of_not_lessAt less l t a hc.2
        · exact hR t (by omega) htb)
      exact ⟨by omega, h2, h3, h4⟩
    · rename_i hc
      refine ⟨le_refl _, hij, hR, fun h => ?_⟩
      cases hl : lessAt less l j a with
      | true => rfl
      | false => exact absurd (by simp [h, hl]) hc

/-- The loop of `partition`: the pivot stays at `a`; at the end the elements
up to `j` are not after the pivot and those after `j` not before it. -/
theorem partitionLoop_spec {α : Type} {less : α → α → Bool} (hw : WeakOrder less)
    (a b k i j : Nat) (l : List α) (hb : b ≤ l.length) (hai : a < i) (hij : i ≤ j + 1)
    (hjb : j < b) (hk : j + 1 ≤ i + k)
    (hL : ∀ t, a < t → t < i → LeAt less l t a)
    (hR : ∀ t, j < t → t < b → LeAt less l a t) :
    SwapsIn (a + 1) b l (partitionLoop less a k i j l).1 ∧
    a ≤ (partitionLoop less a k i j l).2 ∧ (partitionLoop less a k i j l).2 < b ∧
    (∀ t, a < t → t ≤ (partitionLoop less a k i j l).2 →
      LeAt less (partitionLoop less a k i j l).1 t a) ∧
    (∀ t, (partitionLoop less a k i j l).2 < t → t < b →
      LeAt less (partitionLoop less a k i j l).1 a t) := by
  induction k generalizing i j l with
  | zero =>
    unfold partitionLoop
    exact ⟨SwapsIn.refl l, by omega, hjb, fun t h1 h2 => hL t h1 (by omega), hR⟩
  | succ k ih =>
    unfold partitionLoop
    dsimp only
    obtain ⟨u1, u2, u3, u4⟩ := lessUp_spec hw l a j (j + 1 - i) i (by omega) hij hL
    obtain ⟨d1, d2, d3, d4⟩ := lessDown_spec less l a b (lessUp less l a j (j + 1 - i) i)
      (j + 1 - lessUp less l a j (j + 1 - i) i) j (by omega) u2 (by omega) hR
    generalize lessUp less l a j (j + 1 - i) i = i1 at *
    generalize lessDown less l a i1 (j + 1 - i1) j = j1 at *
    split
    · exact ⟨SwapsIn.refl l, by omega, by omega, fun t h1 h2 => u3 t h1 (by omega), d3⟩
    · rename_i hc
      have hle : i1 ≤ j1 := by omega
      have hf := u4 (by omega)
      have ht := d4 hle
      have hne : i1 ≠ j1 := by
        intro e
        rw [e] at hf
        rw [hf] at ht
        cases ht
      have hsw : ∀ p q, LeAt less (swapAt l i1 j1) p q
          ↔ LeAt less l (swapIdx i1 j1 p) (swapIdx i1 j1 q) :=
        fun p q => leAt_swapAt less l i1 j1 p q (by omega) (by omega)
      obtain ⟨r1, r2, r3, r4, r5⟩ := ih (i1 + 1) (j1 - 1) (swapAt l i1 j1)
        (by rw [length_swapAt]; exact hb) (by omega) (by omega) (by omega) (by omega)
        (by
          intro t hat hti
          rw [hsw]
          unfold swapIdx
          by_cases e : t = i1
          · rw [if_neg (by omega), if_pos e, if_neg (by omega), if_neg (by omega)]
            exact leAt_of_lessAt hw l j1 a ht
          · rw [if_neg (by omega), if_neg e, if_neg (by omega), if_neg (by omega)]
            exact u3 t hat (by omega))
        (by
          intro t hjt htb
          rw [hsw]
          unfold swapIdx
          by_cases e : t = j1
          · rw [if_neg (by omega), if_neg (by omega), if_pos e]
            exact leAt_of_not_lessAt less l i1 a hf
          · rw [if_neg (by omega), if_neg (by omega), if_neg e, if_neg (by omega)]
            exact d3 t (by omega) htb)
      exact ⟨SwapsIn.step l _ i1 j1 (by omega) (by omega) (by omega) (by omega) hb r1,
        r2, r3, r4, r5⟩

/-- The last step of `partition`, `data.Swap(j, a)`: the pivot comes to stand
at `j`, between the elements not after it and those not before it. -/
theorem partition_final {α : Type} (less : α → α → Bool) (a b j : Nat) (m : List α)
    (hb : b ≤ m.length) (haj : a ≤ j) (hjb : j < b)
    (hL : ∀ t, a < t → t ≤ j → LeAt less m t a)
    (hR : ∀ t, j < t → t < b → LeAt less m a t) :
    (∀ t, a ≤ t → t < j → LeAt less (swapAt m j a) t j) ∧
    (∀ t, j < t → t < b → LeAt less (swapAt m j a) j t) := by
  have hsw : ∀ p q, LeAt less (swapAt m j a) p q
      ↔ LeAt less m (swapIdx j a p) (swapIdx j a q) :=
    fun p q => leAt_swapAt less m j a p q (by omega) (by omega)
  constructor
  · intro t hat htj
    rw [hsw]
    unfold swapIdx
    by_cases e : t = a
    · rw [if_pos e, if_neg (by omega), if_pos rfl]
      exact hL j (by omega) (le_refl _)
    · rw [if_neg e, if_neg (by omega), if_neg (by omega), if_pos rfl]
      exact hL t (by omega) (by omega)
  · intro t hjt htb
    rw [hsw]
    unfold swapIdx
    rw [if_neg (by omega : ¬ t = a), if_neg (by omega : ¬ t = j)]
    by_cases e : j = a
    · rw [if_pos e]
      rw [e]
      exact hR t hjt htb
    · rw [if_neg e, if_pos rfl]
      exact hR t hjt htb

/-- The function `partition`: it swaps inside `[a, b)`; the returned index is
in `[a, b)`, no element before it in `[a, b)` is after its element and no
element after it is before its element. -/
theorem partition_spec {α : Type} {less : α → α → Bool} (hw : WeakOrder less) (l : List α)
    (a b pivot : Nat) (hb : b ≤ l.length) (hap : a ≤ pivot) (hpb : pivot < b) :
    SwapsIn a b l (partition less l a b pivot).1 ∧
    a ≤ (partition less l a b pivot).2.1 ∧ (partition less l a b pivot).2.1 < b ∧
    (∀ t, a ≤ t → t < (partition less l a b pivot).2.1 →
      LeAt less (partition less l a b pivot).1 t (partition less l a b pivot).2.1) ∧
    (∀ t, (partition less l a b pivot).2.1 < t → t < b →
      LeAt less (partition less l a b pivot).1 (partition less l a b pivot).2.1 t) := by
  have hs0 : SwapsIn a b l (swapAt l a pivot) :=
    swapsIn_swap l a pivot (le_refl _) (by omega) hap hpb hb
  have hb1 : b ≤ (swapAt l a pivot).length := by rw [length_swapAt]; exact hb
  unfold partition
  dsimp only
  generalize swapAt l a pivot = l1 at *
  obtain ⟨u1, u2, u3, u4⟩ := lessUp_spec hw l1 a (b - 1) (b - 1 + 1 - (a + 1)) (a + 1)
    (by omega) (by omega) (fun t h1 h2 => by omega)
  obtain ⟨d1, d2, d3, d4⟩ := lessDown_spec less l1 a b
    (lessUp less l1 a (b - 1) (b - 1 + 1 - (a + 1)) (a + 1))
    (b - 1 + 1 - lessUp less l1 a (b - 1) (b - 1 + 1 - (a + 1)) (a + 1)) (b - 1)
    (by omega) u2 (by omega) (fun t h1 h2 => by omega)
  generalize lessUp less l1 a (b - 1) (b - 1 + 1 - (a + 1)) (a + 1) = i1 at *
  generalize lessDown less l1 a i1 (b - 1 + 1 - i1) (b - 1) = j1 at *
  split
  · have hf := partition_final less a b j1 l1 hb1 (by omega) (by omega)
      (fun t h1 h2 => u3 t h1 (by omega)) d3
    exact ⟨swapsIn_trans hs0 (swapsIn_swap l1 j1 a (by omega) (by omega) (le_refl _)
      (by omega) hb1), (by show a ≤ j1; omega), (by show j1 < b; omega), hf.1, hf.2⟩
  · rename_i hc
    have hle : i1 ≤ j1 := by omega
    have hfl := u4 (by omega)
    have htr := d4 hle
    have hne : i1 ≠ j1 := by
      intro e
      rw [e] at hfl
      rw [hfl] at htr
      cases htr
    have hsw : ∀ p q, LeAt less (swapAt l1 i1 j1) p q
        ↔ LeAt less l1 (swapIdx i1 j1 p) (swapIdx i1 j1 q) :=
      fun p q => leAt_swapAt less l1 i1 j1 p q (by omega) (by omega)
    obtain ⟨r1, r2, r3, r4, r5⟩ := partitionLoop_spec hw a b (b - a) (i1 + 1) (j1 - 1)
      (swapAt l1 i1 j1) (by rw [length_swapAt]; exact hb1) (by omega) (by omega) (by omega)
      (by omega)
      (by
        intro t hat hti
        rw [hsw]
        unfold swapIdx
        by_cases e : t = i1
        · rw [if_neg (by omega), if_pos e, if_neg (by omega), if_neg (by omega)]
          exact leAt_of_lessAt hw l1 j1 a htr
        · rw [if_neg (by omega), if_neg e, if_neg (by omega), if_neg (by omega)]
          exact u3 t hat (by omega))
      (by
        intro t hjt htb
        rw [hsw]
        unfold swapIdx
        by_cases e : t = j1
        · rw [if_neg (by omega), if_neg (by omega), if_pos e]
          exact leAt_of_not_lessAt less l1 i1 a hfl
        · rw [if_neg (by omega), if_neg (by omega), if_neg e, if_neg (by omega)]
          exact d3 t (by omega) htb)
    generalize partitionLoop less a (b - a) (i1 + 1) (j1 - 1) (swapAt l1 i1 j1) = r at *
    have hlen : b ≤ r.1.length := by
      rw [swapsIn_length r1, length_swapAt]; exact hb1
    have hf := partition_final less a b r.2 r.1 hlen r2 r3 r4 r5
    refine ⟨?_, r2, r3, hf.1, hf.2⟩
    refine swapsIn_trans hs0 (swapsIn_trans (swapsIn_swap l1 i1 j1 (by omega) (by omega)
      (by omega) (by omega) hb1) (swapsIn_trans (swapsIn_mono r1 (by omega) (le_refl _)
      (by rw [length_swapAt]; exact hb1)) ?_))
    exact swapsIn_swap r.1 r.2 a r2 r3 (le_refl _) (by omega) hlen

/-! ## The library sort: `partitionEqual` -/

theorem equalUp_spec {α : Type} (less : α → α → Bool) (l : List α)
    (a j k i : Nat) (hk : j + 1 ≤ i + k) (hij : i ≤ j + 1)
    (hL : ∀ t, a < t → t < i → LeAt less l t a) :
    i ≤ equalUp less l a j k i ∧ equalUp less l a j k i ≤ j + 1 ∧
    (∀ t, a < t → t < equalUp less l a j k i → LeAt less l t a) ∧
    (equalUp less l a j k i ≤ j → lessAt less l a (equalUp less l a j k i) = true) := by
  induction k generalizing i with
  | zero =>
    unfold equalUp
    exact ⟨le_refl _, hij, hL, fun h => by omega⟩
  | succ k ih =>
    unfold equalUp
    split
    · rename_i hc
      simp only [Bool.and_eq_true, decide_eq_true_eq, Bool.not_eq_true'] at hc
      obtain ⟨h1, h2, h3, h4⟩ := ih (i + 1) (by omega) (by omega) (by
        intro t hat hti
        by_cases e : t = i
        · subst e; exact leAt_of_not_lessAt less l a t hc.2
        · exact hL t hat (by omega))
      exact ⟨by omega, h2, h3, h4⟩
    · rename_i hc
      refine ⟨le_refl _, hij, hL, fun h => ?_⟩
      cases hl : lessAt less l a i with
      | true => rfl
      | false => exact absurd (by simp [h, hl]) hc

theorem equalDown_spec {α : Type} (less : α → α → Bool) (l : List α)
    (a i k j : Nat) (hk : j + 1 ≤ i + k) (hij : i ≤ j + 1) (hi : 1 ≤ i) :
    equalDown less l a i k j ≤ j ∧ i ≤ equalDown less l a i k j + 1 ∧
    (i ≤ equalDown less l a i k j → lessAt less l a (equalDown less l a i k j) = false) := by
  induction k generalizing j with
  | zero =>
    unfold equalDown
    exact ⟨le_refl _, hij, fun h => by omega⟩
  | succ k ih =>
    unfold equalDown
    split
    · rename_i hc
      simp only [Bool.and_eq_true, decide_eq_true_eq] at hc
      obtain ⟨h1, h2, h3⟩ := ih (j - 1) (by omega) (by omega)
      exact ⟨by omega, h2, h3⟩
    · rename_i hc
      refine ⟨le_refl _, hij, fun h => ?_⟩
      cases hl : lessAt less l a j with
      | false => rfl
      | true => exact absurd (by simp [h, hl]) hc

/-- The loop of `partitionEqual`: the pivot stays at `a`, and no element before
the returned index is after the pivot. -/
theorem partitionEqualLoop_spec {α : Type} (less : α → α → Bool)
    (a b k i j : Nat) (l : List α) (hb : b ≤ l.length) (hai : a < i) (hij : i ≤ j + 1)
    (hjb : j < b) (hL : ∀ t, a < t → t < i → LeAt less l t a) :
    SwapsIn (a + 1) b l (partitionEqualLoop less a k i j l).1 ∧
    a < (partitionEqualLoop less a k i j l).2 ∧ (partitionEqualLoop less a k i j l).2 ≤ b ∧
    (∀ t, a < t → t < (partitionEqualLoop less a k i j l).2 →
      LeAt less (partitionEqualLoop less a k i j l).1 t a) := by
  induction k generalizing i j l with
  | zero =>
    unfold partitionEqualLoop
    exact ⟨SwapsIn.refl l, hai, by show i ≤ b; omega, hL⟩
  | succ k ih =>
    unfold partitionEqualLoop
    dsimp only
    obtain ⟨u1, u2, u3, u4⟩ := equalUp_spec less l a j (j + 1 - i) i (by omega) hij hL
    generalize equalUp less l a j (j + 1 - i) i = i1 at *
    obtain ⟨d1, d2, d3⟩ := equalDown_spec less l a i1 (j + 1 - i1) j (by omega) u2 (by omega)
    generalize equalDown less l a i1 (j + 1 - i1) j = j1 at *
    split
    · exact ⟨SwapsIn.refl l, by show a < i1; omega, by show i1 ≤ b; omega, u3⟩
    · rename_i hc
      have hle : i1 ≤ j1 := by omega
      have hfl := d3 hle
      have htr := u4 (by omega)
      have hne : i1 ≠ j1 := by
        intro e
        rw [e] at htr
        rw [hfl] at htr
        cases htr
      have hsw : ∀ p q, LeAt less (swapAt l i1 j1) p q
          ↔ LeAt less l (swapIdx i1 j1 p) (swapIdx i1 j1 q) :=
        fun p q => leAt_swapAt less l i1 j1 p q (by omega) (by omega)
      obtain ⟨r1, r2, r3, r4⟩ := ih (i1 + 1) (j1 - 1) (swapAt l i1 j1)
        (by rw [length_swapAt]; exact hb) (by omega) (by omega) (by omega)
        (by
          intro t hat hti
          rw [hsw]
          unfold swapIdx
          by_cases e : t = i1
          · rw [if_neg (by omega), if_pos e, if_neg (by omega), if_neg (by omega)]
            exact leAt_of_not_lessAt less l a j1 hfl
          · rw [if_neg (by omega), if_neg e, if_neg (by omega), if_neg (by omega)]
            exact u3 t hat (by omega))
      exact ⟨SwapsIn.step l _ i1 j1 (by omega) (by omega) (by omega) (by omega) hb r1,
        r2, r3, r4⟩

/-- The function `partitionEqual`: it swaps inside `[a, b)` and puts the pivot
at `a`; the returned index is in `(a, b]`, and no element of `[a, b)` before it
is after the pivot. -/
theorem partitionEqual_spec {α : Type} {less : α → α → Bool} (hw : WeakOrder less)
    (l : List α) (a b pivot : Nat) (hb : b ≤ l.length) (hap : a ≤ pivot) (hpb : pivot < b) :
    SwapsIn a b l (partitionEqual less l a b pivot).1 ∧
    a < (partitionEqual less l a b pivot).2 ∧ (partitionEqual less l a b pivot).2 ≤ b ∧
    (partitionEqual less l a b pivot).1[a]? = l[pivot]? ∧
    (∀ t, a ≤ t → t < (partitionEqual less l a b pivot).2 →
      LeAt less (partitionEqual less l a b pivot).1 t a) := by
  have hs0 : SwapsIn a b l (swapAt l a pivot) :=
    swapsIn_swap l a pivot (le_refl _) (by omega) hap hpb hb
  have hb1 : b ≤ (swapAt l a pivot).length := by rw [length_swapAt]; exact hb
  have hp : (swapAt l a pivot)[a]? = l[pivot]? := by
    rw [getElem?_swapAt l a pivot a (by omega) (by omega)]
    by_cases e : a = pivot
    · rw [if_pos e, e]
    · rw [if_neg e, if_pos rfl]
  unfold partitionEqual
  generalize swapAt l a pivot = l1 at *
  obtain ⟨r1, r2, r3, r4⟩ := partitionEqualLoop_spec less a b (b - a) (a + 1) (b - 1) l1 hb1
    (by omega) (by omega) (by omega) (fun t h1 h2 => by omega)
  generalize partitionEqualLoop less a (b - a) (a + 1) (b - 1) l1 = r at *
  refine ⟨swapsIn_trans hs0 (swapsIn_mono r1 (by omega) (le_refl _) hb1), r2, r3, ?_, ?_⟩
  · rw [swapsIn_frame r1 a (Or.inl (by omega)), hp]
  · intro t hat htr
    by_cases e : t = a
    · subst e; exact leAt_refl hw _ _
    · exact r4 t (by omega) htr

/-! ## The library sort: `choosePivot`, `breakPatterns`, `reverseRange` -/

theorem order2_fst {α : Type} (less : α → α → Bool) (l : List α) (a b s : Nat) :
    ((order2 less l a b s).1 = a ∧ (order2 less l a b s).2.1 = b) ∨
    ((order2 less l a b s).1 = b ∧ (order2 less l a b s).2.1 = a) := by
  unfold order2
  split
  · exact Or.inr ⟨rfl, rfl⟩
  · exact Or.inl ⟨rfl, rfl⟩

theorem median_mem {α : Type} (less : α → α → Bool) (l : List α) (a b c s : Nat) :
    (median less l a b c s).1 = a ∨ (median less l a b c s).1 = b ∨
      (median less l a b c s).1 = c := by
  unfold median
  dsimp only
  rcases order2_fst less l a b s with ⟨h1, h2⟩ | ⟨h1, h2⟩ <;>
  rcases order2_fst less l (order2 less l a b s).2.1 c (order2 less l a b s).2.2
    with ⟨h3, h4⟩ | ⟨h3, h4⟩ <;>
  rcases order2_fst less l (order2 less l a b s).1
    (order2 less l (order2 less l a b s).2.1 c (order2 less l a b s).2.2).1
    (order2 less l (order2 less l a b s).2.1 c (order2 less l a b s).2.2).2.2
    with ⟨h5, h6⟩ | ⟨h5, h6⟩ <;>
  simp_all

/-- The pivot that `choosePivot` returns is an index of `[a, b)`. -/
theorem choosePivot_range {α : Type} (less : α → α → Bool) (l : List α) (a b : Nat)
    (hab : a < b) :
    a ≤ (choosePivot less l a b).1 ∧ (choosePivot less l a b).1 < b := by
  have hfst : ∀ r : Nat × Nat,
      (if r.2 = 0 then (r.1, SortedHint.increasingHint)
        else if r.2 = 12 then (r.1, SortedHint.decreasingHint)
        else (r.1, SortedHint.unknownHint)).1 = r.1 := by
    intro r
    split
    · rfl
    · split <;> rfl
  unfold choosePivot
  dsimp only
  rw [hfst]
  split
  · rename_i h8
    split
    · rename_i h50
      have hi := median_mem less l (a + (b - a) / 4 * 1 - 1) (a + (b - a) / 4 * 1)
        (a + (b - a) / 4 * 1 + 1) 0
      have hj := median_mem less l (a + (b - a) / 4 * 2 - 1) (a + (b - a) / 4 * 2)
        (a + (b - a) / 4 * 2 + 1)
        (medianAdjacent less l (a + (b - a) / 4 * 1) 0).2
      have hk := median_mem less l (a + (b - a) / 4 * 3 - 1) (a + (b - a) / 4 * 3)
        (a + (b - a) / 4 * 3 + 1)
        (medianAdjacent less l (a + (b - a) / 4 * 2)
          (medianAdjacent less l (a + (b - a) / 4 * 1) 0).2).2
      have hm := median_mem less l (medianAdjacent less l (a + (b - a) / 4 * 1) 0).1
        (medianAdjacent less l (a + (b - a) / 4 * 2)
          (medianAdjacent less l (a + (b - a) / 4 * 1) 0).2).1
        (medianAdjacent less l (a + (b - a) / 4 * 3)
          (medianAdjacent less l (a + (b - a) / 4 * 2)
            (medianAdjacent less l (a + (b - a) / 4 * 1) 0).2).2).1
        (medianAdjacent less l (a + (b - a) / 4 * 3)
          (medianAdjacent less l (a + (b - a) / 4 * 2)
            (medianAdjacent less l (a + (b - a) / 4 * 1) 0).2).2).2
      unfold medianAdjacent at hm ⊢
      unfold medianAdjacent at hj hk
      generalize (median less l (a + (b - a) / 4 * 1 - 1) (a + (b - a) / 4 * 1)
        (a + (b - a) / 4 * 1 + 1) 0) = ri at *
      generalize (median less l (a + (b - a) / 4 * 2 - 1) (a + (b - a) / 4 * 2)
        (a + (b - a) / 4 * 2 + 1) ri.2) = rj at *
      generalize (median less l (a + (b - a) / 4 * 3 - 1) (a + (b - a) / 4 * 3)
        (a + (b - a) / 4 * 3 + 1) rj.2) = rk at *
      generalize (median less l ri.1 rj.1 rk.1 rk.2).1 = m at *
      omega
    · have hm := median_mem less l (a + (b - a) / 4 * 1) (a + (b - a) / 4 * 2)
        (a + (b - a) / 4 * 3) 0
      generalize (median less l (a + (b - a) / 4 * 1) (a + (b - a) / 4 * 2)
        (a + (b - a) / 4 * 3) 0).1 = m at *
      omega
  · show a ≤ a + (b - a) / 4 * 2 ∧ a + (b - a) / 4 * 2 < b
    omega

theorem bitsLenAux_le (k n : Nat) (hn : 1 ≤ n) (hk : n ≤ k) : 2 ^ bitsLenAux k n ≤ 2 * n := by
  induction k generalizing n with
  | zero => omega
  | succ k ih =>
    unfold bitsLenAux
    rw [if_neg (by omega), pow_succ]
    by_cases h2 : 1 ≤ n / 2
    · have := ih (n / 2) h2 (by omega)
      omega
    · have h0 : n / 2 = 0 := by omega
      rw [h0]
      have : bitsLenAux k 0 = 0 := by
        cases k <;> simp [bitsLenAux]
      rw [this]
      omega

theorem breakLoop_swaps {α : Type} (a b modulus idx : Nat) (k i random : Nat) (l : List α)
    (hb : b ≤ l.length) (hab : a < b) (hm : modulus ≤ 2 * (b - a)) (hm1 : 1 ≤ modulus)
    (hlo : a + 1 ≤ idx) (hhi : idx + 1 < b) (hik : i + k ≤ 3) :
    SwapsIn a b l (breakLoop a (b - a) modulus idx k i random l) := by
  induction k generalizing i random l with
  | zero => exact SwapsIn.refl l
  | succ k ih =>
    unfold breakLoop
    dsimp only
    have hand : xorshiftNext random &&& (modulus - 1) ≤ modulus - 1 := Nat.and_le_right
    generalize xorshiftNext random &&& (modulus - 1) = other at *
    have ho : (if other ≥ b - a then other - (b - a) else other) < b - a := by
      split <;> omega
    generalize (if other ≥ b - a then other - (b - a) else other) = other1 at *
    exact SwapsIn.step l _ (idx - 1 + i) (a + other1) (by omega) (by omega) (by omega)
      (by omega) hb (ih (i + 1) _ _ (by rw [length_swapAt]; exact hb) (by omega))

theorem breakPatterns_swaps {α : Type} (l : List α) (a b : Nat) (hb : b ≤ l.length) :
    SwapsIn a b l (breakPatterns l a b) := by
  unfold breakPatterns
  split
  · rename_i h8
    have hpow : nextPowerOfTwo (b - a) ≤ 2 * (b - a) :=
      bitsLenAux_le (b - a) (b - a) (by omega) (le_refl _)
    have hpos : 1 ≤ nextPowerOfTwo (b - a) := Nat.one_le_two_pow
    exact breakLoop_swaps a b _ _ 3 0 _ l hb (by omega) hpow hpos (by omega) (by omega)
      (by omega)
  · exact SwapsIn.refl l

theorem reverseLoop_swaps {α : Type} (a b k i j : Nat) (l : List α) (hb : b ≤ l.length)
    (hai : a ≤ i) (hjb : j < b) : SwapsIn a b l (reverseLoop k i j l) := by
  induction k generalizing i j l with
  | zero => exact SwapsIn.refl l
  | succ k ih =>
    unfold reverseLoop
    split
    · exact SwapsIn.step l _ i j hai (by omega) (by omega) hjb hb
        (ih (i + 1) (j - 1) _ (by rw [length_swapAt]; exact hb) (by omega) (by omega))
    · exact SwapsIn.refl l

theorem reverseRange_swaps {α : Type} (l : List α) (a b : Nat) (hb : b ≤ l.length)
    (hab : a < b) : SwapsIn a b l (reverseRange l a b) :=
  reverseLoop_swaps a b (b - a) a (b - 1) l hb (le_refl _) (by omega)

/-! ## The library sort: `partialInsertionSort` -/

theorem not_lessAt_of_leAt {α : Type} (less : α → α → Bool) (l : List α) (p q : Nat)
    (h : LeAt less l q p) : lessAt less l p q = false := by
  unfold lessAt
  cases hp : l[p]? with
  | none => rfl
  | some x =>
    cases hq : l[q]? with
    | none => rfl
    | some y => exact h y x hq hp

theorem lowBound_swapsIn {α : Type} (less : α → α → Bool) {a b : Nat} {l l1 : List α}
    (h : SwapsIn a b l l1) (hl : LowBound less l a b) : LowBound less l1 a b := by
  intro q ha hq
  rw [swapsIn_frame h (a - 1) (Or.inl (by omega))] at hq
  exact swapsIn_allAt h _ (hl q ha hq)

theorem lowBound_leAt {α : Type} (less : α → α → Bool) (l : List α) (a b t : Nat)
    (hl : LowBound less l a b) (ha : 0 < a) (hat : a ≤ t) (htb : t < b) :
    LeAt less l (a - 1) t := by
  intro x y hx hy
  exact hl x ha hx t y hat htb hy

/-- The loop that shifts to the left is the inner loop of `insertionSort` with
the bound `1`. -/
theorem shiftLeft_eq {α : Type} (less : α → α → Bool) (j : Nat) (l : List α) :
    shiftLeft less j l = insertLeft less 0 j l := by
  induction j generalizing l with
  | zero => rfl
  | succ j ih =>
    unfold shiftLeft insertLeft
    cases h : lessAt less l (j + 1) j with
    | false => simp
    | true => simp [ih]

/-- With the element before `a` a lower bound, the loop with the bound `1`
stops at `a`. -/
theorem insertLeft_low {α : Type} (less : α → α → Bool) (a b j : Nat) (l : List α)
    (haj : a ≤ j) (hjb : j < b) (hb : b ≤ l.length) (hl : LowBound less l a b) :
    insertLeft less 0 j l = insertLeft less a j l := by
  induction j generalizing l with
  | zero =>
    have : a = 0 := by omega
    rw [this]
  | succ j ih =>
    by_cases hja : j + 1 > a
    · unfold insertLeft
      have e1 : decide (j + 1 > 0) = true := by simp
      have e2 : decide (j + 1 > a) = true := by simp [hja]
      rw [e1, e2]
      simp only [Bool.true_and]
      split
      · exact ih _ (by omega) (by omega) (by rw [length_swapAt]; exact hb)
          (lowBound_swapsIn less (swapsIn_swap l (j + 1) j (by omega) hjb (by omega)
            (by omega) hb) hl)
      · rfl
    · have e : j + 1 = a := by omega
      have hle := lowBound_leAt less l a b a hl (by omega) (le_refl _) (by omega)
      have hf := not_lessAt_of_leAt less l a (a - 1) hle
      unfold insertLeft
      have e3 : j = a - 1 := by omega
      rw [e, e3, hf]
      simp

theorem scanSorted_spec {α : Type} {less : α → α → Bool} (hw : WeakOrder less) (l : List α)
    (a b k i : Nat) (hb : b ≤ l.length) (hai : a < i) (hib : i ≤ b) (hk : b ≤ i + k)
    (hs : ∀ p q, a ≤ p → p < q → q < i → LeAt less l p q) :
    i ≤ scanSorted less l b k i ∧ scanSorted less l b k i ≤ b ∧
    (∀ p q, a ≤ p → p < q → q < scanSorted less l b k i → LeAt less l p q) := by
  induction k generalizing i with
  | zero =>
    unfold scanSorted
    exact ⟨le_refl _, hib, hs⟩
  | succ k ih =>
    unfold scanSorted
    split
    · rename_i hc
      simp only [Bool.and_eq_true, decide_eq_true_eq, Bool.not_eq_true'] at hc
      have hle := leAt_of_not_lessAt less l i (i - 1) hc.2
      obtain ⟨h1, h2, h3⟩ := ih (i + 1) (by omega) (by omega) (by omega) (by
        intro p q hp hpq hq
        by_cases e : q = i
        · subst e
          by_cases e2 : p = q - 1
          · subst e2; exact hle
          · exact leAt_trans hw l p (q - 1) q (by omega) (hs p (q - 1) hp (by omega) (by omega))
              hle
        · exact hs p q hp hpq (by omega))
      exact ⟨by omega, h2, h3⟩
    · exact ⟨le_refl _, hib, hs⟩

theorem shiftRight_swaps {α : Type} (less : α → α → Bool) (a b k j : Nat) (l : List α)
    (hb : b ≤ l.length) (haj : a < j) : SwapsIn a b l (shiftRight less b k j l) := by
  induction k generalizing j l with
  | zero => exact SwapsIn.refl l
  | succ k ih =>
    unfold shiftRight
    split
    · split
      · exact SwapsIn.refl l
      · exact SwapsIn.step l _ j (j - 1) (by omega) (by omega) (by omega) (by omega) hb
          (ih (j + 1) _ (by rw [length_swapAt]; exact hb) (by omega))
    · exact SwapsIn.refl l

/-- The loop of `partialInsertionSort`: it swaps inside `[a, b)`, and when it
returns `true` the part `[a, b)` is in order. -/
theorem partialLoop_spec {α : Type} {less : α → α → Bool} (hw : WeakOrder less)
    (a b s i : Nat) (l : List α) (hb : b ≤ l.length) (hai : a < i) (hib : i ≤ b)
    (hl : LowBound less l a b)
    (hs : ∀ p q, a ≤ p → p < q → q < i → LeAt less l p q) :
    SwapsIn a b l (partialLoop less a b s i l).1 ∧
    ((partialLoop less a b s i l).2 = true →
      ∀ p q, a ≤ p → p < q → q < b → LeAt less (partialLoop less a b s i l).1 p q) := by
  induction s generalizing i l with
  | zero =>
    unfold partialLoop
    exact ⟨SwapsIn.refl l, fun h => by cases h⟩
  | succ s ih =>
    unfold partialLoop
    dsimp only
    obtain ⟨c1, c2, c3⟩ := scanSorted_spec hw l a b (b - i) i hb hai hib (by omega) hs
    generalize scanSorted less l b (b - i) i = i1 at *
    split
    · rename_i he
      subst he
      exact ⟨SwapsIn.refl l, fun _ => c3⟩
    · rename_i he
      split
      · exact ⟨SwapsIn.refl l, fun h => by cases h⟩
      · -- the swap and the two shifts
        have hi1 : i1 < b := by omega
        have hsw0 : SwapsIn a b l (swapAt l i1 (i1 - 1)) :=
          swapsIn_swap l i1 (i1 - 1) (by omega) hi1 (by omega) (by omega) hb
        have hb1 : b ≤ (swapAt l i1 (i1 - 1)).length := by rw [length_swapAt]; exact hb
        have hl1 := lowBound_swapsIn less hsw0 hl
        have hsw : ∀ p q, LeAt less (swapAt l i1 (i1 - 1)) p q
            ↔ LeAt less l (swapIdx i1 (i1 - 1) p) (swapIdx i1 (i1 - 1) q) :=
          fun p q => leAt_swapAt less l i1 (i1 - 1) p q (by omega) (by omega)
        have hpre : ∀ p q, a ≤ p → p < q → q < i1 - 1 →
            LeAt less (swapAt l i1 (i1 - 1)) p q := by
          intro p q hp hpq hq
          rw [hsw]
          unfold swapIdx
          rw [if_neg (by omega), if_neg (by omega), if_neg (by omega), if_neg (by omega)]
          exact c3 p q hp hpq (by omega)
        generalize swapAt l i1 (i1 - 1) = l1 at *
        -- the shift to the left
        have hleft : SwapsIn a b l1
              (if i1 - a ≥ 2 then shiftLeft less (i1 - 1) l1 else l1) ∧
            ∀ p q, a ≤ p → p < q → q < i1 →
              LeAt less (if i1 - a ≥ 2 then shiftLeft less (i1 - 1) l1 else l1) p q := by
          split
          · rw [shiftLeft_eq, insertLeft_low less a b (i1 - 1) l1 (by omega) (by omega) hb1 hl1]
            refine ⟨insertLeft_swaps less a b (i1 - 1) l1 (by omega) hb1, ?_⟩
            have := insertLeft_sorted hw a (i1 - 1) (i1 - 1) l1 (le_refl _) (by omega) hpre
              (fun p q h1 h2 h3 => by omega) (fun p q h1 h2 h3 h4 => by omega)
            intro p q hp hpq hq
            exact this p q hp hpq (by omega)
          · exact ⟨SwapsIn.refl l1, fun p q hp hpq hq => by omega⟩
        obtain ⟨hsl, hsorted2⟩ := hleft
        generalize (if i1 - a ≥ 2 then shiftLeft less (i1 - 1) l1 else l1) = l2 at *
        have hb2 : b ≤ l2.length := by rw [swapsIn_length hsl]; exact hb1
        -- the shift to the right
        have hright : SwapsIn i1 b l2
            (if b - i1 ≥ 2 then shiftRight less b (b - (i1 + 1)) (i1 + 1) l2 else l2) := by
          split
          · exact shiftRight_swaps less i1 b _ _ l2 hb2 (by omega)
          · exact SwapsIn.refl l2
        generalize (if b - i1 ≥ 2 then shiftRight less b (b - (i1 + 1)) (i1 + 1) l2 else l2)
          = l3 at *
        have hsr : SwapsIn a b l2 l3 := swapsIn_mono hright (by omega) (le_refl _) hb2
        have hall : SwapsIn a b l l3 := swapsIn_trans hsw0 (swapsIn_trans hsl hsr)
        have hsorted3 : ∀ p q, a ≤ p → p < q → q < i1 → LeAt less l3 p q := by
          intro p q hp hpq hq x y hx hy
          rw [swapsIn_frame hright p (Or.inl (by omega))] at hx
          rw [swapsIn_frame hright q (Or.inl (by omega))] at hy
          exact hsorted2 p q hp hpq hq x y hx hy
        obtain ⟨r1, r2⟩ := ih i1 l3 (by rw [swapsIn_length hall]; exact hb) (by omega)
          (by omega) (lowBound_swapsIn less hall hl) hsorted3
        exact ⟨swapsIn_trans hall r1, r2⟩

theorem partialInsertionSort_spec {α : Type} {less : α → α → Bool} (hw : WeakOrder less)
    (l : List α) (a b : Nat) (hb : b ≤ l.length) (hab : a < b) (hl : LowBound less l a b) :
    SwapsIn a b l (partialInsertionSort less l a b).1 ∧
    ((partialInsertionSort less l a b).2 = true →
      SortedIn less (partialInsertionSort less l a b).1 a b) := by
  obtain ⟨h1, h2⟩ := partialLoop_spec hw a b 5 (a + 1) l hb (by omega) (by omega) hl
    (fun p q h1 h2 h3 => by omega)
  refine ⟨h1, fun h => ?_⟩
  rw [sortedIn_iff]
  exact h2 h

/-! ## The library sort: `heapSort` -/

/-- The child that `siftDown` picks is the greater child. -/
theorem child_max {α : Type} {less : α → α → Bool} (hw : WeakOrder less) (l : List α)
    (first hi r : Nat) (h : 2 * r + 1 < hi) (m : Nat)
    (hm : m = if 2 * r + 1 + 1 < hi &&
        lessAt less l (first + (2 * r + 1)) (first + (2 * r + 1) + 1) then 2 * r + 1 + 1
      else 2 * r + 1) :
    (m = 2 * r + 1 ∨ m = 2 * r + 2) ∧ m < hi ∧
    ∀ c, (c = 2 * r + 1 ∨ c = 2 * r + 2) → c < hi → LeAt less l (first + c) (first + m) := by
  split at hm
  · rename_i hc
    simp only [Bool.and_eq_true, decide_eq_true_eq] at hc
    subst hm
    refine ⟨Or.inr rfl, hc.1, ?_⟩
    intro c hcc _
    rcases hcc with e | e
    · subst e
      exact leAt_of_lessAt hw l _ _ hc.2
    · subst e
      exact leAt_refl hw l _
  · rename_i hc
    subst hm
    refine ⟨Or.inl rfl, h, ?_⟩
    intro c hcc hchi
    rcases hcc with e | e
    · subst e
      exact leAt_refl hw l _
    · subst e
      have hf : lessAt less l (first + (2 * r + 1)) (first + (2 * r + 1) + 1) = false := by
        cases hl : lessAt less l (first + (2 * r + 1)) (first + (2 * r + 1) + 1) with
        | false => rfl
        | true => exact absurd (by simp [hl]; omega) hc
      exact leAt_of_not_lessAt less l _ _ hf

/-- The function `siftDown`: from the heap order with the node `r` still to be
sifted it makes the heap order. -/
theorem siftDown_spec {α : Type} {less : α → α → Bool} (hw : WeakOrder less)
    (first hi lo k r : Nat) (l : List α) (hb : first + hi ≤ l.length) (hlo : lo ≤ r)
    (hk : hi ≤ r + k) (hx : HeapExc less l first hi lo r) :
    SwapsIn first (first + hi) l (siftDown less hi first k r l) ∧
    HeapFrom less (siftDown less hi first k r l) first hi lo := by
  induction k generalizing r l with
  | zero =>
    unfold siftDown
    refine ⟨SwapsIn.refl l, ?_⟩
    intro c h1 h2 h3
    exact (hx c h1 h2 h3).1 (by omega)
  | succ k ih =>
    unfold siftDown
    split
    · refine ⟨SwapsIn.refl l, ?_⟩
      intro c h1 h2 h3
      exact (hx c h1 h2 h3).1 (by omega)
    · rename_i hch
      dsimp only
      obtain ⟨m1, m2, m3⟩ := child_max hw l first hi r (by omega) _ rfl
      generalize (if 2 * r + 1 + 1 < hi &&
        lessAt less l (first + (2 * r + 1)) (first + (2 * r + 1) + 1) then 2 * r + 1 + 1
        else 2 * r + 1) = m at *
      split
      · rename_i hc
        simp only [Bool.not_eq_true'] at hc
        have hle := leAt_of_not_lessAt less l _ _ hc
        refine ⟨SwapsIn.refl l, ?_⟩
        intro c h1 h2 h3
        by_cases e : (c - 1) / 2 = r
        · rw [e]
          exact leAt_trans hw l _ (first + m) _ (by omega)
            (m3 c (by omega) h2) hle
        · exact (hx c h1 h2 h3).1 e
      · rename_i hc
        simp only [Bool.not_eq_true', Bool.not_eq_false] at hc
        have hlt := leAt_of_lessAt hw l _ _ hc
        have hsw : ∀ p q, LeAt less (swapAt l (first + r) (first + m)) p q
            ↔ LeAt less l (swapIdx (first + r) (first + m) p)
                (swapIdx (first + r) (first + m) q) :=
          fun p q => leAt_swapAt less l _ _ p q (by omega) (by omega)
        obtain ⟨r1, r2⟩ := ih m (swapAt l (first + r) (first + m))
          (by rw [length_swapAt]; exact hb) (by omega) (by omega) (by
            intro c h1 h2 h3
            constructor
            · intro hne
              rw [hsw]
              unfold swapIdx
              by_cases ecm : c = m
              · have ep : (c - 1) / 2 = r := by omega
                rw [if_pos (by omega), ep, if_neg (by omega), if_pos rfl]
                exact hlt
              · by_cases epr : (c - 1) / 2 = r
                · rw [if_neg (by omega), if_neg (by omega), epr, if_neg (by omega), if_pos rfl]
                  exact m3 c (by omega) h2
                · by_cases ecr : c = r
                  · rw [if_neg (by omega), if_pos (by omega), if_neg (by omega),
                      if_neg (by omega)]
                    have := (hx m (by omega) m2 (by omega)).2 (by omega) (by omega) (by
                      rw [← ecr]; exact h3)
                    rw [← ecr] at this
                    exact this
                  · rw [if_neg (by omega), if_neg (by omega), if_neg (by omega),
                      if_neg (by omega)]
                    exact (hx c h1 h2 h3).1 epr
            · intro hpm hm1 hlom
              have epm : (m - 1) / 2 = r := by omega
              rw [epm, hsw]
              unfold swapIdx
              rw [if_neg (by omega), if_neg (by omega), if_neg (by omega), if_pos rfl]
              have := (hx c h1 h2 h3).1 (by omega)
              rw [hpm] at this
              exact this)
        exact ⟨SwapsIn.step l _ (first + r) (first + m) (by omega) (by omega) (by omega)
          (by omega) hb r1, r2⟩

theorem heapBuild_spec {α : Type} {less : α → α → Bool} (hw : WeakOrder less)
    (first hi n : Nat) (l : List α) (hb : first + hi ≤ l.length)
    (hx : HeapFrom less l first hi n) :
    SwapsIn first (first + hi) l (heapBuild less hi first n l) ∧
    HeapFrom less (heapBuild less hi first n l) first hi 0 := by
  induction n generalizing l with
  | zero => exact ⟨SwapsIn.refl l, hx⟩
  | succ i ih =>
    unfold heapBuild
    obtain ⟨s1, s2⟩ := siftDown_spec hw first hi i hi i l hb (le_refl _) (by omega) (by
      intro c h1 h2 h3
      constructor
      · intro hne
        exact hx c h1 h2 (by omega)
      · intro he h4 h5
        omega)
    obtain ⟨r1, r2⟩ := ih _ (by rw [swapsIn_length s1]; exact hb) s2
    exact ⟨swapsIn_trans s1 r1, r2⟩

/-- In a heap no node is after the root. -/
theorem heap_root_max {α : Type} {less : α → α → Bool} (hw : WeakOrder less) (l : List α)
    (first hi : Nat) (hb : first + hi ≤ l.length) (hx : HeapFrom less l first hi 0) (c : Nat)
    (hc : c < hi) : LeAt less l (first + c) (first + 0) := by
  induction c using Nat.strong_induction_on with
  | _ c ih =>
    by_cases h0 : c = 0
    · subst h0
      exact leAt_refl hw l _
    · exact leAt_trans hw l _ (first + (c - 1) / 2) _ (by omega)
        (hx c (by omega) hc (by omega)) (ih ((c - 1) / 2) (by omega) (by omega))

/-- The second loop of `heapSort`: with the first `n` nodes a heap, the part
after them in order and no element of the heap after an element of that part,
the whole of `[first, first + total)` ends in order. -/
theorem heapPop_spec {α : Type} {less : α → α → Bool} (hw : WeakOrder less)
    (first total n : Nat) (l : List α) (hb : first + total ≤ l.length) (hn : n ≤ total)
    (hx : HeapFrom less l first n 0)
    (hs : ∀ p q, first + n ≤ p → p < q → q < first + total → LeAt less l p q)
    (hps : ∀ p q, first ≤ p → p < first + n → first + n ≤ q → q < first + total →
      LeAt less l p q) :
    SwapsIn first (first + total) l (heapPop less first n l) ∧
    ∀ p q, first ≤ p → p < q → q < first + total → LeAt less (heapPop less first n l) p q := by
  induction n generalizing l with
  | zero =>
    exact ⟨SwapsIn.refl l, fun p q h1 h2 h3 => hs p q (by omega) h2 h3⟩
  | succ i ih =>
    unfold heapPop
    have hmax := heap_root_max hw l first (i + 1) (by omega) hx
    have hsw : ∀ p q, LeAt less (swapAt l first (first + i)) p q
        ↔ LeAt less l (swapIdx first (first + i) p) (swapIdx first (first + i) q) :=
      fun p q => leAt_swapAt less l _ _ p q (by omega) (by omega)
    have hsw0 : SwapsIn first (first + total) l (swapAt l first (first + i)) :=
      swapsIn_swap l first (first + i) (le_refl _) (by omega) (by omega) (by omega) hb
    have hb1 : first + total ≤ (swapAt l first (first + i)).length := by
      rw [length_swapAt]; exact hb
    -- after the swap
    have hs1 : ∀ p q, first + i ≤ p → p < q → q < first + total →
        LeAt less (swapAt l first (first + i)) p q := by
      intro p q h1 h2 h3
      rw [hsw]
      unfold swapIdx
      by_cases e : p = first + i
      · rw [if_pos e, if_neg (by omega), if_neg (by omega)]
        exact hps first q (le_refl _) (by omega) (by omega) h3
      · rw [if_neg e, if_neg (by omega), if_neg (by omega), if_neg (by omega)]
        exact hs p q (by omega) h2 h3
    have hps1 : ∀ p q, first ≤ p → p < first + i → first + i ≤ q → q < first + total →
        LeAt less (swapAt l first (first + i)) p q := by
      intro p q h1 h2 h3 h4
      rw [hsw]
      unfold swapIdx
      by_cases e : q = first + i
      · rw [if_pos e]
        by_cases e2 : p = first
        · rw [if_neg (by omega), if_pos e2]
          have := hmax i (by omega)
          rw [Nat.add_zero] at this
          exact this
        · rw [if_neg (by omega), if_neg e2]
          have := hmax (p - first) (by omega)
          rw [Nat.add_zero] at this
          have e3 : first + (p - first) = p := by omega
          rw [e3] at this
          exact this
      · rw [if_neg e, if_neg (by omega : ¬ p = first + i), if_neg (by omega : ¬ q = first)]
        by_cases e2 : p = first
        · rw [if_pos e2]
          exact hps (first + i) q (by omega) (by omega) (by omega) h4
        · rw [if_neg e2]
          exact hps p q h1 (by omega) (by omega) h4
    have hx1 : HeapExc less (swapAt l first (first + i)) first i 0 0 := by
      intro c h1 h2 h3
      constructor
      · intro hne
        rw [hsw]
        unfold swapIdx
        rw [if_neg (by omega), if_neg (by omega), if_neg (by omega), if_neg (by omega)]
        exact hx c h1 (by omega) h3
      · intro _ h4 _
        omega
    generalize swapAt l first (first + i) = l1 at *
    obtain ⟨d1, d2⟩ := siftDown_spec hw first i 0 i 0 l1 (by omega) (le_refl _) (by omega) hx1
    generalize siftDown less i first i 0 l1 = l2 at *
    have hb2 : first + total ≤ l2.length := by rw [swapsIn_length d1]; exact hb1
    obtain ⟨r1, r2⟩ := ih l2 hb2 (by omega) d2
      (by
        intro p q h1 h2 h3 x y hx hy
        rw [swapsIn_frame d1 p (Or.inr (by omega))] at hx
        rw [swapsIn_frame d1 q (Or.inr (by omega))] at hy
        exact hs1 p q h1 h2 h3 x y hx hy)
      (by
        intro p q h1 h2 h3 h4 x y hx hy
        rw [swapsIn_frame d1 q (Or.inr (by omega))] at hy
        obtain ⟨p1, g1, g2, g3⟩ := swapsIn_from d1 p x h1 h2 hx
        exact hps1 p1 q g1 g2 h3 h4 x y g3 hy)
    exact ⟨swapsIn_trans hsw0 (swapsIn_trans (swapsIn_mono d1 (le_refl _) (by omega) hb1) r1),
      r2⟩

/-- The function `heapSort`: it swaps inside `[a, b)` and leaves `[a, b)` in
order. -/
theorem heapSort_spec {α : Type} {less : α → α → Bool} (hw : WeakOrder less) (l : List α)
    (a b : Nat) (hab : a ≤ b) (hb : b ≤ l.length) :
    SwapsIn a b l (heapSort less l a b) ∧ SortedIn less (heapSort less l a b) a b := by
  unfold heapSort
  have hab1 : a + (b - a) = b := by omega
  obtain ⟨b1, b2⟩ := heapBuild_spec hw a (b - a) ((b - a - 1) / 2 + 1) l (by omega) (by
    intro c h1 h2 h3
    omega)
  generalize heapBuild less (b - a) a ((b - a - 1) / 2 + 1) l = l1 at *
  obtain ⟨p1, p2⟩ := heapPop_spec hw a (b - a) (b - a) l1
    (by rw [swapsIn_length b1]; omega) (le_refl _) b2
    (fun p q h1 h2 h3 => by omega) (fun p q h1 h2 h3 h4 => by omega)
  rw [hab1] at b1 p1 p2
  rw [sortedIn_iff]
  exact ⟨swapsIn_trans b1 p1, p2⟩

/-! ## The library sort: `pdqsort` -/

theorem lowBound_sub {α : Type} (less : α → α → Bool) (l : List α) (a b b1 : Nat)
    (hl : LowBound less l a b) (hb : b1 ≤ b) : LowBound less l a b1 := by
  intro q ha hq k x h1 h2 hx
  exact hl q ha hq k x h1 (by omega) hx

/-- A part in order before the pivot, the pivot, a part in order after it. -/
theorem sortedIn_assemble {α : Type} {less : α → α → Bool} (hw : WeakOrder less)
    (m0 m : List α) (a mid b : Nat) (hmb : mid < b) (hb : b ≤ m.length)
    (hfromL : ∀ p x, a ≤ p → p < mid → m[p]? = some x →
      ∃ p1, a ≤ p1 ∧ p1 < mid ∧ m0[p1]? = some x)
    (hfromR : ∀ p x, mid < p → p < b → m[p]? = some x →
      ∃ p1, mid < p1 ∧ p1 < b ∧ m0[p1]? = some x)
    (hmid : m[mid]? = m0[mid]?)
    (hsL : SortedIn less m a mid) (hsR : SortedIn less m (mid + 1) b)
    (hpL : ∀ t, a ≤ t → t < mid → LeAt less m0 t mid)
    (hpR : ∀ t, mid < t → t < b → LeAt less m0 mid t) :
    SortedIn less m a b := by
  have hL : ∀ p, a ≤ p → p < mid → LeAt less m p mid := by
    intro p h1 h2 x y hx hy
    obtain ⟨p1, g1, g2, g3⟩ := hfromL p x h1 h2 hx
    rw [hmid] at hy
    exact hpL p1 g1 g2 x y g3 hy
  have hR : ∀ q, mid < q → q < b → LeAt less m mid q := by
    intro q h1 h2 x y hx hy
    obtain ⟨q1, g1, g2, g3⟩ := hfromR q y h1 h2 hy
    rw [hmid] at hx
    exact hpR q1 g1 g2 x y hx g3
  rw [sortedIn_iff]
  intro p q h1 h2 h3
  by_cases c1 : q < mid
  · exact fun x y hx hy => hsL p q x y h1 h2 c1 hx hy
  · by_cases c2 : mid < p
    · exact fun x y hx hy => hsR p q x y (by omega) h2 h3 hx hy
    · by_cases c3 : q = mid
      · subst c3
        exact hL p h1 (by omega)
      · by_cases c4 : p = mid
        · subst c4
          exact hR q (by omega) h3
        · exact leAt_trans hw m p mid q (by omega) (hL p h1 (by omega)) (hR q (by omega) h3)

/-- The function `pdqsort` on `[a, b)`, with rounds enough for the length and
with the element before `a` a lower bound: it swaps inside `[a, b)` and leaves
`[a, b)` in order. -/
theorem pdqsort_spec {α : Type} {less : α → α → Bool} (hw : WeakOrder less) (k : Nat) :
    ∀ (l : List α) (a b limit : Nat) (wasBalanced wasPartitioned : Bool),
      a ≤ b → b ≤ l.length → b - a < k → LowBound less l a b →
      SwapsIn a b l (pdqsort less k l a b limit wasBalanced wasPartitioned) ∧
      SortedIn less (pdqsort less k l a b limit wasBalanced wasPartitioned) a b := by
  induction k with
  | zero => intro l a b limit wb wp hab hb hk; omega
  | succ k ih =>
    intro l a b limit wb wp hab hb hk hl
    unfold pdqsort
    split
    · exact ⟨insertionSort_swaps less l a b hb, insertionSort_sorted hw l a b hb⟩
    · rename_i h12
      split
      · exact heapSort_spec hw l a b hab hb
      · dsimp only
        -- breakPatterns
        have hs1 : SwapsIn a b l (if (!wb) = true then breakPatterns l a b else l) := by
          split
          · exact breakPatterns_swaps l a b hb
          · exact SwapsIn.refl l
        generalize (if (!wb) = true then breakPatterns l a b else l) = l1 at *
        generalize (if (!wb) = true then limit - 1 else limit) = limit1
        have hb1 : b ≤ l1.length := by rw [swapsIn_length hs1]; exact hb
        -- choosePivot, reverseRange
        have hpr := choosePivot_range less l1 a b (by omega)
        generalize choosePivot less l1 a b = ph at *
        have hs2 : SwapsIn a b l1
            (if ph.2 = SortedHint.decreasingHint then reverseRange l1 a b else l1) := by
          split
          · exact reverseRange_swaps l1 a b hb1 (by omega)
          · exact SwapsIn.refl l1
        generalize (if ph.2 = SortedHint.decreasingHint then reverseRange l1 a b else l1)
          = l2 at *
        have hpv : a ≤ (if ph.2 = SortedHint.decreasingHint then b - 1 - (ph.1 - a) else ph.1) ∧
            (if ph.2 = SortedHint.decreasingHint then b - 1 - (ph.1 - a) else ph.1) < b := by
          split <;> omega
        generalize (if ph.2 = SortedHint.decreasingHint then b - 1 - (ph.1 - a) else ph.1)
          = pivot at *
        generalize (if ph.2 = SortedHint.decreasingHint then SortedHint.increasingHint
          else ph.2) = hint
        have hb2 : b ≤ l2.length := by rw [swapsIn_length hs2]; exact hb1
        have hl2 : LowBound less l2 a b :=
          lowBound_swapsIn less hs2 (lowBound_swapsIn less hs1 hl)
        -- partialInsertionSort
        have hs3 : SwapsIn a b l2
              (if (wb && wp && decide (hint = SortedHint.increasingHint)) = true then
                partialInsertionSort less l2 a b else (l2, false)).1 ∧
            ((if (wb && wp && decide (hint = SortedHint.increasingHint)) = true then
                partialInsertionSort less l2 a b else (l2, false)).2 = true →
              SortedIn less (if (wb && wp && decide (hint = SortedHint.increasingHint)) = true
                then partialInsertionSort less l2 a b else (l2, false)).1 a b) := by
          split
          · exact partialInsertionSort_spec hw l2 a b hb2 (by omega) hl2
          · exact ⟨SwapsIn.refl l2, fun h => by cases h⟩
        generalize (if (wb && wp && decide (hint = SortedHint.increasingHint)) = true then
          partialInsertionSort less l2 a b else (l2, false)) = r at *
        obtain ⟨hs3a, hs3b⟩ := hs3
        have hall3 : SwapsIn a b l r.1 := swapsIn_trans hs1 (swapsIn_trans hs2 hs3a)
        have hb3 : b ≤ r.1.length := by rw [swapsIn_length hall3]; exact hb
        have hl3 : LowBound less r.1 a b := lowBound_swapsIn less hall3 hl
        split
        · rename_i hr
          exact ⟨hall3, hs3b hr⟩
        · split
          · -- partitionEqual
            rename_i hr hc
            simp only [Bool.and_eq_true, decide_eq_true_eq, Bool.not_eq_true'] at hc
            obtain ⟨ha0, hnl⟩ := hc
            obtain ⟨e1, e2, e3, e4, e5⟩ := partitionEqual_spec hw r.1 a b pivot hb3 hpv.1 hpv.2
            generalize partitionEqual less r.1 a b pivot = pe at *
            have hbe : b ≤ pe.1.length := by rw [swapsIn_length e1]; exact hb3
            -- the pivot is not after any element of the part
            have hmin0 : ∀ t, a ≤ t → t < b → LeAt less r.1 pivot t := by
              intro t h1 h2
              exact leAt_trans hw r.1 pivot (a - 1) t (by omega)
                (leAt_of_not_lessAt less r.1 (a - 1) pivot hnl)
                (lowBound_leAt less r.1 a b t hl3 ha0 h1 h2)
            have hmin : ∀ u, a ≤ u → u < b → LeAt less pe.1 a u := by
              intro u h1 h2 x y hx hy
              rw [e4] at hx
              obtain ⟨u1, g1, g2, g3⟩ := swapsIn_from e1 u y h1 h2 hy
              exact hmin0 u1 g1 g2 x y hx g3
            obtain ⟨q1, q2⟩ := ih pe.1 pe.2 b limit1 wb wp e3 hbe (by omega) (by
              intro q hm hq u y h1 h2 hy
              exact leAt_trans hw pe.1 (pe.2 - 1) a u (by omega)
                (e5 (pe.2 - 1) (by omega) (by omega)) (hmin u (by omega) h2) q y hq hy)
            generalize pdqsort less k pe.1 pe.2 b limit1 wb wp = l4 at *
            refine ⟨swapsIn_trans hall3 (swapsIn_trans e1
              (swapsIn_mono q1 (by omega) (le_refl _) hbe)), ?_⟩
            rw [sortedIn_iff]
            intro p q h1 h2 h3
            by_cases c1 : pe.2 ≤ p
            · exact fun x y hx hy => q2 p q x y c1 h2 h3 hx hy
            · intro x y hx hy
              rw [swapsIn_frame q1 p (Or.inl (by omega))] at hx
              have hpa := e5 p h1 (by omega)
              by_cases c2 : q < pe.2
              · rw [swapsIn_frame q1 q (Or.inl c2)] at hy
                exact leAt_trans hw pe.1 p a q (by omega) hpa (hmin q (by omega) h3) x y hx hy
              · obtain ⟨u1, g1, g2, g3⟩ := swapsIn_from q1 q y (by omega) h3 hy
                exact leAt_trans hw pe.1 p a u1 (by omega) hpa (hmin u1 (by omega) g2) x y hx g3
          · -- partition
            rename_i hr hc
            obtain ⟨t1, t2, t3, t4, t5⟩ := partition_spec hw r.1 a b pivot hb3 hpv.1 hpv.2
            generalize partition less r.1 a b pivot = pt at *
            have hbt : b ≤ pt.1.length := by rw [swapsIn_length t1]; exact hb3
            have hlt : LowBound less pt.1 a b := lowBound_swapsIn less t1 hl3
            have hlowR : LowBound less pt.1 (pt.2.1 + 1) b := by
              intro q _ hq u y h1 h2 hy
              exact t5 u (by omega) h2 q y hq hy
            split
            · -- the left part first
              obtain ⟨a1, a2⟩ := ih pt.1 a pt.2.1 limit1 true true t2 (by omega) (by omega)
                (lowBound_sub less pt.1 a b pt.2.1 hlt (by omega))
              generalize pdqsort less k pt.1 a pt.2.1 limit1 true true = lA at *
              have hbA : b ≤ lA.length := by rw [swapsIn_length a1]; exact hbt
              obtain ⟨b1, b2⟩ := ih lA (pt.2.1 + 1) b limit1
                (decide (pt.2.1 - a ≥ (b - a) / 8)) pt.2.2 (by omega) hbA (by omega) (by
                  intro q h0 hq u y h1 h2 hy
                  rw [swapsIn_frame a1 (pt.2.1 + 1 - 1) (Or.inr (by omega))] at hq
                  rw [swapsIn_frame a1 u (Or.inr (by omega))] at hy
                  exact hlowR q h0 hq u y h1 h2 hy)
              generalize pdqsort less k lA (pt.2.1 + 1) b limit1
                (decide (pt.2.1 - a ≥ (b - a) / 8)) pt.2.2 = lB at *
              have hbB : b ≤ lB.length := by rw [swapsIn_length b1]; exact hbA
              refine ⟨swapsIn_trans hall3 (swapsIn_trans t1 (swapsIn_trans
                (swapsIn_mono a1 (le_refl _) (by omega) hbt)
                (swapsIn_mono b1 (by omega) (le_refl _) hbA))), ?_⟩
              refine sortedIn_assemble hw pt.1 lB a pt.2.1 b t3 hbB ?_ ?_ ?_ ?_ b2 t4 t5
              · intro p x h1 h2 hx
                rw [swapsIn_frame b1 p (Or.inl (by omega))] at hx
                exact swapsIn_from a1 p x h1 h2 hx
              · intro p x h1 h2 hx
                obtain ⟨p1, g1, g2, g3⟩ := swapsIn_from b1 p x (by omega) h2 hx
                rw [swapsIn_frame a1 p1 (Or.inr (by omega))] at g3
                exact ⟨p1, by omega, g2, g3⟩
              · rw [swapsIn_frame b1 pt.2.1 (Or.inl (by omega)),
                  swapsIn_frame a1 pt.2.1 (Or.inr (le_refl _))]
              · intro p q x y h1 h2 h3 hx hy
                rw [swapsIn_frame b1 p (Or.inl (by omega))] at hx
                rw [swapsIn_frame b1 q (Or.inl (by omega))] at hy
                exact a2 p q x y h1 h2 h3 hx hy
            · -- the right part first
              obtain ⟨a1, a2⟩ := ih pt.1 (pt.2.1 + 1) b limit1 true true (by omega) hbt
                (by omega) hlowR
              generalize pdqsort less k pt.1 (pt.2.1 + 1) b limit1 true true = lA at *
              have hbA : b ≤ lA.length := by rw [swapsIn_length a1]; exact hbt
              obtain ⟨b1, b2⟩ := ih lA a pt.2.1 limit1
                (decide (b - pt.2.1 ≥ (b - a) / 8)) pt.2.2 t2 (by omega) (by omega) (by
                  intro q h0 hq u y h1 h2 hy
                  rw [swapsIn_frame a1 (a - 1) (Or.inl (by omega))] at hq
                  rw [swapsIn_frame a1 u (Or.inl (by omega))] at hy
                  exact hlt q h0 hq u y h1 (by omega) hy)
              generalize pdqsort less k lA a pt.2.1 limit1
                (decide (b - pt.2.1 ≥ (b - a) / 8)) pt.2.2 = lB at *
              have hbB : b ≤ lB.length := by rw [swapsIn_length b1]; exact hbA
              refine ⟨swapsIn_trans hall3 (swapsIn_trans t1 (swapsIn_trans
                (swapsIn_mono a1 (by omega) (le_refl _) hbt)
                (swapsIn_mono b1 (le_refl _) (by omega) hbA))), ?_⟩
              refine sortedIn_assemble hw pt.1 lB a pt.2.1 b t3 hbB ?_ ?_ ?_ b2 ?_ t4 t5
              · intro p x h1 h2 hx
                obtain ⟨p1, g1, g2, g3⟩ := swapsIn_from b1 p x h1 h2 hx
                rw [swapsIn_frame a1 p1 (Or.inl (by omega))] at g3
                exact ⟨p1, g1, g2, g3⟩
              · intro p x h1 h2 hx
                rw [swapsIn_frame b1 p (Or.inr (by omega))] at hx
                obtain ⟨p1, g1, g2, g3⟩ := swapsIn_from a1 p x (by omega) h2 hx
                exact ⟨p1, by omega, g2, g3⟩
              · rw [swapsIn_frame b1 pt.2.1 (Or.inr (le_refl _)),
                  swapsIn_frame a1 pt.2.1 (Or.inl (by omega))]
              · intro p q x y h1 h2 h3 hx hy
                rw [swapsIn_frame b1 p (Or.inr (by omega))] at hx
                rw [swapsIn_frame b1 q (Or.inr (by omega))] at hy
                exact a2 p q x y h1 h2 h3 hx hy

/-! ## The library sort: `sort.Sort` -/

theorem goSort_swaps {α : Type} {less : α → α → Bool} (hw : WeakOrder less) (l : List α) :
    SwapsIn 0 l.length l (goSort less l) ∧ SortedIn less (goSort less l) 0 l.length := by
  unfold goSort
  split
  · refine ⟨SwapsIn.refl l, ?_⟩
    intro i j x y _ h2 h3 _ _
    omega
  · exact pdqsort_spec hw (l.length + 1) l 0 l.length (bitsLen l.length) true true
      (Nat.zero_le _) (le_refl _) (by omega) (fun q h _ => by omega)

/-- The result of `sort.Sort` has the elements of the data. -/
theorem goSort_perm {α : Type} {less : α → α → Bool} (hw : WeakOrder less) (l : List α) :
    (goSort less l).Perm l :=
  swapsIn_perm (goSort_swaps hw l).1

/-- The result of `sort.Sort` is in order. -/
theorem goSort_sorted {α : Type} {less : α → α → Bool} (hw : WeakOrder less) (l : List α) :
    (goSort less l).Pairwise (LeOf less) := by
  obtain ⟨h1, h2⟩ := goSort_swaps hw l
  have hlen := swapsIn_length h1
  rw [List.pairwise_iff_getElem]
  intro i j hi hj hij
  exact h2 i j _ _ (Nat.zero_le _) hij (by omega) (List.getElem?_eq_getElem hi)
    (List.getElem?_eq_getElem hj)

/-! ## Pagination: lemmas -/

theorem lastVisible_eq_count (StartID : Int) (mem : Ptr → Article) (r : List Ptr)
    (h : r.Pairwise (fun a b => (mem b).ID < StartID → (mem a).ID < StartID)) :
    lastVisible StartID mem r
      = (r.filter (fun a => decide (StartID ≤ (mem a).ID))).length := by
  induction r with
  | nil => rfl
  | cons p rest ih =>
    rw [List.pairwise_cons] at h
    by_cases hp : StartID ≤ (mem p).ID
    · have hall : ∀ b ∈ rest, decide (StartID ≤ (mem b).ID) = true := by
        intro b hb
        have := h.1 b hb
        simp only [decide_eq_true_eq]
        by_contra hc
        exact absurd (this (not_le.mp hc)) (not_lt.mpr hp)
      simp [lastVisible, hp, List.filter_eq_self.mpr hall]
    · simp [lastVisible, hp, ih h.2]

theorem lastVisible_reverse (StartID : Int) (s : Account) (h : HiddenLast StartID s) :
    lastVisible StartID s.mem s.Articles.reverse
      = (s.Articles.filter (fun a => decide (StartID ≤ (s.mem a).ID))).length := by
  rw [lastVisible_eq_count]
  · rw [List.filter_reverse, List.length_reverse]
  · rw [List.pairwise_reverse]
    exact h

/-- The page count of the code, `l / n` plus one when `l % n > 0`, is
`ceil(l / n)`. -/
theorem pages_eq_ceil (l n : Int) (hl : 0 ≤ l) (hn : 1 ≤ n) :
    (if Int.tmod l n > 0 then Int.tdiv l n + 1 else Int.tdiv l n) = (l + n - 1) / n := by
  have hn0 : n ≠ 0 := by omega
  rw [Int.tmod_eq_emod hl (by omega), Int.tdiv_eq_ediv hl (by omega)]
  have hdecomp := Int.emod_add_ediv l n
  have hr0 := Int.emod_nonneg l hn0
  have hr1 := Int.emod_lt_of_pos l (by omega : 0 < n)
  generalize l % n = r at *
  generalize l / n = k at *
  have hl' : l + n - 1 = (r + n - 1) + n * k := by omega
  rw [hl', Int.add_mul_ediv_left _ _ hn0]
  by_cases hr : r > 0
  · have : (r + n - 1) / n = 1 := by
      have h1 : r + n - 1 = (r - 1) + n * 1 := by ring
      rw [h1, Int.add_mul_ediv_left _ _ hn0, Int.ediv_eq_zero_of_lt (by omega) (by omega)]
      rfl
    rw [if_pos hr, this]; ring
  · have : (r + n - 1) / n = 0 := by
      have : r = 0 := by omega
      subst this
      exact Int.ediv_eq_zero_of_lt (by omega) (by omega)
    rw [if_neg hr, this]; ring

theorem ceil_bounds (l n : Int) (hl : 1 ≤ l) (hn : 1 ≤ n) :
    1 ≤ (l + n - 1) / n ∧ ((l + n - 1) / n - 1) * n < l ∧ l ≤ (l + n - 1) / n * n := by
  have hn0 : n ≠ 0 := by omega
  have h1 := Int.emod_add_ediv (l + n - 1) n
  have h2 := Int.emod_nonneg (l + n - 1) hn0
  have h3 := Int.emod_lt_of_pos (l + n - 1) (by omega : 0 < n)
  generalize (l + n - 1) % n = r at *
  generalize (l + n - 1) / n = m at *
  have hm : n * m = l + n - 1 - r := by omega
  refine ⟨?_, ?_, ?_⟩
  · by_contra hc
    have : m ≤ 0 := by omega
    have : n * m ≤ 0 := by nlinarith
    omega
  · have : (m - 1) * n = n * m - n := by ring
    omega
  · have : m * n = n * m := by ring
    omega

/-- `PageList` against `PageRef`, with the bounds of the slice. -/
theorem PageList_ref_aux (StartID : Int) (s : Account) (p n : Int)
    (h : HiddenLast StartID s) (hp : 1 ≤ p) (hn : 1 ≤ n) :
    PageList StartID s p n = .ok (PageRef StartID s p n) ∧
    ∀ l : Int,
      l = (s.Articles.filter (fun a => decide (StartID ≤ (s.mem a).ID))).length →
      l ≠ 0 →
      0 ≤ (min p ((l + n - 1) / n) - 1) * n ∧
      (min p ((l + n - 1) / n) - 1) * n < min (min p ((l + n - 1) / n) * n) l ∧
      min (min p ((l + n - 1) / n) * n) l ≤ s.Articles.length := by
  have hlen : (s.Articles.filter (fun a => decide (StartID ≤ (s.mem a).ID))).length
      ≤ s.Articles.length := List.length_filter_le _ _
  have key : ∀ l : Int,
      l = (s.Articles.filter (fun a => decide (StartID ≤ (s.mem a).ID))).length →
      l ≠ 0 →
      0 ≤ (min p ((l + n - 1) / n) - 1) * n ∧
      (min p ((l + n - 1) / n) - 1) * n < min (min p ((l + n - 1) / n) * n) l ∧
      min (min p ((l + n - 1) / n) * n) l ≤ s.Articles.length := by
    intro l hl hl0
    have hl1 : 1 ≤ l := by omega
    obtain ⟨hm1, hm2, hm3⟩ := ceil_bounds l n hl1 hn
    generalize (l + n - 1) / n = m at *
    have hq1 : 1 ≤ min p m := le_min hp hm1
    have hqm : min p m ≤ m := min_le_right _ _
    generalize min p m = q at *
    have hb : (q - 1) * n ≤ (m - 1) * n := by nlinarith
    have hqn : (q - 1) * n < q * n := by nlinarith
    refine ⟨by nlinarith, lt_min hqn (by omega), ?_⟩
    exact le_trans (min_le_right _ _) (by omega)
  refine ⟨?_, key⟩
  unfold PageList PageRef
  simp only [lastVisible_reverse StartID s h]
  by_cases hl0 : ((s.Articles.filter (fun a => decide (StartID ≤ (s.mem a).ID))).length : Int) = 0
  · simp only [hl0, if_true]
  · obtain ⟨k1, k2, k3⟩ := key _ rfl hl0
    simp only [hl0, if_false]
    rw [if_neg (by omega : ¬ n = 0)]
    have hnn : (0 : Int) ≤
        ((s.Articles.filter (fun a => decide (StartID ≤ (s.mem a).ID))).length : Int) :=
      Int.natCast_nonneg _
    generalize ((s.Articles.filter (fun a => decide (StartID ≤ (s.mem a).ID))).length : Int)
      = l at *
    simp only [pages_eq_ceil l n hnn hn]
    generalize (l + n - 1) / n = m at *
    have hq : (if p > m then m else p) = min p m := by
      by_cases hpm : p > m
      · rw [if_pos hpm, min_eq_right (le_of_lt hpm)]
      · rw [if_neg hpm, min_eq_left (not_lt.mp hpm)]
    simp only [hq]
    generalize min p m = q at *
    have he : (if q * n > l then l else q * n) = min (q * n) l := by
      by_cases hc : q * n > l
      · rw [if_pos hc, min_eq_right (le_of_lt hc)]
      · rw [if_neg hc, min_eq_left (not_lt.mp hc)]
    simp only [he]
    generalize min (q * n) l = e at *
    rw [if_pos ⟨k1, le_of_lt k2, k3⟩]
    rw [List.drop_take]
    have hsub : e.toNat - ((q - 1) * n).toNat = (e - (q - 1) * n).toNat := by
      generalize (q - 1) * n = b at *
      omega
    rw [hsub]


theorem take_count_eq_filter (StartID : Int) (mem : Ptr → Article) (l : List Ptr)
    (h : l.Pairwise (fun a b => (mem a).ID < StartID → (mem b).ID < StartID)) :
    l.take (l.filter (fun a => decide (StartID ≤ (mem a).ID))).length
      = l.filter (fun a => decide (StartID ≤ (mem a).ID)) := by
  induction l with
  | nil => rfl
  | cons a rest ih =>
    rw [List.pairwise_cons] at h
    by_cases ha : StartID ≤ (mem a).ID
    · simp [ha, ih h.2]
    · have hnone : rest.filter (fun a => decide (StartID ≤ (mem a).ID)) = [] := by
        rw [List.filter_eq_nil_iff]
        intro b hb
        have := h.1 b hb (not_le.mp ha)
        simp only [decide_eq_true_eq]
        omega
      simp [ha, hnone]

/-! ## C1: pagination equals its reference definition -/

/-- C1. `PageList` equals its reference definition: when every article below
the boundary comes after every article at or above it, for a page number
`p ≥ 1` and a page size `n ≥ 1` the function returns, without a panic, the
previous page, next page and article slice of `PageRef`; and when some
article is visible the slice bounds lie within the list. -/
theorem PageList_eq_PageRef (StartID : Int) (s : Account) (p n : Int)
    (h : HiddenLast StartID s) (hp : 1 ≤ p) (hn : 1 ≤ n) :
    PageList StartID s p n = .ok (PageRef StartID s p n) ∧
    ∀ l : Int,
      l = (s.Articles.filter (fun a => decide (StartID ≤ (s.mem a).ID))).length →
      l ≠ 0 →
      0 ≤ (min p ((l + n - 1) / n) - 1) * n ∧
      (min p ((l + n - 1) / n) - 1) * n < min (min p ((l + n - 1) / n) * n) l ∧
      min (min p ((l + n - 1) / n) * n) l ≤ s.Articles.length :=
  PageList_ref_aux StartID s p n h hp hn

/-- The scenario of the specification: boundary 100, page size 2, articles
103, 102, 101: page 1 is [103, 102] with no previous page and next page 2,
page 2 is [101] with previous page 1 and no next page. -/
theorem PageList_eq_PageRef_witness :
    PageList 100 exPage 1 2 = .ok (0, 2, [0, 1]) ∧
    PageList 100 exPage 2 2 = .ok (1, 0, [2]) ∧
    exPage.Articles.map exPage.idOf = [103, 102, 101] :=
  ⟨(PageList_eq_PageRef 100 exPage 1 2 (by unfold HiddenLast; decide) (by decide)
      (by decide)).1.trans (by decide),
   (PageList_eq_PageRef 100 exPage 2 2 (by unfold HiddenLast; decide) (by decide)
      (by decide)).1.trans (by decide),
   by decide⟩

/-! ## C2: the page holds visible articles only -/

/-- C2, as stated, fails: the list of `exMid` is sorted by creation time
descending, yet page 1 of size 3 holds the article with identifier 5, below
the boundary 100. -/
theorem PageList_visible_counterexample :
    ChronSorted exMid ∧ PageList 100 exMid 1 3 = .ok (0, 0, [0, 1, 2]) ∧
    (1 : Ptr) ∈ [0, 1, 2] ∧ (exMid.mem 1).ID = 5 ∧ ¬ (100 : Int) ≤ (exMid.mem 1).ID := by
  refine ⟨by unfold ChronSorted; decide, by decide, by decide, by decide, by decide⟩

/-- C2, amended. When every article below the boundary comes after every
article at or above it, for `p ≥ 1` and `n ≥ 1` the function `PageList`
returns a slice, and every article in it has an identifier at or above the
boundary. -/
theorem PageList_visible (StartID : Int) (s : Account) (p n : Int)
    (h : HiddenLast StartID s) (hp : 1 ≤ p) (hn : 1 ≤ n) :
    ∃ prev next artcs, PageList StartID s p n = .ok (prev, next, artcs) ∧
      ∀ a ∈ artcs, StartID ≤ (s.mem a).ID := by
  obtain ⟨heq, hb⟩ := PageList_ref_aux StartID s p n h hp hn
  rcases hR : PageRef StartID s p n with ⟨prev, next, artcs⟩
  rw [hR] at heq
  refine ⟨prev, next, artcs, heq, ?_⟩
  intro a ha
  unfold PageRef at hR
  by_cases hl0 :
      ((s.Articles.filter (fun a => decide (StartID ≤ (s.mem a).ID))).length : Int) = 0
  · simp only [hl0, if_true, Prod.mk.injEq] at hR
    rw [← hR.2.2] at ha
    simp at ha
  · obtain ⟨k1, k2, k3⟩ := hb _ rfl hl0
    simp only [hl0, if_false, Prod.mk.injEq] at hR
    rw [← hR.2.2] at ha
    have h1 := List.mem_of_mem_take ha
    rw [List.take_drop] at ha
    have h2 := List.mem_of_mem_drop ha
    have hle : ((min p ((((s.Articles.filter
        (fun a => decide (StartID ≤ (s.mem a).ID))).length : Int) + n - 1) / n) - 1) * n).toNat
        + (min (min p ((((s.Articles.filter
        (fun a => decide (StartID ≤ (s.mem a).ID))).length : Int) + n - 1) / n) * n)
          ((s.Articles.filter (fun a => decide (StartID ≤ (s.mem a).ID))).length : Int)
          - (min p ((((s.Articles.filter
        (fun a => decide (StartID ≤ (s.mem a).ID))).length : Int) + n - 1) / n) - 1) * n).toNat
        ≤ (s.Articles.filter (fun a => decide (StartID ≤ (s.mem a).ID))).length := by
      have := min_le_right (min p ((((s.Articles.filter
        (fun a => decide (StartID ≤ (s.mem a).ID))).length : Int) + n - 1) / n) * n)
          ((s.Articles.filter (fun a => decide (StartID ≤ (s.mem a).ID))).length : Int)
      omega
    have h3 : a ∈ s.Articles.take
        (s.Articles.filter (fun a => decide (StartID ≤ (s.mem a).ID))).length := by
      have := List.take_subset_take_left s.Articles hle
      exact this h2
    rw [take_count_eq_filter StartID s.mem s.Articles h] at h3
    simpa using (List.mem_filter.mp h3).2

/-- The amended C2 at the pagination scenario: page 2 of size 2 holds only
the article 101, at or above the boundary 100. -/
theorem PageList_visible_witness :
    HiddenLast 100 exPage ∧
    ∃ prev next artcs, PageList 100 exPage 2 2 = .ok (prev, next, artcs) ∧
      ∀ a ∈ artcs, (100 : Int) ≤ (exPage.mem a).ID :=
  ⟨by unfold HiddenLast; decide,
   PageList_visible 100 exPage 2 2 (by unfold HiddenLast; decide) (by decide) (by decide)⟩

/-! ## Creation times and sorting: lemmas -/

theorem Time.After_iff (t u : Time) :
    t.After u = true ↔
      (u.year < t.year ∨ (u.year = t.year ∧
        (u.month < t.month ∨ (u.month = t.month ∧ u.nsec < t.nsec)))) := by
  simp [Time.After]

theorem Time.After_false_iff (t u : Time) :
    t.After u = false ↔
      ¬ (u.year < t.year ∨ (u.year = t.year ∧
        (u.month < t.month ∨ (u.month = t.month ∧ u.nsec < t.nsec)))) := by
  rw [← Time.After_iff, Bool.not_eq_true]

theorem notAfter_total (mem : Ptr → Article) (a b : Ptr) :
    notAfter mem a b ∨ notAfter mem b a := by
  unfold notAfter lessArticle
  rw [Time.After_false_iff, Time.After_false_iff]
  omega

theorem notAfter_trans (mem : Ptr → Article) (a b c : Ptr)
    (h1 : notAfter mem a b) (h2 : notAfter mem b c) : notAfter mem a c := by
  unfold notAfter lessArticle at *
  rw [Time.After_false_iff] at *
  omega

/-- `Time.After` is an order that `sort.Sort` can sort by. -/
theorem weakOrder_After {α : Type} (f : α → Time) :
    WeakOrder (fun a b => (f a).After (f b)) := by
  constructor
  · intro x y h
    rw [Time.After_iff] at h
    rw [Time.After_false_iff]
    omega
  · intro x y z h1 h2
    rw [Time.After_false_iff] at *
    omega

theorem sortArticles_sorted (mem : Ptr → Article) (l : List Ptr) :
    (sortArticles mem l).Pairwise (notAfter mem) :=
  goSort_sorted (weakOrder_After (fun p => (mem p).CreateTime)) l

theorem sortArticles_perm (mem : Ptr → Article) (l : List Ptr) :
    (sortArticles mem l).Perm l :=
  goSort_perm (weakOrder_After (fun p => (mem p).CreateTime)) l

theorem Time.eq_of_not_After (t u : Time) (h1 : t.After u = false) (h2 : u.After t = false) :
    t = u := by
  rw [Time.After_false_iff] at h1 h2
  cases t with
  | mk ty tm tn =>
    cases u with
    | mk uy um un =>
      simp only [Time.mk.injEq] at *
      omega

/-- Two sorted lists of the same articles are equal when the creation times of
the articles are pairwise different. -/
theorem sorted_perm_unique (mem : Ptr → Article) (l l1 : List Ptr) (hperm : l1.Perm l)
    (hdist : l.Pairwise (fun a b => (mem a).CreateTime ≠ (mem b).CreateTime))
    (hs : l.Pairwise (notAfter mem)) (hs1 : l1.Pairwise (notAfter mem)) : l1 = l := by
  have hdist1 : l1.Pairwise (fun a b => (mem a).CreateTime ≠ (mem b).CreateTime) :=
    (List.Perm.pairwise_iff (fun {x y} h => Ne.symm h) hperm).mpr hdist
  have hstrict : ∀ {a b : Ptr}, notAfter mem a b ∧ (mem a).CreateTime ≠ (mem b).CreateTime →
      lessArticle mem a b = true := by
    intro a b hab
    by_contra hc
    rw [Bool.not_eq_true] at hc
    exact hab.2 (Time.eq_of_not_After _ _ hc hab.1)
  have h1 : l.Pairwise (fun a b => lessArticle mem a b = true) :=
    (hs.and hdist).imp hstrict
  have h2 : l1.Pairwise (fun a b => lessArticle mem a b = true) :=
    (hs1.and hdist1).imp hstrict
  haveI : IsAntisymm Ptr (fun a b => lessArticle mem a b = true) := ⟨by
    intro a b hab hba
    exfalso
    unfold lessArticle at hab hba
    rw [Time.After_iff] at hab hba
    omega⟩
  exact List.eq_of_perm_of_sorted hperm h2 h1

/-- Two memories that agree on the creation times give the same order. -/
theorem notAfter_congr (m m1 : Ptr → Article)
    (h : ∀ p, (m1 p).CreateTime = (m p).CreateTime) (a b : Ptr) :
    notAfter m1 a b ↔ notAfter m a b := by
  unfold notAfter lessArticle
  rw [h a, h b]

theorem chronSorted_iff (s : Account) : ChronSorted s ↔ s.Articles.Pairwise (notAfter s.mem) :=
  Iff.rfl

theorem chronSorted_congr (s s1 : Account) (hl : s1.Articles = s.Articles)
    (h : ∀ p, (s1.mem p).CreateTime = (s.mem p).CreateTime) (hs : ChronSorted s) :
    ChronSorted s1 := by
  rw [chronSorted_iff] at *
  rw [hl]
  exact hs.imp (fun {a b} hab => (notAfter_congr s.mem s1.mem h a b).mpr hab)

/-! ## What the operations leave alone: lemmas -/

@[simp] theorem store_mem (s : Account) (p : Ptr) (a : Article) (q : Ptr) :
    (s.store p a).mem q = if q = p then a else s.mem q := rfl

@[simp] theorem store_Articles (s : Account) (p : Ptr) (a : Article) :
    (s.store p a).Articles = s.Articles := rfl

@[simp] theorem store_MapArticles (s : Account) (p : Ptr) (a : Article) :
    (s.store p a).MapArticles = s.MapArticles := rfl

@[simp] theorem store_Tags (s : Account) (p : Ptr) (a : Article) :
    (s.store p a).Tags = s.Tags := rfl

@[simp] theorem store_Series (s : Account) (p : Ptr) (a : Article) :
    (s.store p a).Series = s.Series := rfl

@[simp] theorem store_Archives (s : Account) (p : Ptr) (a : Article) :
    (s.store p a).Archives = s.Archives := rfl

@[simp] theorem store_CH (s : Account) (p : Ptr) (a : Article) :
    (s.store p a).CH = s.CH := rfl

@[simp] theorem setSlug_mem (s : Account) (k : String) (v : Option Ptr) :
    (s.setSlug k v).mem = s.mem := rfl

@[simp] theorem setSlug_Articles (s : Account) (k : String) (v : Option Ptr) :
    (s.setSlug k v).Articles = s.Articles := rfl

@[simp] theorem setTag_mem (s : Account) (k : String) (v : Option (List Ptr)) :
    (s.setTag k v).mem = s.mem := rfl

@[simp] theorem setTag_Articles (s : Account) (k : String) (v : Option (List Ptr)) :
    (s.setTag k v).Articles = s.Articles := rfl

@[simp] theorem send_mem (s : Account) (b : Bool) (t : String) :
    (s.send b t).mem = s.mem := by
  unfold Account.send; split <;> rfl

@[simp] theorem send_Articles (s : Account) (b : Bool) (t : String) :
    (s.send b t).Articles = s.Articles := by
  unfold Account.send; split <;> rfl

@[simp] theorem send_MapArticles (s : Account) (b : Bool) (t : String) :
    (s.send b t).MapArticles = s.MapArticles := by
  unfold Account.send; split <;> rfl

@[simp] theorem send_Tags (s : Account) (b : Bool) (t : String) :
    (s.send b t).Tags = s.Tags := by
  unfold Account.send; split <;> rfl

@[simp] theorem send_Series (s : Account) (b : Bool) (t : String) :
    (s.send b t).Series = s.Series := by
  unfold Account.send; split <;> rfl

@[simp] theorem send_Archives (s : Account) (b : Bool) (t : String) :
    (s.send b t).Archives = s.Archives := by
  unfold Account.send; split <;> rfl

theorem keepsOrder_refl (s : Account) : KeepsOrder s s := ⟨rfl, rfl, fun _ => rfl⟩

theorem keepsOrder_trans {s s1 s2 : Account} (h1 : KeepsOrder s s1) (h2 : KeepsOrder s1 s2) :
    KeepsOrder s s2 :=
  ⟨h2.1.trans h1.1, h2.2.1.trans h1.2.1, fun p => (h2.2.2 p).trans (h1.2.2 p)⟩

theorem keepsOrder_time {s s1 : Account} (h : KeepsOrder s s1) (p : Ptr) :
    (s1.mem p).CreateTime = (s.mem p).CreateTime := by
  have := h.2.2 p
  simp only [Article.core, Prod.mk.injEq] at this
  exact this.2.2.2.1

theorem keepsOrder_id {s s1 : Account} (h : KeepsOrder s s1) (p : Ptr) :
    (s1.mem p).ID = (s.mem p).ID := by
  have := h.2.2 p
  simp only [Article.core, Prod.mk.injEq] at this
  exact this.1

theorem keepsOrder_slug {s s1 : Account} (h : KeepsOrder s s1) (p : Ptr) :
    (s1.mem p).Slug = (s.mem p).Slug := by
  have := h.2.2 p
  simp only [Article.core, Prod.mk.injEq] at this
  exact this.2.1

theorem keepsOrder_title {s s1 : Account} (h : KeepsOrder s s1) (p : Ptr) :
    (s1.mem p).Title = (s.mem p).Title := by
  have := h.2.2 p
  simp only [Article.core, Prod.mk.injEq] at this
  exact this.2.2.1

theorem keepsOrder_setPrev (s : Account) (p : Ptr) (v : Option Ptr) :
    KeepsOrder s (s.setPrev p v) := by
  refine ⟨rfl, rfl, fun q => ?_⟩
  unfold Account.setPrev
  by_cases h : q = p <;> simp [h, Article.core]

theorem keepsOrder_setNext (s : Account) (p : Ptr) (v : Option Ptr) :
    KeepsOrder s (s.setNext p v) := by
  refine ⟨rfl, rfl, fun q => ?_⟩
  unfold Account.setNext
  by_cases h : q = p <;> simp [h, Article.core]

theorem keepsOrder_DelFromLinkedList (s s1 : Account) (a : Option Ptr)
    (h : DelFromLinkedList s a = .ok s1) : KeepsOrder s s1 := by
  unfold DelFromLinkedList at h
  split at h
  · cases h
  · split at h
    · cases h; exact keepsOrder_refl s
    · cases h; exact keepsOrder_setPrev _ _ _
    · cases h; exact keepsOrder_setNext _ _ _
    · simp only at h
      split at h
      · cases h
      · cases h
        exact keepsOrder_trans (keepsOrder_setNext _ _ _) (keepsOrder_setPrev _ _ _)

theorem keepsOrder_AddToLinkedList (StartID : Int) (s s1 : Account) (id : Int)
    (h : AddToLinkedList StartID s id = .ok s1) : KeepsOrder s s1 := by
  unfold AddToLinkedList at h
  split at h
  · cases h; exact keepsOrder_refl s
  · split at h
    · split at h
      · cases h
      · split at h
        · cases h
          exact keepsOrder_trans (keepsOrder_setNext _ _ _) (keepsOrder_setPrev _ _ _)
        · cases h; exact keepsOrder_refl s
    · split at h
      · cases h
      · split at h
        · simp only at h
          split at h
          · cases h
            exact keepsOrder_trans (keepsOrder_setPrev _ _ _) (keepsOrder_setNext _ _ _)
          · split at h
            · cases h
            · cases h
              exact keepsOrder_trans
                (keepsOrder_trans (keepsOrder_setPrev _ _ _) (keepsOrder_setNext _ _ _))
                (keepsOrder_trans (keepsOrder_setPrev _ _ _) (keepsOrder_setNext _ _ _))
        · cases h; exact keepsOrder_refl s

theorem keepsOrder_GenerateExcerptAndRender (R : Renderer) (s s1 : Account) (a : Ptr)
    (h : GenerateExcerptAndRender R s a = .ok s1) : KeepsOrder s s1 := by
  unfold GenerateExcerptAndRender at h
  split at h
  · cases h
  · cases h
    refine ⟨rfl, rfl, fun q => ?_⟩
    by_cases hq : q = a <;> simp [hq, Article.core]

theorem onlyIndex_refl (s : Account) : OnlyIndex s s := ⟨rfl, rfl, rfl⟩

theorem onlyIndex_trans {s s1 s2 : Account} (h1 : OnlyIndex s s1) (h2 : OnlyIndex s1 s2) :
    OnlyIndex s s2 :=
  ⟨h2.1.trans h1.1, h2.2.1.trans h1.2.1, h2.2.2.trans h1.2.2⟩

theorem onlyIndex_keepsOrder {s s1 : Account} (h : OnlyIndex s s1) : KeepsOrder s s1 :=
  ⟨h.2.1, h.2.2, fun p => by rw [h.1]⟩

theorem onlyIndex_setTag (s : Account) (k : String) (v : Option (List Ptr)) :
    OnlyIndex s (s.setTag k v) := ⟨rfl, rfl, rfl⟩

theorem onlyIndex_send (s : Account) (b : Bool) (t : String) : OnlyIndex s (s.send b t) := by
  unfold Account.send; split
  · exact ⟨rfl, rfl, rfl⟩
  · exact onlyIndex_refl s

theorem onlyIndex_foldl_upTag (artc : Ptr) (needSort : Bool) (tags : List String)
    (s : Account) : OnlyIndex s (tags.foldl (upTag artc needSort) s) := by
  induction tags generalizing s with
  | nil => exact onlyIndex_refl s
  | cons t rest ih =>
    rw [List.foldl_cons]
    exact onlyIndex_trans (onlyIndex_setTag s t _) (ih _)

theorem onlyIndex_upArticle (s : Account) (artc : Ptr) (needSort : Bool) :
    OnlyIndex s (upArticle s artc needSort) := by
  have h1 := onlyIndex_foldl_upTag artc needSort (s.mem artc).Tags s
  unfold upArticle
  simp only
  split
  · refine ⟨?_, ?_, ?_⟩
    · simp [h1.1]
    · simp [h1.2.1]
    · simp [h1.2.2]
  · refine ⟨?_, ?_, ?_⟩
    · simp [h1.1]
    · simp [h1.2.1]
    · simp [h1.2.2]

theorem onlyIndex_dropTag (artc : Ptr) (s s1 : Account) (tag : String)
    (h : dropTag artc s tag = .ok s1) : OnlyIndex s s1 := by
  unfold dropTag at h
  split at h
  · cases h; exact onlyIndex_refl s
  · split at h
    · cases h
    · cases h; exact onlyIndex_setTag _ _ _

theorem onlyIndex_dropTags (artc : Ptr) (tags : List String) (s s1 : Account)
    (h : dropTags artc s tags = .ok s1) : OnlyIndex s s1 := by
  induction tags generalizing s with
  | nil => simp only [dropTags, Except.ok.injEq] at h; subst h; exact onlyIndex_refl s
  | cons t rest ih =>
    simp only [dropTags] at h
    split at h
    · cases h
    · rename_i s2 h2
      exact onlyIndex_trans (onlyIndex_dropTag artc s s2 t h2) (ih s2 h)

theorem onlyIndex_dropArticle (s s1 : Account) (artc : Ptr)
    (h : dropArticle s artc = .ok s1) : OnlyIndex s s1 := by
  unfold dropArticle at h
  split at h
  · cases h
  · rename_i s2 h2
    simp only at h
    split at h
    · cases h
    · cases h
      exact onlyIndex_trans (onlyIndex_dropTags artc _ s s2 h2) ⟨rfl, rfl, rfl⟩

/-! ## C3: the chronological list stays sorted -/

theorem chronSorted_of_keepsOrder {s s1 : Account} (h : KeepsOrder s s1)
    (hs : ChronSorted s) : ChronSorted s1 :=
  chronSorted_congr s s1 h.1 (fun p => keepsOrder_time h p) hs

theorem AddArticle_sorted (StartID : Int) (R : Renderer) (s s1 : Account) (artc : Ptr)
    (gen : List Int) (insertErr e : Option Error) (hs : ChronSorted s)
    (h : AddArticle StartID R s artc gen insertErr = .ok (s1, e)) : ChronSorted s1 := by
  unfold AddArticle at h
  split at h
  · cases h
  · rename_i id _
    have hs0 : ChronSorted (s.store artc { s.mem artc with ID := id }) := by
      refine chronSorted_congr s _ rfl (fun p => ?_) hs
      by_cases hp : p = artc <;> simp [hp]
    simp only at h
    split at h
    · cases h; exact hs0
    · split at h
      · cases h; exact hs0
      · split at h
        · cases h
        · rename_i s3 h3
          split at h
          · cases h
          · rename_i s5 h5
            cases h
            have k3 := keepsOrder_AddToLinkedList _ _ _ _ h3
            have k4 := onlyIndex_keepsOrder (onlyIndex_upArticle s3 artc true)
            have k5 := keepsOrder_GenerateExcerptAndRender _ _ _ _ h5
            refine chronSorted_of_keepsOrder (keepsOrder_trans (keepsOrder_trans k3 k4) k5) ?_
            rw [chronSorted_iff]
            exact sortArticles_sorted _ _

theorem DelArticles_sorted (upd : Int → Option Error) (ids : List Int) (s s1 : Account)
    (e : Option Error) (hs : ChronSorted s)
    (h : DelArticles upd s ids = .ok (s1, e)) : ChronSorted s1 := by
  induction ids generalizing s with
  | nil =>
    simp only [DelArticles, Except.ok.injEq, Prod.mk.injEq] at h
    rw [← h.1]; exact hs
  | cons id rest ih =>
    simp only [DelArticles] at h
    split at h
    · simp [DelFromLinkedList] at h
    · rename_i i artc _
      split at h
      · cases h
      · rename_i s2 h2
        have k2 := keepsOrder_DelFromLinkedList _ _ _ h2
        have hs2 := chronSorted_of_keepsOrder k2 hs
        have hs3 : ChronSorted
            (({ s2 with Articles := s2.Articles.eraseIdx i } : Account).setSlug
              (s2.mem artc).Slug none) := by
          rw [chronSorted_iff] at hs2 ⊢
          exact hs2.sublist (List.eraseIdx_sublist _ _)
        split at h
        · cases h; exact hs3
        · split at h
          · cases h
          · rename_i s4 h4
            exact ih s4 (chronSorted_of_keepsOrder
              (onlyIndex_keepsOrder (onlyIndex_dropArticle _ _ _ h4)) hs3) h

/-- C3. The chronological list stays sorted: from a list sorted by creation
time descending, after every sequence of returning `AddArticle` and
`DelArticles` calls, for all positions `i < j` the article at `j` is not
created after the article at `i`. -/
theorem chronological_list_stays_sorted (StartID : Int) (R : Renderer) (s s1 : Account)
    (hs : ChronSorted s) (hr : Relation.ReflTransGen (Mutation StartID R) s s1) :
    ∀ (i j : Nat) (a b : Ptr), i < j → s1.Articles[i]? = some a → s1.Articles[j]? = some b →
      (s1.mem b).CreateTime.After (s1.mem a).CreateTime = false := by
  have hs1 : ChronSorted s1 := by
    induction hr with
    | refl => exact hs
    | tail _ hstep ih =>
      cases hstep with
      | add artc gen insertErr e h => exact AddArticle_sorted _ _ _ _ _ _ _ _ ih h
      | del upd ids e h => exact DelArticles_sorted _ _ _ _ _ ih h
  intro i j a b hij ha hb
  rw [chronSorted_iff] at hs1
  obtain ⟨hi, rfl⟩ := List.getElem?_eq_some_iff.mp ha
  obtain ⟨hj, rfl⟩ := List.getElem?_eq_some_iff.mp hb
  exact List.pairwise_iff_getElem.mp hs1 i j hi hj hij

/-- C3 at a concrete run: adding the article at address 1 to `exDup` and then
deleting the article 200 leaves sorted lists. -/
theorem chronological_list_stays_sorted_witness :
    ChronSorted exDup ∧
    ∃ s1 s2, AddArticle 100 plainRender exDup 1 [300] none = .ok (s1, none) ∧
      s1.Articles = [1, 0] ∧
      DelArticles (fun _ => none) s1 [200] = .ok (s2, none) ∧
      s2.Articles = [1] ∧
      ∀ (i j : Nat) (a b : Ptr), i < j → s1.Articles[i]? = some a →
        s1.Articles[j]? = some b →
        (s1.mem b).CreateTime.After (s1.mem a).CreateTime = false := by
  refine ⟨by unfold ChronSorted; decide, _, _, rfl, rfl, rfl, rfl, ?_⟩
  exact chronological_list_stays_sorted 100 plainRender exDup _
    (by unfold ChronSorted; decide)
    (Relation.ReflTransGen.single (Mutation.add _ _ 1 [300] none none rfl))

/-! ## C4, C5: adding an article and the slug lookup -/

/-- The published path of `AddArticle`: when the insert succeeds for an article
that is not a draft and the call returns, an identifier was allocated, no
error is returned, and the state is the one with the identifier written, the
slug mapped and the list sorted, up to linking, indexing and rendering. -/
theorem AddArticle_publish (StartID : Int) (R : Renderer) (s s1 : Account) (artc : Ptr)
    (gen : List Int) (e : Option Error) (hd : (s.mem artc).IsDraft = false)
    (h : AddArticle StartID R s artc gen none = .ok (s1, e)) :
    ∃ id, allocID StartID gen = some id ∧ e = none ∧
      KeepsOrder
        { ((s.store artc { s.mem artc with ID := id }).setSlug (s.mem artc).Slug (some artc))
          with Articles :=
            sortArticles (s.store artc { s.mem artc with ID := id }).mem (artc :: s.Articles) }
        s1 := by
  unfold AddArticle at h
  split at h
  · cases h
  · rename_i id hid
    refine ⟨id, hid, ?_⟩
    simp only at h
    split at h
    · rename_i hdraft
      simp [hd] at hdraft
    · split at h
      · cases h
      · rename_i s3 h3
        split at h
        · cases h
        · rename_i s5 h5
          cases h
          refine ⟨rfl, ?_⟩
          have k3 := keepsOrder_AddToLinkedList _ _ _ _ h3
          have k4 := onlyIndex_keepsOrder (onlyIndex_upArticle s3 artc true)
          have k5 := keepsOrder_GenerateExcerptAndRender _ _ _ _ h5
          have k := keepsOrder_trans (keepsOrder_trans k3 k4) k5
          simp only [store_mem, if_true] at k
          exact k

/-- When `AddArticle` returns an error value, the store answered the insert
with that error, and the list and the slug lookup are as before. -/
theorem AddArticle_error (StartID : Int) (R : Renderer) (s s1 : Account) (artc : Ptr)
    (gen : List Int) (insertErr : Option Error) (err : Error)
    (h : AddArticle StartID R s artc gen insertErr = .ok (s1, some err)) :
    insertErr = some err ∧ s1.Articles = s.Articles ∧ s1.MapArticles = s.MapArticles := by
  unfold AddArticle at h
  split at h
  · cases h
  · split at h
    · simp only [Except.ok.injEq, Prod.mk.injEq, Option.some.injEq] at h
      obtain ⟨h1, h2⟩ := h
      subst h1 h2
      exact ⟨rfl, rfl, rfl⟩
    · simp only at h
      split at h
      · simp at h
      · split at h
        · cases h
        · split at h
          · cases h
          · simp at h

/-- C4, as stated, fails: in `exDup` the slug "hello" is a key of the slug
lookup, yet adding the article at address 1 with that slug returns success,
the list grows and the slug is mapped to the added article. -/
theorem AddArticle_duplicate_slug_counterexample :
    (exDup.mem 1).Slug = "hello" ∧ exDup.MapArticles "hello" = some 0 ∧
    exDup.Articles = [0] ∧
    ∃ s1, AddArticle 100 plainRender exDup 1 [300] none = .ok (s1, none) ∧
      s1.Articles = [1, 0] ∧ s1.MapArticles "hello" = some 1 :=
  ⟨rfl, rfl, rfl, _, rfl, rfl, rfl⟩

/-- C4, amended. `AddArticle` does not reject a duplicate slug. For an article
whose slug is already a key of the slug lookup: an error value is returned
only when the store fails the insert, and then the list and the slug lookup
are as before; when the insert succeeds for an article that is not a draft
and the call returns, it returns success, the slug, mapped to some article
before, is mapped to the added article, and the list holds the added article
besides the earlier ones. -/
theorem AddArticle_duplicate_slug (StartID : Int) (R : Renderer) (s : Account) (artc : Ptr)
    (gen : List Int) (hdup : (s.MapArticles (s.mem artc).Slug).isSome = true) :
    (∀ insertErr s1 err, AddArticle StartID R s artc gen insertErr = .ok (s1, some err) →
      insertErr = some err ∧ s1.Articles = s.Articles ∧ s1.MapArticles = s.MapArticles) ∧
    (∀ s1 e, (s.mem artc).IsDraft = false →
      AddArticle StartID R s artc gen none = .ok (s1, e) →
      e = none ∧ (∃ q, s.MapArticles (s.mem artc).Slug = some q) ∧
        s1.MapArticles (s.mem artc).Slug = some artc ∧
        s1.Articles.Perm (artc :: s.Articles)) := by
  refine ⟨fun insertErr s1 err h => AddArticle_error _ _ _ _ _ _ _ _ h, ?_⟩
  intro s1 e hd h
  obtain ⟨id, _, he, hk⟩ := AddArticle_publish _ _ _ _ _ _ _ hd h
  refine ⟨he, Option.isSome_iff_exists.mp hdup, ?_, ?_⟩
  · rw [hk.2.1]
    simp [Account.setSlug]
  · rw [hk.1]
    exact sortArticles_perm _ _

/-- The amended C4 at `exDup`: the article at address 1 repeats the slug
"hello"; a failing insert leaves list and lookup alone, a succeeding one maps
the slug to the added article. -/
theorem AddArticle_duplicate_slug_witness :
    (exDup.MapArticles (exDup.mem 1).Slug).isSome = true ∧
    (∃ s1, AddArticle 100 plainRender exDup 1 [300] (some "down") = .ok (s1, some "down") ∧
      s1.Articles = exDup.Articles ∧ s1.MapArticles = exDup.MapArticles) ∧
    (∃ s1, AddArticle 100 plainRender exDup 1 [300] none = .ok (s1, none) ∧
      s1.MapArticles (exDup.mem 1).Slug = some 1 ∧ s1.Articles.Perm (1 :: exDup.Articles)) :=
  ⟨rfl,
   ⟨_, rfl, ((AddArticle_duplicate_slug 100 plainRender exDup 1 [300] rfl).1
      (some "down") _ "down" rfl).2⟩,
   ⟨_, rfl, ((AddArticle_duplicate_slug 100 plainRender exDup 1 [300] rfl).2 _ none rfl
      rfl).2.2⟩⟩

/-- C5, as stated, fails: `AddArticle` returns success for the draft at address
2 of `exDup`, and afterwards its slug "note" is not in the slug lookup. -/
theorem AddArticle_lookup_counterexample :
    (exDup.mem 2).Slug = "note" ∧ (exDup.mem 2).IsDraft = true ∧
    ∃ s1, AddArticle 100 plainRender exDup 2 [300] none = .ok (s1, none) ∧
      s1.MapArticles "note" = none :=
  ⟨rfl, rfl, _, rfl, rfl⟩

/-- C5, amended. For every article that is not a draft and for which
`AddArticle` returns success, the slug lookup afterwards maps the slug of the
article to it, and it has the allocated identifier, the slug and the title it
was added with. -/
theorem AddArticle_lookup (StartID : Int) (R : Renderer) (s s1 : Account) (artc : Ptr)
    (gen : List Int) (insertErr : Option Error) (hd : (s.mem artc).IsDraft = false)
    (h : AddArticle StartID R s artc gen insertErr = .ok (s1, none)) :
    ∃ q, s1.MapArticles (s.mem artc).Slug = some q ∧
      allocID StartID gen = some (s1.mem q).ID ∧
      (s1.mem q).Slug = (s.mem artc).Slug ∧ (s1.mem q).Title = (s.mem artc).Title := by
  have hn : insertErr = none := by
    cases insertErr with
    | none => rfl
    | some err =>
      unfold AddArticle at h
      split at h
      · cases h
      · simp at h
  subst hn
  obtain ⟨id, hid, _, hk⟩ := AddArticle_publish _ _ _ _ _ _ _ hd h
  refine ⟨artc, ?_, ?_, ?_, ?_⟩
  · rw [hk.2.1]; simp [Account.setSlug]
  · rw [keepsOrder_id hk artc, hid]; simp
  · rw [keepsOrder_slug hk artc]; simp
  · rw [keepsOrder_title hk artc]; simp

/-- The amended C5 at `exDup`: the published article at address 1 is found under
its slug with the identifier 300 and its title. -/
theorem AddArticle_lookup_witness :
    ∃ s1, AddArticle 100 plainRender exDup 1 [300] none = .ok (s1, none) ∧
      ∃ q, s1.MapArticles "hello" = some q ∧ (s1.mem q).ID = 300 ∧
        (s1.mem q).Slug = "hello" ∧ (s1.mem q).Title = "new" := by
  refine ⟨_, rfl, ?_⟩
  obtain ⟨q, h1, h2, h3, h4⟩ :=
    AddArticle_lookup 100 plainRender exDup _ 1 [300] none rfl rfl
  refine ⟨q, h1, ?_, h3, h4⟩
  have : allocID 100 [300] = some 300 := rfl
  rw [this] at h2
  exact (Option.some.inj h2).symm

/-! ## C6, C7: deleting articles -/

theorem GetArticle_find_none (mem : Ptr → Article) (id : Int) (l : List Ptr) (i : Nat)
    (h : ∀ a ∈ l, (mem a).ID ≠ id) : GetArticle.find mem id l i = none := by
  induction l generalizing i with
  | nil => rfl
  | cons p ps ih =>
    simp only [GetArticle.find]
    rw [if_neg (fun hc => h p (List.mem_cons_self _ _) hc.symm)]
    exact ih _ (fun a ha => h a (List.mem_cons_of_mem _ ha))

/-- C6: the code against the claim. For every state and every identifier that
no listed article has, `DelArticles` does not complete: `GetArticle` answers
`(-1, nil)` and `DelFromLinkedList(nil)` dereferences the nil pointer. -/
theorem DelArticles_absent_panics (upd : Int → Option Error) (s : Account) (id : Int)
    (rest : List Int) (h : ∀ a ∈ s.Articles, (s.mem a).ID ≠ id) :
    DelArticles upd s (id :: rest) = .error Fault.nilDereference := by
  have hg : GetArticle s id = none := GetArticle_find_none s.mem id s.Articles 0 h
  simp only [DelArticles, hg, DelFromLinkedList]

/-- C6 at `exDup`: no listed article has the identifier 7, and deleting it
panics. -/
theorem DelArticles_absent_panics_witness :
    (∀ a ∈ exDup.Articles, (exDup.mem a).ID ≠ 7) ∧
    DelArticles (fun _ => none) exDup [7] = .error Fault.nilDereference :=
  ⟨by decide, DelArticles_absent_panics (fun _ => none) exDup 7 [] (by decide)⟩

/-- C7: the code against the claim. In `exChain` the store fails the update
for the article 200: `DelArticles` returns the error, yet the article has left
the list and the slug lookup and its neighbours are linked past it, while the
tag bucket, the series and the archive bucket still hold it. -/
theorem DelArticles_store_failure_partial :
    exChain.Articles = [0, 1, 2] ∧ exChain.MapArticles "b" = some 1 ∧
    ∃ s1, DelArticles (fun _ => some "store down") exChain [200]
        = .ok (s1, some "store down") ∧
      s1.Articles = [0, 2] ∧ s1.MapArticles "b" = none ∧
      (s1.mem 0).Next = some 2 ∧ (s1.mem 2).Prev = some 0 ∧
      s1.Tags "go" = some [1] ∧ s1.Series = exChain.Series ∧
      s1.Archives = exChain.Archives :=
  ⟨rfl, rfl, _, rfl, rfl, rfl, rfl, rfl, rfl, rfl, rfl⟩

/-! ## C10: articles below the boundary and the navigation chain -/

/-- C10: the code against the claim. In `exAbout` nothing is linked. Replacing
the static page "about" (identifier 5, below the boundary 100) by its edited
version links the page: it gets the article 200 as `Prev`, and the `Next` of
the article 200 points to it. -/
theorem ReplaceArticle_links_below_boundary :
    (∀ a ∈ exAbout.Articles, (exAbout.mem a).Prev = none ∧ (exAbout.mem a).Next = none) ∧
    ∃ s1, ReplaceArticle 100 plainRender exAbout (some 1) 2 = .ok s1 ∧
      s1.Articles = [0, 2] ∧ (s1.mem 2).ID = 5 ∧
      (s1.mem 2).Prev = some 0 ∧ (s1.mem 0).Next = some 2 :=
  ⟨by decide, _, rfl, rfl, rfl, rfl, rfl⟩

/-! ## Unindexing: the tag loop -/

/-- From a position on from which the backing array does not hold the article,
the tag loop changes nothing. -/
theorem dropTagLoop_clean (a : Ptr) (k i : Nat) (arr : List Ptr) (cur : Option Nat)
    (h : a ∉ arr.drop i) : dropTagLoop a k i arr cur = .ok (arr, cur) := by
  induction k generalizing i with
  | zero => rfl
  | succ k ih =>
    have hi : ¬ arr[i]? = some a := by
      intro hc
      apply h
      obtain ⟨hlt, hget⟩ := List.getElem?_eq_some_iff.mp hc
      rw [List.mem_iff_getElem]
      refine ⟨0, by simp; omega, ?_⟩
      simp [hget]
    simp only [dropTagLoop, if_neg hi]
    apply ih
    intro hc
    apply h
    have : arr.drop (i + 1) = (arr.drop i).drop 1 := by simp [List.drop_drop, Nat.add_comm]
    rw [this] at hc
    exact List.mem_of_mem_drop hc

/-- The tag loop walks over a stretch of the backing array that does not hold
the article. -/
theorem dropTagLoop_skip (a : Ptr) (l1 : List Ptr) (pre rest : List Ptr) (k : Nat)
    (cur : Option Nat) (h : a ∉ l1) :
    dropTagLoop a (l1.length + k) pre.length (pre ++ l1 ++ rest) cur
      = dropTagLoop a k (pre.length + l1.length) (pre ++ l1 ++ rest) cur := by
  induction l1 generalizing pre with
  | nil => simp
  | cons x l1 ih =>
    have hx : ¬ (pre ++ x :: l1 ++ rest)[pre.length]? = some a := by
      simp only [List.append_assoc, List.cons_append]
      rw [List.getElem?_append_right (le_refl _)]
      simp only [Nat.sub_self, List.getElem?_cons_zero, Option.some.injEq]
      intro hc; exact h (hc ▸ List.mem_cons_self _ _)
    have hlen : (x :: l1).length + k = (l1.length + k) + 1 := by simp; omega
    rw [hlen]
    simp only [dropTagLoop, if_neg hx]
    have h2 := ih (pre ++ [x]) (fun hc => h (List.mem_cons_of_mem _ hc))
    simp only [List.length_append, List.length_singleton, List.append_assoc,
      List.singleton_append, List.length_cons, List.length_nil, Nat.zero_add] at h2 ⊢
    rw [h2]
    congr 1
    omega

theorem removeAt_mid {α : Type} (l1 l2 : List α) (x : α) :
    removeAt (l1 ++ x :: l2) (l1.length + 1 + l2.length) l1.length
      = l1 ++ l2 ++ (x :: l2).drop l2.length := by
  unfold removeAt
  have h1 : (l1 ++ x :: l2).take l1.length = l1 := by simp
  have h2 : (l1 ++ x :: l2).drop (l1.length + 1) = l2 := by
    rw [← List.drop_drop]; simp
  have h3 : l1.length + 1 + l2.length - (l1.length + 1) = l2.length := by omega
  have h4 : (l1 ++ x :: l2).drop (l1.length + 1 + l2.length - 1)
      = (x :: l2).drop l2.length := by
    have : l1.length + 1 + l2.length - 1 = l1.length + l2.length := by omega
    rw [this, ← List.drop_drop]; simp
  rw [h1, h2, h3, h4, List.take_length]

theorem not_mem_tail_after {α : Type} (a x : α) (l1 l2 : List α) (h2 : a ∉ l2) :
    a ∉ (l1 ++ l2 ++ (x :: l2).drop l2.length).drop (l1.length + 1) := by
  have : (l1 ++ l2 ++ (x :: l2).drop l2.length).drop (l1.length + 1)
      = (l2 ++ (x :: l2).drop l2.length).drop 1 := by
    rw [List.append_assoc, ← List.drop_drop]; simp
  rw [this]
  cases l2 with
  | nil => simp
  | cons y l2 =>
    simp only [List.cons_append, List.drop_succ_cons, List.drop_zero, List.length_cons,
      List.mem_append, not_or]
    exact ⟨fun hc => h2 (List.mem_cons_of_mem _ hc), fun hc => h2 (List.mem_of_mem_drop hc)⟩

/-- The tag loop on a bucket that holds the article once: the article is taken
out and the bucket shortened by one. -/
theorem dropTagLoop_once (a : Ptr) (l1 l2 : List Ptr) (h1 : a ∉ l1) (h2 : a ∉ l2) :
    dropTagLoop a (l1 ++ a :: l2).length 0 (l1 ++ a :: l2) (some (l1 ++ a :: l2).length)
      = .ok (l1 ++ l2 ++ (a :: l2).drop l2.length,
          if l1.length + l2.length = 0 then none else some (l1.length + l2.length)) := by
  have hskip := dropTagLoop_skip a l1 [] (a :: l2) (1 + l2.length)
    (some (l1 ++ a :: l2).length) h1
  simp only [List.length_nil, List.nil_append, Nat.zero_add] at hskip
  have hlen : (l1 ++ a :: l2).length = l1.length + (1 + l2.length) := by simp; omega
  rw [hlen] at hskip ⊢
  rw [hskip]
  have hone : 1 + l2.length = l2.length + 1 := by omega
  rw [hone]
  have hget : (l1 ++ a :: l2)[l1.length]? = some a := by
    rw [List.getElem?_append_right (le_refl _)]; simp
  simp only [dropTagLoop, hget, if_true]
  rw [if_pos (by omega)]
  have hrm := removeAt_mid l1 l2 a
  have hl : l1.length + (l2.length + 1) = l1.length + 1 + l2.length := by omega
  rw [hl, hrm]
  rw [dropTagLoop_clean a _ _ _ _ (not_mem_tail_after a a l1 l2 h2)]
  have : l1.length + 1 + l2.length - 1 = l1.length + l2.length := by omega
  rw [this]

/-- One round of the outer tag loop, on a bucket that holds the article at most
once: the bucket of the tag no longer holds the article and is not left
empty, the other buckets are untouched. -/
theorem dropTag_spec (a : Ptr) (s : Account) (tag : String)
    (hc : ∀ b, s.Tags tag = some b → b.count a ≤ 1) :
    ∃ s1, dropTag a s tag = .ok s1 ∧ OnlyIndex s s1 ∧ s1.Series = s.Series ∧
      s1.Archives = s.Archives ∧ s1.CH = s.CH ∧
      (∀ t, t ≠ tag → s1.Tags t = s.Tags t) ∧
      (∀ b1, s1.Tags tag = some b1 →
        a ∉ b1 ∧ ∃ b, s.Tags tag = some b ∧ b1.Sublist b ∧ (b ≠ [] → b1 ≠ [])) := by
  unfold dropTag
  cases hb : s.Tags tag with
  | none =>
    refine ⟨s, rfl, onlyIndex_refl s, rfl, rfl, rfl, fun _ _ => rfl, ?_⟩
    intro b1 h1; rw [hb] at h1; cases h1
  | some b =>
    have hcb := hc b hb
    by_cases hm : a ∈ b
    · obtain ⟨l1, l2, rfl⟩ := List.append_of_mem hm
      have hcnt : List.count a l1 + List.count a l2 = 0 := by
        simp only [List.count_append, List.count_cons_self] at hcb
        omega
      have h1 : a ∉ l1 := List.count_eq_zero.mp (by omega)
      have h2 : a ∉ l2 := List.count_eq_zero.mp (by omega)
      simp only [dropTagLoop_once a l1 l2 h1 h2]
      refine ⟨_, rfl, onlyIndex_setTag _ _ _, rfl, rfl, rfl, ?_, ?_⟩
      · intro t ht; simp [Account.setTag, ht]
      · intro b1 hb1
        simp only [Account.setTag, if_true] at hb1
        by_cases hz : l1.length + l2.length = 0
        · simp [hz] at hb1
        · simp only [hz, if_false, Option.map_some', Option.some.injEq] at hb1
          have hb1' : b1 = l1 ++ l2 := by
            rw [← hb1, List.append_assoc, ← List.length_append, List.take_append_eq_append_take]
            simp
          subst hb1'
          refine ⟨by simp [h1, h2], _, rfl, ?_, ?_⟩
          · exact List.Sublist.append (List.Sublist.refl l1) (List.sublist_cons_self a l2)
          · intro _ hc2
            apply hz
            rw [← List.length_append, hc2]; rfl
    · simp only [dropTagLoop_clean a b.length 0 b (some b.length) (by simpa using hm)]
      refine ⟨_, rfl, onlyIndex_setTag _ _ _, rfl, rfl, rfl, ?_, ?_⟩
      · intro t ht; simp [Account.setTag, ht]
      · intro b1 hb1
        simp only [Account.setTag, if_true, Option.map_some', List.take_length,
          Option.some.injEq] at hb1
        subst hb1
        exact ⟨hm, _, rfl, List.Sublist.refl _, fun h => h⟩

/-- The outer tag loop on buckets that hold the article at most once: no
bucket of a tag of the list holds the article afterwards, every bucket is a
part of what it was, and none is left empty. -/
theorem dropTags_spec (a : Ptr) (tags : List String) (s : Account)
    (hc : ∀ t b, s.Tags t = some b → b.count a ≤ 1) :
    ∃ s1, dropTags a s tags = .ok s1 ∧ OnlyIndex s s1 ∧ s1.Series = s.Series ∧
      s1.Archives = s.Archives ∧ s1.CH = s.CH ∧
      ∀ t b1, s1.Tags t = some b1 →
        ∃ b, s.Tags t = some b ∧ b1.Sublist b ∧ (b ≠ [] → b1 ≠ []) ∧
          (t ∈ tags → a ∉ b1) := by
  induction tags generalizing s with
  | nil =>
    refine ⟨s, rfl, onlyIndex_refl s, rfl, rfl, rfl, ?_⟩
    intro t b1 h1
    exact ⟨b1, h1, List.Sublist.refl _, fun h => h, fun h => absurd h (List.not_mem_nil _)⟩
  | cons tag rest ih =>
    obtain ⟨s2, h2, ho2, hse2, har2, hch2, hother, hself⟩ :=
      dropTag_spec a s tag (fun b hb => hc tag b hb)
    have hc2 : ∀ t b, s2.Tags t = some b → b.count a ≤ 1 := by
      intro t b hb
      by_cases ht : t = tag
      · subst ht
        obtain ⟨_, b0, hb0, hsub, _⟩ := hself b hb
        exact le_trans (hsub.count_le a) (hc _ b0 hb0)
      · rw [hother t ht] at hb
        exact hc t b hb
    obtain ⟨s1, h1, ho1, hse1, har1, hch1, hall⟩ := ih s2 hc2
    refine ⟨s1, ?_, onlyIndex_trans ho2 ho1, hse1.trans hse2, har1.trans har2,
      hch1.trans hch2, ?_⟩
    · simp only [dropTags, h2, h1]
    · intro t b1 hb1
      obtain ⟨b2, hb2, hsub12, hne12, hrest⟩ := hall t b1 hb1
      by_cases ht : t = tag
      · subst ht
        obtain ⟨hnot, b0, hb0, hsub, hne⟩ := hself b2 hb2
        refine ⟨b0, hb0, hsub12.trans hsub, fun h => hne12 (hne h), fun _ hc1 => ?_⟩
        exact hnot (hsub12.subset hc1)
      · rw [hother t ht] at hb2
        refine ⟨b2, hb2, hsub12, hne12, fun hmem => hrest ?_⟩
        rcases List.mem_cons.mp hmem with h | h
        · exact absurd h ht
        · exact h

/-! ## Unindexing: the series loop -/

theorem not_mem_erase_of_count_le_one (a : Ptr) (l : List Ptr) (h : l.count a ≤ 1) :
    a ∉ l.erase a := by
  rw [← List.count_eq_zero, List.count_erase_self]
  omega

/-- The series loop: when the article occurs at most once in a member list and
only in series with its series identifier, no member list holds it
afterwards. -/
theorem dropSeries_spec (sid : Int) (a : Ptr) (l : List Serie)
    (h : ∀ se ∈ l, se.Articles.count a ≤ 1 ∧ (a ∈ se.Articles → se.ID = sid)) :
    ∀ se ∈ (dropSeries sid a l).1, a ∉ se.Articles := by
  induction l with
  | nil => intro se hse; simp [dropSeries] at hse
  | cons x rest ih =>
    have hx := h x (List.mem_cons_self _ _)
    have ih' := ih (fun se hse => h se (List.mem_cons_of_mem _ hse))
    intro se hse
    simp only [dropSeries] at hse
    split at hse
    · rename_i hcond
      rcases List.mem_cons.mp hse with h1 | h1
      · subst h1
        exact not_mem_erase_of_count_le_one a _ hx.1
      · exact ih' se h1
    · rename_i hcond
      rcases List.mem_cons.mp hse with h1 | h1
      · subst h1
        intro hc
        exact hcond ⟨hx.2 hc, hc⟩
      · exact ih' se h1

/-! ## Unindexing: the archive loop -/

theorem removeAt_length {α : Type} (arr : List α) (len i : Nat) (hi : i < len)
    (hlen : len ≤ arr.length) : (removeAt arr len i).length = arr.length := by
  unfold removeAt
  simp only [List.length_append, List.length_take, List.length_drop]
  omega

theorem mem_removeAt {α : Type} (arr : List α) (len i : Nat) (x : α)
    (h : x ∈ removeAt arr len i) : x ∈ arr := by
  unfold removeAt at h
  simp only [List.mem_append] at h
  rcases h with (h | h) | h
  · exact List.mem_of_mem_take h
  · exact List.mem_of_mem_drop (List.mem_of_mem_take h)
  · exact List.mem_of_mem_drop h

/-- When no Archive object holds the article, the archive loop changes
nothing. -/
theorem dropArchLoop_clean (ym : Int × Nat) (a : Ptr) (k i : Nat) (st : ArchLoop)
    (hclean : ∀ o ∈ st.objs, a ∉ o.Articles)
    (harr : ∀ x ∈ st.arr, x < st.objs.length)
    (hk : i + k ≤ st.arr.length) : dropArchLoop ym a k i st = .ok st := by
  induction k generalizing i with
  | zero => rfl
  | succ k ih =>
    have hi : i < st.arr.length := by omega
    have h1 : st.arr[i]? = some st.arr[i] := List.getElem?_eq_getElem hi
    have ho : st.arr[i] < st.objs.length := harr _ (List.getElem_mem hi)
    have h2 : st.objs[st.arr[i]]? = some st.objs[st.arr[i]] := List.getElem?_eq_getElem ho
    have hno : a ∉ (st.objs[st.arr[i]]).Articles := hclean _ (List.getElem_mem ho)
    rw [dropArchLoop]
    simp only [h1, h2]
    rw [if_neg (fun hc => hno hc.2)]
    exact ih (i + 1) (by omega)

/-- The archive loop from its start, on archives where the article occurs at
most once in a bucket, only in buckets of its month, and in at most one
bucket: it ends without a panic and no Archive object holds the article. -/
theorem dropArchLoop_init (ym : Int × Nat) (a : Ptr) (as : List Archive)
    (h1 : ∀ ar ∈ as, ar.Articles.count a ≤ 1 ∧ (a ∈ ar.Articles → ar.Time.Date = ym))
    (h2 : ∀ (i j : Nat) (x y : Archive), as[i]? = some x → as[j]? = some y →
      a ∈ x.Articles → a ∈ y.Articles → i = j)
    (k i : Nat) (hk : i + k = as.length)
    (hpre : ∀ (j : Nat) (x : Archive), j < i → as[j]? = some x → a ∉ x.Articles) :
    ∃ st, dropArchLoop ym a k i
        { objs := as, arr := List.range as.length, len := as.length, sent := 0 } = .ok st ∧
      ∀ o ∈ st.objs, a ∉ o.Articles := by
  induction k generalizing i with
  | zero =>
    refine ⟨_, rfl, ?_⟩
    intro o ho
    obtain ⟨j, hj, rfl⟩ := List.mem_iff_getElem.mp ho
    exact hpre j _ (by simp at hj; omega) (List.getElem?_eq_getElem _)
  | succ k ih =>
    have hi : i < as.length := by omega
    have hr : (List.range as.length)[i]? = some i := by
      rw [List.getElem?_range hi]
    have hget : as[i]? = some as[i] := List.getElem?_eq_getElem hi
    rw [dropArchLoop]
    simp only [hr, hget]
    by_cases hcond : (as[i]).Time.Date = ym ∧ a ∈ (as[i]).Articles
    · rw [if_pos hcond, if_pos hi]
      have hobjs : ∀ o ∈ as.set i { as[i] with Articles := (as[i]).Articles.erase a },
          a ∉ o.Articles := by
        intro o ho
        obtain ⟨j, hj, hjo⟩ := List.mem_iff_getElem.mp ho
        have hj' : j < as.length := by simpa using hj
        rw [List.getElem_set] at hjo
        by_cases hij : i = j
        · rw [if_pos hij] at hjo
          rw [← hjo]
          exact not_mem_erase_of_count_le_one a _ (h1 _ (List.getElem_mem hi)).1
        · rw [if_neg hij] at hjo
          rw [← hjo]
          intro hc
          exact hij (h2 i j _ _ hget (List.getElem?_eq_getElem hj') hcond.2 hc)
      split
      · refine ⟨_, dropArchLoop_clean ym a k (i + 1) _ hobjs ?_ ?_, hobjs⟩
        · intro x hx
          have := mem_removeAt _ _ _ _ hx
          simpa using this
        · have hl := removeAt_length (List.range as.length) as.length i hi
            (by rw [List.length_range])
          rw [List.length_range] at hl
          show i + 1 + k ≤ (removeAt (List.range as.length) as.length i).length
          omega
      · refine ⟨_, dropArchLoop_clean ym a k (i + 1) _ hobjs ?_ ?_, hobjs⟩
        · intro x hx
          simpa using hx
        · simp only [List.length_range]
          omega
    · rw [if_neg hcond]
      apply ih (i + 1) (by omega)
      intro j x hj hx
      by_cases hji : j = i
      · subst hji
        rw [hget] at hx
        cases hx
        intro hc
        exact hcond ⟨(h1 _ (List.getElem_mem hi)).2 hc, hc⟩
      · exact hpre j x (by omega) hx

/-- The archive part of `dropArticle` under the same conditions: it returns,
and no bucket left holds the article. -/
theorem dropArchives_spec (ym : Int × Nat) (a : Ptr) (as : List Archive)
    (h1 : ∀ ar ∈ as, ar.Articles.count a ≤ 1 ∧ (a ∈ ar.Articles → ar.Time.Date = ym))
    (h2 : ∀ (i j : Nat) (x y : Archive), as[i]? = some x → as[j]? = some y →
      a ∈ x.Articles → a ∈ y.Articles → i = j) :
    ∃ r, dropArchives ym a as = .ok r ∧ ∀ ar ∈ r.1, a ∉ ar.Articles := by
  obtain ⟨st, hst, hclean⟩ := dropArchLoop_init ym a as h1 h2 as.length 0 (by simp)
    (fun j x hj _ => absurd hj (Nat.not_lt_zero j))
  unfold dropArchives
  rw [hst]
  refine ⟨_, rfl, ?_⟩
  intro ar har
  simp only [List.mem_filterMap] at har
  obtain ⟨o, _, ho⟩ := har
  exact hclean ar (List.getElem?_mem ho)

/-! ## C8: unindexing removes every membership -/

/-- C8. Unindexing removes every membership: in a state where no tag key maps
to an empty bucket, for an indexed article `a` whose tags are pairwise
distinct, `dropArticle(a)` returns, and afterwards `a` is in no tag bucket, in
no member list of a series and in no archive bucket, and no tag key maps to an
empty bucket. -/
theorem dropArticle_removes_memberships (s : Account) (a : Ptr) (hne : NoEmptyTag s)
    (hidx : Indexed s a) (hnd : (s.mem a).Tags.Nodup) :
    ∃ s1, dropArticle s a = .ok s1 ∧
      (∀ t b, s1.Tags t = some b → a ∉ b) ∧
      (∀ se ∈ s1.Series, a ∉ se.Articles) ∧
      (∀ ar ∈ s1.Archives, a ∉ ar.Articles) ∧
      NoEmptyTag s1 := by
  obtain ⟨htag, hser, harch, hone⟩ := hidx
  have hcount : ∀ t b, s.Tags t = some b → b.count a ≤ 1 := by
    intro t b hb
    have h := htag t
    rw [hb] at h
    simp only [Option.getD_some] at h
    rw [h]
    exact List.nodup_iff_count_le_one.mp hnd t
  obtain ⟨s2, h2, ho2, hse2, har2, _, htags⟩ := dropTags_spec a (s.mem a).Tags s hcount
  have hseries := dropSeries_spec (s2.mem a).SerieID a s2.Series (by
    rw [hse2, ho2.1]; exact hser)
  obtain ⟨r, hr, hrclean⟩ := dropArchives_spec (s2.mem a).CreateTime.Date a s2.Archives
    (by rw [har2, ho2.1]; exact harch) (by rw [har2]; exact hone)
  unfold dropArticle
  simp only [h2, hr]
  refine ⟨_, rfl, ?_, hseries, hrclean, ?_⟩
  · intro t b1 hb1
    obtain ⟨b, hb, hsub, _, hin⟩ := htags t b1 hb1
    by_cases ht : t ∈ (s.mem a).Tags
    · exact hin ht
    · intro hc
      have h := htag t
      rw [hb] at h
      simp only [Option.getD_some] at h
      rw [List.count_eq_zero_of_not_mem ht] at h
      exact List.count_eq_zero.mp h (hsub.subset hc)
  · intro t b1 hb1
    obtain ⟨b, hb, _, hnon, _⟩ := htags t b1 hb1
    exact hnon (hne t b hb)

theorem exChain_indexed : NoEmptyTag exChain ∧ Indexed exChain 1 := by
  refine ⟨?_, ?_, ?_, ?_, ?_⟩
  · intro t b hb
    by_cases ht : t = "go"
    · subst ht
      have : b = [1] := by
        simp only [exChain, if_true, Option.some.injEq] at hb; exact hb.symm
      subst this; decide
    · simp [exChain, ht] at hb
  · intro t
    by_cases ht : t = "go"
    · subst ht; rfl
    · have h1 : exChain.Tags t = none := by simp [exChain, ht]
      have h2 : (exChain.mem 1).Tags = ["go"] := rfl
      rw [h1, h2]
      simp only [Option.getD_none, List.count_nil]
      symm
      rw [List.count_eq_zero]
      simpa using ht
  · decide
  · decide
  · intro i j x y hx hy hax hay
    have hi : i < 3 := (List.getElem?_eq_some_iff.mp hx).1
    have hj : j < 3 := (List.getElem?_eq_some_iff.mp hy).1
    interval_cases i <;> interval_cases j <;>
      simp only [exChain, List.getElem?_cons_zero, List.getElem?_cons_succ,
        Option.some.injEq] at hx hy <;>
      subst hx <;> subst hy <;> simp at hax hay ⊢

/-- C8 at `exChain`: the article 200 is indexed under the tag "go", in the
series 7 and in its archive bucket; `dropArticle` returns and no bucket holds
it any more. -/
theorem dropArticle_removes_memberships_witness :
    NoEmptyTag exChain ∧ Indexed exChain 1 ∧ (exChain.mem 1).Tags.Nodup ∧
    ∃ s1, dropArticle exChain 1 = .ok s1 ∧
      (∀ t b, s1.Tags t = some b → 1 ∉ b) ∧
      (∀ se ∈ s1.Series, 1 ∉ se.Articles) ∧
      (∀ ar ∈ s1.Archives, 1 ∉ ar.Articles) ∧
      NoEmptyTag s1 :=
  ⟨exChain_indexed.1, exChain_indexed.2, by decide,
   dropArticle_removes_memberships exChain 1 exChain_indexed.1 exChain_indexed.2 (by decide)⟩

/-! ## The navigation chain: lemmas on lists -/

theorem pair_ne_of_sublist {l : List Ptr} (hn : l.Nodup) {a b : Ptr}
    (h : [a, b].Sublist l) : a ≠ b := by
  have := List.Nodup.sublist h hn
  simp only [List.nodup_cons, List.mem_singleton] at this
  exact this.1

theorem pair_mem_of_sublist {l : List Ptr} {a b : Ptr} (h : [a, b].Sublist l) :
    a ∈ l ∧ b ∈ l :=
  ⟨h.subset (List.mem_cons_self _ _),
    h.subset (List.mem_cons_of_mem _ (List.mem_singleton_self _))⟩

/-- In a list without repetition, "earlier than" is transitive. -/
theorem before_trans {l : List Ptr} (hn : l.Nodup) {x a n : Ptr}
    (h1 : [x, a].Sublist l) (h2 : [a, n].Sublist l) : [x, n].Sublist l := by
  induction l with
  | nil => cases h1
  | cons h t ih =>
    rw [List.nodup_cons] at hn
    rw [List.sublist_cons_iff] at h1 h2
    rcases h1 with h1 | ⟨r1, hr1, hr1t⟩
    · rcases h2 with h2 | ⟨r2, hr2, _⟩
      · exact (ih hn.2 h1 h2).cons _
      · simp only [List.cons.injEq] at hr2
        exact absurd (hr2.1 ▸ (pair_mem_of_sublist h1).2) hn.1
    · simp only [List.cons.injEq] at hr1
      obtain ⟨rfl, rfl⟩ := hr1
      rcases h2 with h2 | ⟨r2, hr2, _⟩
      · exact List.cons_sublist_cons.mpr
          (List.singleton_sublist.mpr (pair_mem_of_sublist h2).2)
      · simp only [List.cons.injEq] at hr2
        exact absurd (hr2.1 ▸ List.singleton_sublist.mp hr1t) hn.1

/-- Nothing is earlier than the head of a list without repetition. -/
theorem not_before_head {h : Ptr} {t : List Ptr} (hn : (h :: t).Nodup) (x : Ptr) :
    ¬ [x, h].Sublist (h :: t) := by
  rw [List.nodup_cons] at hn
  intro hc
  rw [List.sublist_cons_iff] at hc
  rcases hc with hc | ⟨r, hr, hrt⟩
  · exact hn.1 (pair_mem_of_sublist hc).2
  · simp only [List.cons.injEq] at hr
    obtain ⟨_, rfl⟩ := hr
    exact hn.1 (List.singleton_sublist.mp hrt)

theorem pair_sublist_erase {l : List Ptr} {x b c : Ptr} (h : [x, b].Sublist l)
    (hx : x ≠ c) (hb : b ≠ c) : [x, b].Sublist (l.erase c) := by
  have := List.Sublist.erase c h
  rwa [List.erase_of_not_mem (by simp [hx.symm, hb.symm])] at this

/-- What follows the last article of the front part lies in the back part. -/
theorem mem_back_of_after_last {l0 l2 : List Ptr} {p n : Ptr}
    (hn : (l0 ++ p :: l2).Nodup) (h : [p, n].Sublist (l0 ++ p :: l2)) : n ∈ l2 := by
  rw [List.nodup_append] at hn
  obtain ⟨_, hn2, hdis⟩ := hn
  rw [List.sublist_append_iff] at h
  obtain ⟨a, b, hab, ha, hb⟩ := h
  cases a with
  | nil =>
    simp only [List.nil_append] at hab
    subst hab
    rw [List.cons_sublist_cons] at hb
    exact List.singleton_sublist.mp hb
  | cons y a =>
    simp only [List.cons_append, List.cons.injEq] at hab
    have : p ∈ l0 := ha.subset (hab.1 ▸ List.mem_cons_self _ _)
    exact absurd (List.mem_cons_self p l2) (fun hc => hdis this hc)

/-- Taking an article out of the list, with its neighbours linked past it,
keeps the chain. -/
theorem navInv_erase {l : List Ptr} {nx pv : Ptr → Option Ptr} (h : NavInv l nx pv)
    (a : Ptr) (ha : a ∈ l) :
    NavInv (l.erase a)
      (fun q => if pv a = some q then nx a else nx q)
      (fun q => if nx a = some q then pv a else pv q) := by
  obtain ⟨hn, hf, hb⟩ := h
  refine ⟨hn.erase a, ?_, ?_⟩
  · intro x hx b hxb
    obtain ⟨hxa, hxl⟩ := (List.Nodup.mem_erase_iff hn).mp hx
    simp only at hxb ⊢
    by_cases hpa : pv a = some x
    · rw [if_pos hpa] at hxb
      obtain ⟨_, hxa'⟩ := hb a ha x hpa
      obtain ⟨_, hab⟩ := hf a ha b hxb
      rw [if_pos hxb]
      exact ⟨hpa, pair_sublist_erase (before_trans hn hxa' hab) hxa
        (pair_ne_of_sublist hn hab).symm⟩
    · rw [if_neg hpa] at hxb
      obtain ⟨hpb, hxb'⟩ := hf x hxl b hxb
      have hba : b ≠ a := fun hc => hpa (hc ▸ hpb)
      have hnab : ¬ nx a = some b := by
        intro hc
        have := (hf a ha b hc).1
        rw [hpb] at this
        exact hxa (Option.some.inj this)
      rw [if_neg hnab]
      exact ⟨hpb, pair_sublist_erase hxb' hxa hba⟩
  · intro x hx b hxb
    obtain ⟨hxa, hxl⟩ := (List.Nodup.mem_erase_iff hn).mp hx
    simp only at hxb ⊢
    by_cases hna : nx a = some x
    · rw [if_pos hna] at hxb
      obtain ⟨_, hax'⟩ := hf a ha x hna
      obtain ⟨_, hba⟩ := hb a ha b hxb
      rw [if_pos hxb]
      exact ⟨hna, pair_sublist_erase (before_trans hn hba hax')
        (pair_ne_of_sublist hn hba) hxa⟩
    · rw [if_neg hna] at hxb
      obtain ⟨hnb, hbx'⟩ := hb x hxl b hxb
      have hba : b ≠ a := fun hc => hna (hc ▸ hnb)
      have hpab : ¬ pv a = some b := by
        intro hc
        have := (hb a ha b hc).1
        rw [hnb] at this
        exact hxa (Option.some.inj this)
      rw [if_neg hpab]
      exact ⟨hnb, pair_sublist_erase hbx' hba hxa⟩

theorem nodup_insert_mid {l1 l2 : List Ptr} {c : Ptr} (hn : (l1 ++ l2).Nodup)
    (hc : c ∉ l1 ++ l2) : (l1 ++ c :: l2).Nodup := by
  have hp : (l1 ++ c :: l2).Perm (c :: (l1 ++ l2)) := List.perm_middle
  rw [hp.nodup_iff, List.nodup_cons]
  exact ⟨hc, hn⟩

theorem sublist_insert_mid (l1 l2 : List Ptr) (c : Ptr) :
    (l1 ++ l2).Sublist (l1 ++ c :: l2) :=
  (List.sublist_cons_self c l2).append_left l1

theorem mem_insert_mid {l1 l2 : List Ptr} {c x : Ptr} (h : x ∈ l1 ++ c :: l2) :
    x = c ∨ x ∈ l1 ++ l2 := by
  simp only [List.mem_append, List.mem_cons] at h ⊢
  tauto

/-- Inserting a new, unlinked article without linking it keeps the chain. -/
theorem navInv_insert_plain {l1 l2 : List Ptr} {nx pv : Ptr → Option Ptr} {c : Ptr}
    (h : NavInv (l1 ++ l2) nx pv) (hc : c ∉ l1 ++ l2) (hnx : nx c = none)
    (hpv : pv c = none) : NavInv (l1 ++ c :: l2) nx pv := by
  obtain ⟨hn, hf, hb⟩ := h
  refine ⟨nodup_insert_mid hn hc, ?_, ?_⟩
  · intro a ha b hab
    rcases mem_insert_mid ha with rfl | hal
    · rw [hnx] at hab; cases hab
    · exact ⟨(hf a hal b hab).1, (hf a hal b hab).2.trans (sublist_insert_mid _ _ _)⟩
  · intro a ha b hab
    rcases mem_insert_mid ha with rfl | hal
    · rw [hpv] at hab; cases hab
    · exact ⟨(hb a hal b hab).1, (hb a hal b hab).2.trans (sublist_insert_mid _ _ _)⟩

/-- Inserting a new article at the head and linking it with the former head
keeps the chain. -/
theorem navInv_insert_head {t : List Ptr} {nx pv : Ptr → Option Ptr} {c h : Ptr}
    (hinv : NavInv (h :: t) nx pv) (hc : c ∉ h :: t) (hnx : nx c = none)
    (hpv : pv c = none) :
    NavInv (c :: h :: t)
      (fun q => if q = c then some h else nx q)
      (fun q => if q = h then some c else pv q) := by
  obtain ⟨hn, hf, hb⟩ := hinv
  have hch : c ≠ h := fun e => hc (e ▸ List.mem_cons_self _ _)
  have hlift : ∀ {a b : Ptr}, [a, b].Sublist (h :: t) → [a, b].Sublist (c :: h :: t) :=
    fun hs => hs.cons _
  have hhead : [c, h].Sublist (c :: h :: t) :=
    List.cons_sublist_cons.mpr (List.singleton_sublist.mpr (List.mem_cons_self _ _))
  refine ⟨List.nodup_cons.mpr ⟨hc, hn⟩, ?_, ?_⟩
  · intro a ha b hab
    simp only at hab ⊢
    rcases List.mem_cons.mp ha with rfl | hal
    · rw [if_pos rfl] at hab
      cases hab
      rw [if_pos rfl]
      exact ⟨rfl, hhead⟩
    · have hac : a ≠ c := fun e => hc (e ▸ hal)
      rw [if_neg hac] at hab
      obtain ⟨h1, h2⟩ := hf a hal b hab
      have hbh : b ≠ h := fun e => not_before_head hn a (e ▸ h2)
      rw [if_neg hbh]
      exact ⟨h1, hlift h2⟩
  · intro a ha b hab
    simp only at hab ⊢
    rcases List.mem_cons.mp ha with rfl | hal
    · rw [if_neg hch, hpv] at hab; cases hab
    · by_cases hah : a = h
      · subst hah
        rw [if_pos rfl] at hab
        cases hab
        rw [if_pos rfl]
        exact ⟨rfl, hhead⟩
      · rw [if_neg hah] at hab
        obtain ⟨h1, h2⟩ := hb a hal b hab
        have hbc : b ≠ c := fun e => hc (e ▸ (pair_mem_of_sublist h2).1)
        rw [if_neg hbc]
        exact ⟨h1, hlift h2⟩

/-- Inserting a new article right after an article `p` and splicing it between
`p` and what followed `p` in the chain keeps the chain. -/
theorem navInv_insert_after {l0 l2 : List Ptr} {nx pv : Ptr → Option Ptr} {c p : Ptr}
    (hinv : NavInv (l0 ++ p :: l2) nx pv) (hc : c ∉ l0 ++ p :: l2) (hnx : nx c = none)
    (hpv : pv c = none) :
    NavInv (l0 ++ p :: c :: l2)
      (fun q => if q = p then some c else if q = c then nx p else nx q)
      (fun q => if nx p = some q then some c else if q = c then some p else pv q) := by
  obtain ⟨hn, hf, hb⟩ := hinv
  have hpl : p ∈ l0 ++ p :: l2 := by simp
  have hcp : c ≠ p := fun e => hc (e ▸ hpl)
  have hsub : (l0 ++ p :: l2).Sublist (l0 ++ p :: c :: l2) := by
    have := sublist_insert_mid (l0 ++ [p]) l2 c
    simp
  have hn' : (l0 ++ p :: c :: l2).Nodup := by
    have := @nodup_insert_mid (l0 ++ [p]) l2 c (by simpa using hn)
      (by simpa using hc)
    simpa using this
  have hpc : [p, c].Sublist (l0 ++ p :: c :: l2) :=
    List.sublist_append_of_sublist_right
      (List.cons_sublist_cons.mpr (List.singleton_sublist.mpr (List.mem_cons_self _ _)))
  have hcn : ∀ n, nx p = some n → [c, n].Sublist (l0 ++ p :: c :: l2) := by
    intro n hpn
    have hnl2 : n ∈ l2 := mem_back_of_after_last hn (hf p hpl n hpn).2
    exact List.sublist_append_of_sublist_right
      ((List.cons_sublist_cons.mpr (List.singleton_sublist.mpr hnl2)).cons _)
  have hmem : ∀ {x}, x ∈ l0 ++ p :: c :: l2 → x = c ∨ x ∈ l0 ++ p :: l2 := by
    intro x hx
    simp only [List.mem_append, List.mem_cons] at hx ⊢
    tauto
  refine ⟨hn', ?_, ?_⟩
  · intro a ha b hab
    simp only at hab ⊢
    by_cases hap : a = p
    · subst hap
      rw [if_pos rfl] at hab
      cases hab
      have hnc : ¬ nx a = some c := fun e => hc (pair_mem_of_sublist (hf a hpl c e).2).2
      rw [if_neg hnc, if_pos rfl]
      exact ⟨rfl, hpc⟩
    · rw [if_neg hap] at hab
      by_cases hac : a = c
      · subst hac
        rw [if_pos rfl] at hab
        rw [if_pos hab]
        exact ⟨rfl, hcn b hab⟩
      · rw [if_neg hac] at hab
        have hal : a ∈ l0 ++ p :: l2 := (hmem ha).resolve_left hac
        obtain ⟨h1, h2⟩ := hf a hal b hab
        have hnpb : ¬ nx p = some b := by
          intro e
          have := (hf p hpl b e).1
          rw [h1] at this
          exact hap (Option.some.inj this)
        have hbc : b ≠ c := fun e => hc (e ▸ (pair_mem_of_sublist h2).2)
        rw [if_neg hnpb, if_neg hbc]
        exact ⟨h1, h2.trans hsub⟩
  · intro a ha b hab
    simp only at hab ⊢
    by_cases hpa : nx p = some a
    · rw [if_pos hpa] at hab
      cases hab
      have hap : a ≠ p := (pair_ne_of_sublist hn (hf p hpl a hpa).2).symm
      rw [if_neg hcp, if_pos rfl]
      exact ⟨hpa, hcn a hpa⟩
    · rw [if_neg hpa] at hab
      by_cases hac : a = c
      · subst hac
        rw [if_pos rfl] at hab
        cases hab
        rw [if_pos rfl]
        exact ⟨rfl, hpc⟩
      · rw [if_neg hac] at hab
        have hal : a ∈ l0 ++ p :: l2 := (hmem ha).resolve_left hac
        obtain ⟨h1, h2⟩ := hb a hal b hab
        have hbp : b ≠ p := fun e => hpa (e ▸ h1)
        have hbc : b ≠ c := fun e => hc (e ▸ (pair_mem_of_sublist h2).1)
        rw [if_neg hbp, if_neg hbc]
        exact ⟨h1, h2.trans hsub⟩

/-! ## The navigation chain: the code -/

@[simp] theorem setNext_Next (s : Account) (p : Ptr) (v : Option Ptr) (q : Ptr) :
    ((s.setNext p v).mem q).Next = if q = p then v else (s.mem q).Next := by
  unfold Account.setNext
  by_cases h : q = p <;> simp [h]

@[simp] theorem setNext_Prev (s : Account) (p : Ptr) (v : Option Ptr) (q : Ptr) :
    ((s.setNext p v).mem q).Prev = (s.mem q).Prev := by
  unfold Account.setNext
  by_cases h : q = p <;> simp [h]

@[simp] theorem setPrev_Prev (s : Account) (p : Ptr) (v : Option Ptr) (q : Ptr) :
    ((s.setPrev p v).mem q).Prev = if q = p then v else (s.mem q).Prev := by
  unfold Account.setPrev
  by_cases h : q = p <;> simp [h]

@[simp] theorem setPrev_Next (s : Account) (p : Ptr) (v : Option Ptr) (q : Ptr) :
    ((s.setPrev p v).mem q).Next = (s.mem q).Next := by
  unfold Account.setPrev
  by_cases h : q = p <;> simp [h]

@[simp] theorem setNext_Articles (s : Account) (p : Ptr) (v : Option Ptr) :
    (s.setNext p v).Articles = s.Articles := rfl

@[simp] theorem setPrev_Articles (s : Account) (p : Ptr) (v : Option Ptr) :
    (s.setPrev p v).Articles = s.Articles := rfl

/-- `DelFromLinkedList` on a non-nil article never panics; it links the
neighbours of the article past it and writes nothing else. -/
theorem DelFromLinkedList_spec (s : Account) (a : Ptr) :
    ∃ s1, DelFromLinkedList s (some a) = .ok s1 ∧ KeepsOrder s s1 ∧
      (∀ q, (s1.mem q).Next
        = if (s.mem a).Prev = some q then (s.mem a).Next else (s.mem q).Next) ∧
      (∀ q, (s1.mem q).Prev
        = if (s.mem a).Next = some q then (s.mem a).Prev else (s.mem q).Prev) := by
  cases hp : (s.mem a).Prev with
  | none =>
    cases hn : (s.mem a).Next with
    | none =>
      refine ⟨s, by simp only [DelFromLinkedList, hp, hn], keepsOrder_refl s,
        fun q => by simp, fun q => by simp⟩
    | some n =>
      refine ⟨s.setPrev n none, by simp only [DelFromLinkedList, hp, hn],
        keepsOrder_setPrev _ _ _, fun q => by simp, fun q => ?_⟩
      simp only [setPrev_Prev, Option.some.injEq]
      by_cases hq : q = n
      · subst hq; simp
      · rw [if_neg hq, if_neg (fun e => hq e.symm)]
  | some p =>
    cases hn : (s.mem a).Next with
    | none =>
      refine ⟨s.setNext p none, by simp only [DelFromLinkedList, hp, hn],
        keepsOrder_setNext _ _ _, fun q => ?_, fun q => by simp⟩
      simp only [setNext_Next, Option.some.injEq]
      by_cases hq : q = p
      · subst hq; simp
      · rw [if_neg hq, if_neg (fun e => hq e.symm)]
    | some n =>
      have h1 : ((s.setNext p (some n)).mem a).Next = some n := by
        simp only [setNext_Next, hn, ite_self]
      have h2 : ((s.setNext p (some n)).mem a).Prev = some p := by
        simp only [setNext_Prev, hp]
      refine ⟨(s.setNext p (some n)).setPrev n (some p),
        by simp only [DelFromLinkedList, hp, hn, h1, h2],
        keepsOrder_trans (keepsOrder_setNext _ _ _) (keepsOrder_setPrev _ _ _),
        fun q => ?_, fun q => ?_⟩
      · simp only [setPrev_Next, setNext_Next, Option.some.injEq]
        by_cases hq : q = p
        · subst hq; simp
        · rw [if_neg hq, if_neg (fun e => hq e.symm)]
      · simp only [setPrev_Prev, setNext_Prev, Option.some.injEq]
        by_cases hq : q = n
        · subst hq; simp
        · rw [if_neg hq, if_neg (fun e => hq e.symm)]

/-- What `GetArticle` finds: a listed article with the identifier, at the
position where erasing by position and erasing the article agree. -/
theorem GetArticle_find_some (mem : Ptr → Article) (id : Int) (l : List Ptr) (k i : Nat)
    (a : Ptr) (h : GetArticle.find mem id l k = some (i, a)) :
    ∃ j, i = k + j ∧ l.eraseIdx j = l.erase a ∧ a ∈ l ∧ (mem a).ID = id := by
  induction l generalizing k with
  | nil => simp [GetArticle.find] at h
  | cons p ps ih =>
    simp only [GetArticle.find] at h
    split at h
    · rename_i hid
      simp only [Option.some.injEq, Prod.mk.injEq] at h
      obtain ⟨rfl, rfl⟩ := h
      exact ⟨0, rfl, by simp, List.mem_cons_self _ _, hid.symm⟩
    · rename_i hid
      obtain ⟨j, hj, he, hm, hi⟩ := ih (k + 1) h
      refine ⟨j + 1, by omega, ?_, List.mem_cons_of_mem _ hm, hi⟩
      have hpa : p ≠ a := fun e => hid (by rw [e, hi])
      simp only [List.eraseIdx_cons_succ, he]
      rw [List.erase_cons_tail (by simpa using hpa)]

/-- `GetArticle` on a list in which the first article with the identifier is
`c`. -/
theorem GetArticle_find_mid (mem : Ptr → Article) (id : Int) (l1 l2 : List Ptr) (c : Ptr)
    (k : Nat) (h1 : ∀ x ∈ l1, (mem x).ID ≠ id) (hc : (mem c).ID = id) :
    GetArticle.find mem id (l1 ++ c :: l2) k = some (k + l1.length, c) := by
  induction l1 generalizing k with
  | nil => simp [GetArticle.find, hc]
  | cons p ps ih =>
    have hp : ¬ id = (mem p).ID := fun e => h1 p (List.mem_cons_self _ _) e.symm
    have h2 := ih (k + 1) (fun x hx => h1 x (List.mem_cons_of_mem _ hx))
    show GetArticle.find mem id (p :: (ps ++ c :: l2)) k = _
    simp only [GetArticle.find, if_neg hp, h2, List.length_cons, Option.some.injEq,
      Prod.mk.injEq, and_true]
    omega

/-- A consistent index read through another memory that agrees on what the
consistency depends on. -/
theorem navLinked_congr (s s1 : Account) (hl : s1.Articles = s.Articles)
    (hcore : ∀ p ∈ s.Articles, (s1.mem p).ID = (s.mem p).ID ∧
      (s1.mem p).CreateTime = (s.mem p).CreateTime)
    (hnx : ∀ p, (s1.mem p).Next = (s.mem p).Next)
    (hpv : ∀ p, (s1.mem p).Prev = (s.mem p).Prev) (h : NavLinked s) : NavLinked s1 := by
  obtain ⟨hs, hid, hnav⟩ := h
  refine ⟨?_, ?_, ?_⟩
  · rw [chronSorted_iff] at hs ⊢
    rw [hl]
    refine List.Pairwise.imp_of_mem ?_ hs
    intro a b ha hb hab
    unfold notAfter lessArticle at hab ⊢
    rw [(hcore a ha).2, (hcore b hb).2]
    exact hab
  · rw [hl]
    have : s.Articles.map (fun p => (s1.mem p).ID) = s.Articles.map (fun p => (s.mem p).ID) :=
      List.map_congr_left (fun p hp => (hcore p hp).1)
    rw [this]; exact hid
  · rw [hl]
    have e1 : (fun p => (s1.mem p).Next) = (fun p => (s.mem p).Next) := funext hnx
    have e2 : (fun p => (s1.mem p).Prev) = (fun p => (s.mem p).Prev) := funext hpv
    rw [e1, e2]; exact hnav

/-- Sorting a sorted list with a new article in front, when the creation times
are pairwise different: the article is put somewhere into the list and the
order of the others is kept. Every sorting routine does so, since the sorted
list of these articles is unique. -/
theorem sortArticles_cons_distinct (mem : Ptr → Article) (c : Ptr) (l : List Ptr)
    (hs : l.Pairwise (notAfter mem))
    (hd : (c :: l).Pairwise (fun a b => (mem a).CreateTime ≠ (mem b).CreateTime)) :
    ∃ l1 l2, l = l1 ++ l2 ∧ sortArticles mem (c :: l) = l1 ++ c :: l2 := by
  haveI : IsTotal Ptr (notAfter mem) := ⟨notAfter_total mem⟩
  haveI : IsTrans Ptr (notAfter mem) := ⟨notAfter_trans mem⟩
  refine ⟨l.takeWhile (fun b => decide ¬ notAfter mem c b),
    l.dropWhile (fun b => decide ¬ notAfter mem c b),
    (List.takeWhile_append_dropWhile _ l).symm, ?_⟩
  have hins : (c :: l).insertionSort (notAfter mem)
      = l.takeWhile (fun b => decide ¬ notAfter mem c b) ++
          c :: l.dropWhile (fun b => decide ¬ notAfter mem c b) := by
    rw [List.insertionSort_cons_eq_take_drop, List.Sorted.insertionSort_eq hs]
  rw [← hins]
  have hp : ((c :: l).insertionSort (notAfter mem)).Perm (c :: l) :=
    List.perm_insertionSort (notAfter mem) (c :: l)
  refine sorted_perm_unique mem _ _ ((sortArticles_perm mem (c :: l)).trans hp.symm) ?_
    (List.sorted_insertionSort (notAfter mem) (c :: l)) (sortArticles_sorted mem (c :: l))
  exact (List.Perm.pairwise_iff (fun {x y} h => Ne.symm h) hp).mpr hd

/-- `AddToLinkedList` for a new, unlinked article that was put into the list:
the chain of the other articles is extended to a chain of the new list. -/
theorem AddToLinkedList_nav (StartID : Int) (s s1 : Account) (id : Int) (c : Ptr)
    (l1 l2 : List Ptr) (hl : s.Articles = l1 ++ c :: l2)
    (hinv : NavInv (l1 ++ l2) (fun p => (s.mem p).Next) (fun p => (s.mem p).Prev))
    (hc : c ∉ l1 ++ l2) (hnx : (s.mem c).Next = none) (hpv : (s.mem c).Prev = none)
    (hid1 : ∀ x ∈ l1, (s.mem x).ID ≠ id) (hidc : (s.mem c).ID = id)
    (h : AddToLinkedList StartID s id = .ok s1) :
    NavInv (l1 ++ c :: l2) (fun p => (s1.mem p).Next) (fun p => (s1.mem p).Prev) := by
  have hget : GetArticle s id = some (l1.length, c) := by
    unfold GetArticle
    rw [hl, GetArticle_find_mid s.mem id l1 l2 c 0 hid1 hidc, Nat.zero_add]
  unfold AddToLinkedList at h
  rw [hget] at h
  simp only at h
  rcases List.eq_nil_or_concat l1 with rfl | ⟨l0, p, rfl⟩
  · -- the article is the head of the list
    simp only [List.length_nil, if_true, hl, List.nil_append, Nat.zero_add,
      List.getElem?_cons_succ] at h
    cases l2 with
    | nil => simp at h
    | cons x t =>
      simp only [List.getElem?_cons_zero] at h
      split at h
      · cases h
        have e1 : (fun p => (((s.setNext c (some x)).setPrev x (some c)).mem p).Next)
            = (fun q => if q = c then some x else (s.mem q).Next) := by
          funext q; simp
        have e2 : (fun p => (((s.setNext c (some x)).setPrev x (some c)).mem p).Prev)
            = (fun q => if q = x then some c else (s.mem q).Prev) := by
          funext q; simp
        rw [e1, e2]
        exact navInv_insert_head hinv hc hnx hpv
      · cases h
        exact navInv_insert_plain hinv hc hnx hpv
  · -- the article follows `p`
    rw [List.concat_eq_append] at hl hinv hc hid1 h ⊢
    have hlen : (l0 ++ [p]).length = l0.length + 1 := by simp
    have hpc : p ≠ c := fun e => hc (by rw [← e]; simp)
    have hprev : s.Articles[l0.length + 1 - 1]? = some p := by
      rw [hl, Nat.add_sub_cancel, List.append_assoc,
        List.getElem?_append_right (le_refl _)]
      simp
    rw [hlen, if_neg (by omega), hprev] at h
    simp only at h
    have hinv' : NavInv (l0 ++ p :: l2) (fun p => (s.mem p).Next) (fun p => (s.mem p).Prev) := by
      simpa using hinv
    have hc' : c ∉ l0 ++ p :: l2 := by simpa using hc
    have hgoal : l0 ++ [p] ++ c :: l2 = l0 ++ p :: c :: l2 := by simp
    rw [hgoal]
    split at h
    · have hnp : ((s.setPrev c (some p)).mem p).Next = (s.mem p).Next := by simp
      rw [hnp] at h
      cases hpn : (s.mem p).Next with
      | none =>
        rw [hpn] at h
        simp only [Except.ok.injEq] at h
        subst h
        have e1 : (fun q => (((s.setPrev c (some p)).setNext p (some c)).mem q).Next)
            = (fun q => if q = p then some c else if q = c then (s.mem p).Next
                else (s.mem q).Next) := by
          funext q
          simp only [setNext_Next, setPrev_Next]
          by_cases hq : q = p
          · simp [hq]
          · by_cases hqc : q = c
            · subst hqc; simp [hq, hnx, hpn]
            · simp [hq, hqc]
        have e2 : (fun q => (((s.setPrev c (some p)).setNext p (some c)).mem q).Prev)
            = (fun q => if (s.mem p).Next = some q then some c else if q = c then some p
                else (s.mem q).Prev) := by
          funext q
          simp [hpn]
        rw [e1, e2]
        exact navInv_insert_after hinv' hc' hnx hpv
      | some n =>
        rw [hpn] at h
        simp only at h
        have hnp2 : (((s.setPrev c (some p)).setNext c (some n)).mem p).Next = some n := by
          simp [hpc, hpn]
        rw [hnp2] at h
        simp only [Except.ok.injEq] at h
        subst h
        have e1 : (fun q => (((((s.setPrev c (some p)).setNext c (some n)).setPrev n
              (some c)).setNext p (some c)).mem q).Next)
            = (fun q => if q = p then some c else if q = c then (s.mem p).Next
                else (s.mem q).Next) := by
          funext q
          simp [hpn]
        have e2 : (fun q => (((((s.setPrev c (some p)).setNext c (some n)).setPrev n
              (some c)).setNext p (some c)).mem q).Prev)
            = (fun q => if (s.mem p).Next = some q then some c else if q = c then some p
                else (s.mem q).Prev) := by
          funext q
          simp only [setNext_Prev, setPrev_Prev, hpn, Option.some.injEq]
          by_cases hq : q = n
          · subst hq; simp
          · have hq2 : ¬ n = q := fun e => hq e.symm
            simp [hq, hq2]
        rw [e1, e2]
        exact navInv_insert_after hinv' hc' hnx hpv
    · cases h
      have := @navInv_insert_plain (l0 ++ [p]) l2 _ _ c hinv hc hnx hpv
      simpa using this

theorem GenerateExcerptAndRender_nav (R : Renderer) (s s1 : Account) (a : Ptr)
    (h : GenerateExcerptAndRender R s a = .ok s1) (p : Ptr) :
    (s1.mem p).Next = (s.mem p).Next ∧ (s1.mem p).Prev = (s.mem p).Prev := by
  unfold GenerateExcerptAndRender at h
  split at h
  · cases h
  · cases h
    by_cases hp : p = a <;> simp [hp]

theorem navLinked_of_onlyIndex {s s1 : Account} (ho : OnlyIndex s s1) (h : NavLinked s) :
    NavLinked s1 :=
  navLinked_congr s s1 ho.2.1 (fun p _ => by rw [ho.1]; exact ⟨rfl, rfl⟩)
    (fun p => by rw [ho.1]) (fun p => by rw [ho.1]) h

/-- One round of `DelArticles`, up to the store update, keeps a consistent
index. -/
theorem navLinked_remove (s s1 : Account) (id : Int) (i : Nat) (a : Ptr) (slug : String)
    (h : NavLinked s) (hg : GetArticle s id = some (i, a))
    (hd : DelFromLinkedList s (some a) = .ok s1) :
    NavLinked (({ s1 with Articles := s1.Articles.eraseIdx i } : Account).setSlug slug none) := by
  obtain ⟨hs, hid, hnav⟩ := h
  obtain ⟨j, hj, hje, hal, _⟩ := GetArticle_find_some s.mem id s.Articles 0 i a hg
  have hij : i = j := by omega
  subst hij
  obtain ⟨s1', hd', hk, hnx, hpv⟩ := DelFromLinkedList_spec s a
  rw [hd] at hd'
  cases hd'
  have hl : s1.Articles = s.Articles := hk.1
  refine ⟨?_, ?_, ?_⟩
  · have hs1 : ChronSorted s1 := chronSorted_of_keepsOrder hk hs
    rw [chronSorted_iff] at hs1 ⊢
    exact hs1.sublist (List.eraseIdx_sublist _ _)
  · show ((s1.Articles.eraseIdx i).map (fun p => (s1.mem p).ID)).Nodup
    have e : (fun p => (s1.mem p).ID) = (fun p => (s.mem p).ID) :=
      funext (fun p => keepsOrder_id hk p)
    rw [e, hl]
    exact List.Nodup.sublist (List.Sublist.map _ (List.eraseIdx_sublist _ _)) hid
  · show NavInv (s1.Articles.eraseIdx i) (fun p => (s1.mem p).Next) (fun p => (s1.mem p).Prev)
    rw [hl, hje]
    have e1 : (fun p => (s1.mem p).Next)
        = (fun q => if (s.mem a).Prev = some q then (s.mem a).Next else (s.mem q).Next) :=
      funext hnx
    have e2 : (fun p => (s1.mem p).Prev)
        = (fun q => if (s.mem a).Next = some q then (s.mem a).Prev else (s.mem q).Prev) :=
      funext hpv
    rw [e1, e2]
    exact navInv_erase hnav a hal

/-- `DelArticles` keeps a consistent index, whatever the store answers. -/
theorem DelArticles_navLinked (upd : Int → Option Error) (ids : List Int) (s s1 : Account)
    (e : Option Error) (h : NavLinked s) (hrun : DelArticles upd s ids = .ok (s1, e)) :
    NavLinked s1 := by
  induction ids generalizing s with
  | nil =>
    simp only [DelArticles, Except.ok.injEq, Prod.mk.injEq] at hrun
    rw [← hrun.1]; exact h
  | cons id rest ih =>
    simp only [DelArticles] at hrun
    split at hrun
    · simp [DelFromLinkedList] at hrun
    · rename_i i artc hg
      split at hrun
      · cases hrun
      · rename_i s2 h2
        have h3 := navLinked_remove s s2 id i artc (s2.mem artc).Slug h hg h2
        split at hrun
        · cases hrun; exact h3
        · split at hrun
          · cases hrun
          · rename_i s4 h4
            exact ih s4 (navLinked_of_onlyIndex (onlyIndex_dropArticle _ _ _ h4) h3) hrun

/-- The ways `AddArticle` returns: with the identifier written and nothing
else done (the store failed the insert, or the article is a draft), or
through linking, indexing and rendering of the listed article. -/
theorem AddArticle_inv (StartID : Int) (R : Renderer) (s s1 : Account) (artc : Ptr)
    (gen : List Int) (insertErr e : Option Error)
    (h : AddArticle StartID R s artc gen insertErr = .ok (s1, e)) :
    ∃ id, allocID StartID gen = some id ∧
      (s1 = s.withID artc id ∨
        ∃ s3, AddToLinkedList StartID (s.listed artc id) id = .ok s3 ∧
          GenerateExcerptAndRender R (upArticle s3 artc true) artc = .ok s1) := by
  unfold AddArticle at h
  split at h
  · cases h
  · rename_i id halloc
    refine ⟨id, halloc, ?_⟩
    simp only at h
    split at h
    · cases h; exact Or.inl rfl
    · split at h
      · cases h; exact Or.inl rfl
      · split at h
        · cases h
        · rename_i s3 h3
          split at h
          · cases h
          · rename_i s5 h5
            cases h
            refine Or.inr ⟨s3, ?_, h5⟩
            have hidx : ((s.listed artc id).mem artc).ID = id := by
              simp [Account.listed, Account.withID]
            rw [← h3]
            exact congrArg (AddToLinkedList StartID (s.listed artc id)) hidx.symm

@[simp] theorem withID_Articles (s : Account) (artc : Ptr) (id : Int) :
    (s.withID artc id).Articles = s.Articles := rfl

@[simp] theorem withID_Next (s : Account) (artc : Ptr) (id : Int) (p : Ptr) :
    ((s.withID artc id).mem p).Next = (s.mem p).Next := by
  unfold Account.withID
  by_cases h : p = artc <;> simp [h]

@[simp] theorem withID_Prev (s : Account) (artc : Ptr) (id : Int) (p : Ptr) :
    ((s.withID artc id).mem p).Prev = (s.mem p).Prev := by
  unfold Account.withID
  by_cases h : p = artc <;> simp [h]

@[simp] theorem withID_CreateTime (s : Account) (artc : Ptr) (id : Int) (p : Ptr) :
    ((s.withID artc id).mem p).CreateTime = (s.mem p).CreateTime := by
  unfold Account.withID
  by_cases h : p = artc <;> simp [h]

@[simp] theorem withID_ID (s : Account) (artc : Ptr) (id : Int) (p : Ptr) :
    ((s.withID artc id).mem p).ID = if p = artc then id else (s.mem p).ID := by
  unfold Account.withID
  by_cases h : p = artc <;> simp [h]

@[simp] theorem listed_mem (s : Account) (artc : Ptr) (id : Int) :
    (s.listed artc id).mem = (s.withID artc id).mem := rfl

@[simp] theorem listed_Articles (s : Account) (artc : Ptr) (id : Int) :
    (s.listed artc id).Articles = sortArticles (s.withID artc id).mem (artc :: s.Articles) :=
  rfl

theorem navLinked_withID (s : Account) (artc : Ptr) (id : Int) (hnew : artc ∉ s.Articles)
    (h : NavLinked s) : NavLinked (s.withID artc id) := by
  refine navLinked_congr s _ rfl (fun p hp => ?_) (fun p => by simp) (fun p => by simp) h
  have : p ≠ artc := fun e => hnew (e ▸ hp)
  simp [this]

/-- `AddArticle` keeps the creation times, and the list is the old one or has
the article besides the old entries. -/
theorem AddArticle_times (StartID : Int) (R : Renderer) (s s1 : Account) (artc : Ptr)
    (gen : List Int) (insertErr e : Option Error)
    (hrun : AddArticle StartID R s artc gen insertErr = .ok (s1, e)) :
    (∀ p, (s1.mem p).CreateTime = (s.mem p).CreateTime) ∧
    (s1.Articles = s.Articles ∨ s1.Articles.Perm (artc :: s.Articles)) := by
  obtain ⟨id, _, hcase⟩ := AddArticle_inv _ _ _ _ _ _ _ _ hrun
  rcases hcase with rfl | ⟨s3, h3, h5⟩
  · exact ⟨fun p => by simp, Or.inl (by simp)⟩
  · have k3 := keepsOrder_AddToLinkedList _ _ _ _ h3
    have k4 := onlyIndex_upArticle s3 artc true
    have k5 := keepsOrder_GenerateExcerptAndRender _ _ _ _ h5
    refine ⟨fun p => ?_, Or.inr ?_⟩
    · rw [keepsOrder_time k5 p, k4.1, keepsOrder_time k3 p, listed_mem]
      simp
    · rw [k5.1, k4.2.1, k3.1, listed_Articles]
      exact sortArticles_perm _ _

/-- `DelArticles` keeps the creation times and only takes entries out of the
list. -/
theorem DelArticles_times (upd : Int → Option Error) (ids : List Int) (s s1 : Account)
    (e : Option Error) (h : DelArticles upd s ids = .ok (s1, e)) :
    (∀ p, (s1.mem p).CreateTime = (s.mem p).CreateTime) ∧ s1.Articles.Sublist s.Articles := by
  induction ids generalizing s with
  | nil =>
    simp only [DelArticles, Except.ok.injEq, Prod.mk.injEq] at h
    rw [← h.1]
    exact ⟨fun _ => rfl, List.Sublist.refl _⟩
  | cons id rest ih =>
    simp only [DelArticles] at h
    split at h
    · simp [DelFromLinkedList] at h
    · rename_i i artc _
      split at h
      · cases h
      · rename_i s2 h2
        have k2 := keepsOrder_DelFromLinkedList _ _ _ h2
        have hsub : (s2.Articles.eraseIdx i).Sublist s.Articles := by
          rw [k2.1]
          exact List.eraseIdx_sublist _ _
        split at h
        · cases h
          exact ⟨fun p => keepsOrder_time k2 p, hsub⟩
        · split at h
          · cases h
          · rename_i s4 h4
            have k4 := onlyIndex_dropArticle _ _ _ h4
            obtain ⟨t1, t2⟩ := ih s4 h
            refine ⟨fun p => ?_, ?_⟩
            · rw [t1 p, k4.1]
              exact keepsOrder_time k2 p
            · rw [k4.2.1] at t2
              exact t2.trans hsub

/-- `AddArticle` of a new Article object, with an unused identifier and a
creation time that no listed article has, keeps a consistent index with
pairwise different creation times, whatever the store answers. -/
theorem AddArticle_navLinked (StartID : Int) (R : Renderer) (s s1 : Account) (artc : Ptr)
    (gen : List Int) (insertErr e : Option Error) (h : NavLinked s)
    (hdist : DistinctTimes s)
    (hnew : artc ∉ s.Articles) (hpv : (s.mem artc).Prev = none)
    (hnx : (s.mem artc).Next = none)
    (htime : ∀ a ∈ s.Articles, (s.mem a).CreateTime ≠ (s.mem artc).CreateTime)
    (hid : ∀ id, allocID StartID gen = some id → ∀ a ∈ s.Articles, (s.mem a).ID ≠ id)
    (hrun : AddArticle StartID R s artc gen insertErr = .ok (s1, e)) : NavLinked s1 := by
  have hsorted := AddArticle_sorted StartID R s s1 artc gen insertErr e h.1 hrun
  obtain ⟨id, halloc, hcase⟩ := AddArticle_inv _ _ _ _ _ _ _ _ hrun
  have hfresh := hid id halloc
  have h0 := navLinked_withID s artc id hnew h
  rcases hcase with rfl | ⟨s3, h3, h5⟩
  · exact h0
  · obtain ⟨hs0, hid0, hnav0⟩ := h0
    rw [chronSorted_iff] at hs0
    have hd0 : (artc :: s.Articles).Pairwise
        (fun a b => ((s.withID artc id).mem a).CreateTime ≠
          ((s.withID artc id).mem b).CreateTime) := by
      simp only [withID_CreateTime]
      rw [List.pairwise_cons]
      exact ⟨fun a ha => Ne.symm (htime a ha), hdist⟩
    obtain ⟨l1, l2, hl, hsort⟩ :=
      sortArticles_cons_distinct (s.withID artc id).mem artc s.Articles hs0 hd0
    simp only [withID_Articles] at hnav0 hid0
    have hnav3 := AddToLinkedList_nav StartID (s.listed artc id) s3 id artc l1 l2
      (by rw [listed_Articles, hsort])
      (by rw [← hl]; exact hnav0) (by rw [← hl]; exact hnew)
      (by simp [hnx]) (by simp [hpv])
      (by
        intro x hx
        have hxl : x ∈ s.Articles := by rw [hl]; exact List.mem_append_left _ hx
        have hxa : x ≠ artc := fun e => hnew (e ▸ hxl)
        simpa [hxa] using hfresh x hxl)
      (by simp) h3
    have k3 := keepsOrder_AddToLinkedList _ _ _ _ h3
    have k4 := onlyIndex_upArticle s3 artc true
    have k5 := keepsOrder_GenerateExcerptAndRender _ _ _ _ h5
    have n5 := GenerateExcerptAndRender_nav _ _ _ _ h5
    have hl5 : s1.Articles = l1 ++ artc :: l2 := by
      rw [k5.1, k4.2.1, k3.1, listed_Articles, hsort]
    refine ⟨hsorted, ?_, ?_⟩
    · rw [hl5]
      have e : (fun p => (s1.mem p).ID) = (fun p => ((s.withID artc id).mem p).ID) := by
        funext p
        rw [keepsOrder_id k5 p, k4.1, keepsOrder_id k3 p, listed_mem]
      rw [e]
      have hperm : (l1 ++ artc :: l2).Perm (artc :: (l1 ++ l2)) := List.perm_middle
      rw [(hperm.map _).nodup_iff, ← hl, List.map_cons, List.nodup_cons]
      refine ⟨?_, hid0⟩
      simp only [withID_ID, if_true, List.mem_map, not_exists, not_and]
      intro x hx
      have hxa : x ≠ artc := fun e => hnew (e ▸ hx)
      simpa [hxa] using hfresh x hx
    · rw [hl5]
      have e1 : (fun p => (s1.mem p).Next) = (fun p => (s3.mem p).Next) := by
        funext p; rw [(n5 p).1, k4.1]
      have e2 : (fun p => (s1.mem p).Prev) = (fun p => (s3.mem p).Prev) := by
        funext p; rw [(n5 p).2, k4.1]
      rw [e1, e2]
      exact hnav3

/-! ## C9: the navigation pointers are mutually inverse -/

/-- C9, amended. Navigation pointers are mutually inverse in every state
reached from a consistent index whose listed articles have pairwise different
creation times, by returning `DelArticles` calls and returning `AddArticle`
calls that are given a new Article object (not listed, without `Prev` and
`Next`) with a creation time and an identifier that no listed article has: for
every listed article `a` with an identifier at or above the boundary, if
`a.Next` is `b` then `b.Prev` is `a`, and if `a.Prev` is `b` then `b.Next` is
`a`. -/
theorem navigation_pointers_inverse (StartID : Int) (R : Renderer) (s s1 : Account)
    (h : NavLinked s) (hd : DistinctTimes s)
    (hr : Relation.ReflTransGen (NavStep StartID R) s s1) :
    ∀ a ∈ s1.Articles, StartID ≤ (s1.mem a).ID → ∀ b,
      ((s1.mem a).Next = some b → (s1.mem b).Prev = some a) ∧
      ((s1.mem a).Prev = some b → (s1.mem b).Next = some a) := by
  have h1 : NavLinked s1 ∧ DistinctTimes s1 := by
    induction hr with
    | refl => exact ⟨h, hd⟩
    | @tail s2 s3 _ hstep ih =>
      cases hstep with
      | add artc gen insertErr e hnew hpv hnx htime hid hrun =>
        refine ⟨AddArticle_navLinked _ _ _ _ _ _ _ _ ih.1 ih.2 hnew hpv hnx htime hid hrun, ?_⟩
        obtain ⟨t1, t2⟩ := AddArticle_times _ _ _ _ _ _ _ _ hrun
        have e : (fun a b => (s3.mem a).CreateTime ≠ (s3.mem b).CreateTime)
            = (fun a b => (s2.mem a).CreateTime ≠ (s2.mem b).CreateTime) := by
          funext a b
          rw [t1 a, t1 b]
        unfold DistinctTimes
        rw [e]
        rcases t2 with t2 | t2
        · rw [t2]; exact ih.2
        · exact (List.Perm.pairwise_iff (fun {x y} h => Ne.symm h) t2).mpr
            (List.pairwise_cons.mpr ⟨fun a ha => Ne.symm (htime a ha), ih.2⟩)
      | del upd ids e hrun =>
        refine ⟨DelArticles_navLinked _ _ _ _ _ ih.1 hrun, ?_⟩
        obtain ⟨t1, t2⟩ := DelArticles_times _ _ _ _ _ hrun
        have e : (fun a b => (s3.mem a).CreateTime ≠ (s3.mem b).CreateTime)
            = (fun a b => (s2.mem a).CreateTime ≠ (s2.mem b).CreateTime) := by
          funext a b
          rw [t1 a, t1 b]
        unfold DistinctTimes
        rw [e]
        exact List.Pairwise.sublist t2 ih.2
  obtain ⟨⟨_, _, _, hf, hb⟩, _⟩ := h1
  intro a ha _ b
  exact ⟨fun hab => (hf a ha b hab).1, fun hab => (hb a ha b hab).1⟩

theorem exChain_navLinked : NavLinked exChain := by
  refine ⟨by unfold ChronSorted; decide, by decide, by decide, ?_, ?_⟩
  · intro a ha b hab
    have ha' : a = 0 ∨ a = 1 ∨ a = 2 := by simpa [exChain] using ha
    rcases ha' with rfl | rfl | rfl
    · have : b = 1 := by simpa [exChain] using hab.symm
      subst this; exact ⟨rfl, by decide⟩
    · have : b = 2 := by simpa [exChain] using hab.symm
      subst this; exact ⟨rfl, by decide⟩
    · simp [exChain] at hab
  · intro a ha b hab
    have ha' : a = 0 ∨ a = 1 ∨ a = 2 := by simpa [exChain] using ha
    rcases ha' with rfl | rfl | rfl
    · simp [exChain] at hab
    · have : b = 0 := by simpa [exChain] using hab.symm
      subst this; exact ⟨rfl, by decide⟩
    · have : b = 1 := by simpa [exChain] using hab.symm
      subst this; exact ⟨rfl, by decide⟩

/-- The consistent index `exTied`. -/
theorem exTied_navLinked : NavLinked exTied := by
  refine ⟨by unfold ChronSorted; decide, by decide, by decide, ?_, ?_⟩
  · have h : ∀ a ∈ exTied.Articles, ∀ b ∈ (exTied.mem a).Next,
        (exTied.mem b).Prev = some a ∧ [a, b].Sublist exTied.Articles := by decide
    exact fun a ha b hb => h a ha b hb
  · have h : ∀ a ∈ exTied.Articles, ∀ b ∈ (exTied.mem a).Prev,
        (exTied.mem b).Next = some a ∧ [b, a].Sublist exTied.Articles := by decide
    exact fun a ha b hb => h a ha b hb

/-- C9, as stated, fails. (1) In the consistent index `exTied` twelve listed
articles have one creation time. `AddArticle` of a new article created before
them sorts the list of 13, and `sort.Sort` brings the article at address 5 to
the front of the twelve; `AddArticle` of a new article created after all of
them then links that article to the article 5 behind it: the article at
address 4 has the article 5 as `Next`, and the article 5 has the new article
as `Prev`. (2) In the consistent index `exChain`, `AddArticle` given the
Article object at address 1, which is listed and linked, leaves the article at
address 2 with `Prev` the article 1, whose `Next` is the article 1 itself.
(3) In `exChain`, `AddArticle` of the new article at address 3 with the
identifier 300, which the listed article at address 0 has, leaves the article
at address 1 with `Prev` the article 0, whose `Next` is the new article.
(4) In `exChain`, `AddArticle` of an unlisted Article object created before the
listed ones whose `Next` is set to the article 0 puts it last and leaves that
`Next`, while the article 0 has no `Prev`. -/
theorem navigation_pointers_counterexample :
    (NavLinked exTied ∧ 12 ∉ exTied.Articles ∧ 13 ∉ exTied.Articles ∧
      (exTied.mem 12).Prev = none ∧ (exTied.mem 12).Next = none ∧
      (exTied.mem 13).Prev = none ∧ (exTied.mem 13).Next = none ∧
      ∃ s1 s2, AddArticle 100 plainRender exTied 12 [400] none = .ok (s1, none) ∧
        s1.Articles = [5, 0, 1, 2, 3, 4, 6, 7, 8, 9, 10, 11, 12] ∧
        AddArticle 100 plainRender s1 13 [401] none = .ok (s2, none) ∧
        s2.Articles = [13, 5, 0, 1, 2, 3, 4, 6, 7, 8, 9, 10, 11, 12] ∧
        (s2.mem 4).ID = 204 ∧ (s2.mem 4).Next = some 5 ∧ (s2.mem 5).Prev = some 13 ∧
        ¬ ∀ a ∈ s2.Articles, (100 : Int) ≤ (s2.mem a).ID → ∀ b,
          ((s2.mem a).Next = some b → (s2.mem b).Prev = some a) ∧
          ((s2.mem a).Prev = some b → (s2.mem b).Next = some a)) ∧
    (NavLinked exChain ∧
      ∃ s1, AddArticle 100 plainRender exChain 1 [400] none = .ok (s1, none) ∧
        s1.Articles = [0, 1, 1, 2] ∧ (s1.mem 2).ID = 150 ∧
        (s1.mem 2).Prev = some 1 ∧ (s1.mem 1).Next = some 1) ∧
    (∃ s1, AddArticle 100 plainRender exChain 3 [300] none = .ok (s1, none) ∧
        s1.Articles = [0, 3, 1, 2] ∧ (s1.mem 1).ID = 200 ∧
        (s1.mem 1).Prev = some 0 ∧ (s1.mem 0).Next = some 3) ∧
    (∃ s1, AddArticle 100 plainRender
          (exChain.store 3 { Slug := "d", CreateTime := ⟨2019, 12, 0⟩, Next := some 0 })
          3 [400] none = .ok (s1, none) ∧
        s1.Articles = [0, 1, 2, 3] ∧ (s1.mem 3).ID = 400 ∧
        (s1.mem 3).Next = some 0 ∧ (s1.mem 0).Prev = none) := by
  refine ⟨⟨exTied_navLinked, by decide, by decide, rfl, rfl, rfl, rfl, _, _, rfl, rfl, rfl, rfl,
    rfl, rfl, rfl, ?_⟩, ⟨exChain_navLinked, _, rfl, rfl, rfl, rfl, rfl⟩,
    ⟨_, rfl, rfl, rfl, rfl, rfl⟩, ⟨_, rfl, rfl, rfl, rfl, rfl⟩⟩
  intro hall
  have h45 := (hall 4 (by decide) (by decide) 5).1 rfl
  exact absurd h45 (by decide)

/-- C9 at `exChain`: the new article at address 3 is added between the articles
300 and 200 and spliced into the chain; the pointers stay mutually inverse. -/
theorem navigation_pointers_inverse_witness :
    NavLinked exChain ∧ DistinctTimes exChain ∧
    ∃ s1, AddArticle 100 plainRender exChain 3 [400] none = .ok (s1, none) ∧
      s1.Articles = [0, 3, 1, 2] ∧
      (s1.mem 0).Next = some 3 ∧ (s1.mem 3).Prev = some 0 ∧
      (s1.mem 3).Next = some 1 ∧ (s1.mem 1).Prev = some 3 ∧
      ∀ a ∈ s1.Articles, (100 : Int) ≤ (s1.mem a).ID → ∀ b,
        ((s1.mem a).Next = some b → (s1.mem b).Prev = some a) ∧
        ((s1.mem a).Prev = some b → (s1.mem b).Next = some a) := by
  refine ⟨exChain_navLinked, by unfold DistinctTimes; decide, _, rfl, rfl, rfl, rfl, rfl, rfl,
    ?_⟩
  exact navigation_pointers_inverse 100 plainRender exChain _ exChain_navLinked
    (by unfold DistinctTimes; decide)
    (Relation.ReflTransGen.single
      (NavStep.add _ _ 3 [400] none none (by decide) rfl rfl (by decide) (by
        intro id hid a ha
        have : id = 400 := by
          have h400 : allocID 100 [400] = some 400 := rfl
          rw [h400] at hid
          exact (Option.some.inj hid).symm
        subst this
        have ha' : a = 0 ∨ a = 1 ∨ a = 2 := by simpa [exChain] using ha
        rcases ha' with rfl | rfl | rfl <;> decide) rfl))

/-! ## C11: unlinking bypasses the removed article -/

/-- The list `DelArticles` leaves for one listed identifier: the list without
the article found. -/
theorem DelArticles_single_list (upd : Int → Option Error) (s s2 : Account) (id : Int)
    (i : Nat) (a : Ptr) (e : Option Error) (hg : GetArticle s id = some (i, a))
    (hrun : DelArticles upd s [id] = .ok (s2, e)) : s2.Articles = s.Articles.erase a := by
  obtain ⟨j, hj, hje, _, _⟩ := GetArticle_find_some s.mem id s.Articles 0 i a hg
  have hij : i = j := by omega
  subst hij
  simp only [DelArticles, hg] at hrun
  split at hrun
  · cases hrun
  · rename_i s1 h1
    have hl : s1.Articles = s.Articles := (keepsOrder_DelFromLinkedList _ _ _ h1).1
    split at hrun
    · cases hrun
      show s1.Articles.eraseIdx i = _
      rw [hl, hje]
    · split at hrun
      · cases hrun
      · rename_i s4 h4
        cases hrun
        rw [(onlyIndex_dropArticle _ _ _ h4).2.1]
        show s1.Articles.eraseIdx i = _
        rw [hl, hje]

/-- C11. Unlink bypasses the removed article: in a consistent index, for a
listed article `a`, `DelFromLinkedList(a)` returns, and afterwards the `Next`
of the article before `a` in the chain is what followed `a` and the `Prev` of
the article after `a` is what preceded `a`, whichever of the two exist; and
after `DelArticles(id)` for the identifier of `a`, `a` is not listed and no
listed article has a `Prev` or `Next` pointing to `a`. -/
theorem unlink_bypasses (upd : Int → Option Error) (s : Account) (id : Int) (i : Nat)
    (a : Ptr) (h : NavLinked s) (hg : GetArticle s id = some (i, a)) :
    (∃ s1, DelFromLinkedList s (some a) = .ok s1 ∧
      (∀ p, (s.mem a).Prev = some p → (s1.mem p).Next = (s.mem a).Next) ∧
      (∀ n, (s.mem a).Next = some n → (s1.mem n).Prev = (s.mem a).Prev)) ∧
    (∀ s2 e, DelArticles upd s [id] = .ok (s2, e) →
      a ∉ s2.Articles ∧
      ∀ x ∈ s2.Articles, (s2.mem x).Next ≠ some a ∧ (s2.mem x).Prev ≠ some a) := by
  constructor
  · obtain ⟨s1, h1, _, hnx, hpv⟩ := DelFromLinkedList_spec s a
    refine ⟨s1, h1, ?_, ?_⟩
    · intro p hp
      rw [hnx p, if_pos hp]
    · intro n hn
      rw [hpv n, if_pos hn]
  · intro s2 e hrun
    have hl := DelArticles_single_list upd s s2 id i a e hg hrun
    have hnot : a ∉ s2.Articles := by
      rw [hl]
      exact List.Nodup.not_mem_erase h.2.2.1
    obtain ⟨_, _, _, hf, hb⟩ := DelArticles_navLinked upd [id] s s2 e h hrun
    refine ⟨hnot, fun x hx => ⟨fun hc => ?_, fun hc => ?_⟩⟩
    · exact hnot (pair_mem_of_sublist (hf x hx a hc).2).2
    · exact hnot (pair_mem_of_sublist (hb x hx a hc).2).1

/-- C11 at `exChain`: deleting the middle article 200 links the articles 300
and 150 to each other; nothing listed points to the removed article. -/
theorem unlink_bypasses_witness :
    NavLinked exChain ∧ GetArticle exChain 200 = some (1, 1) ∧
    (∃ s1, DelFromLinkedList exChain (some 1) = .ok s1 ∧
      (s1.mem 0).Next = some 2 ∧ (s1.mem 2).Prev = some 0) ∧
    ∃ s2, DelArticles (fun _ => none) exChain [200] = .ok (s2, none) ∧
      s2.Articles = [0, 2] ∧
      ∀ x ∈ s2.Articles, (s2.mem x).Next ≠ some 1 ∧ (s2.mem x).Prev ≠ some 1 :=
  ⟨exChain_navLinked, rfl, ⟨_, rfl, rfl, rfl⟩, _, rfl, rfl,
    ((unlink_bypasses (fun _ => none) exChain 200 1 1 exChain_navLinked rfl).2 _ none
      rfl).2⟩

/-! ## C15: replacing an article that is not listed -/

/-- C15: the code against the claim. For every state, when no listed article
has the identifier of the old article, `ReplaceArticle(old, new)` does not
complete: `GetArticle` answers `(-1, nil)` and `DelFromLinkedList(nil)`
dereferences the nil pointer. -/
theorem ReplaceArticle_absent_panics (StartID : Int) (R : Renderer) (s : Account)
    (old new : Ptr) (h : ∀ a ∈ s.Articles, (s.mem a).ID ≠ (s.mem old).ID) :
    ReplaceArticle StartID R s (some old) new = .error Fault.nilDereference := by
  have hg : GetArticle s (s.mem old).ID = none :=
    GetArticle_find_none s.mem (s.mem old).ID s.Articles 0 h
  simp only [ReplaceArticle, hg, DelFromLinkedList]

/-- C15 at `exDup`: the article object at address 1 is not listed (the only
listed identifier is 200); replacing it by itself panics. -/
theorem ReplaceArticle_absent_panics_witness :
    (∀ a ∈ exDup.Articles, (exDup.mem a).ID ≠ (exDup.mem 1).ID) ∧
    ReplaceArticle 100 plainRender exDup (some 1) 1 = .error Fault.nilDereference :=
  ⟨by decide, ReplaceArticle_absent_panics 100 plainRender exDup 1 1 (by decide)⟩

/-! ## C18: linking the only listed article -/

/-- C18: the code against the claim. When the article with the given
identifier is the only listed article, `AddToLinkedList` does not complete: it
finds the article at position 0 and reads `Ei.Articles[1]`, outside the
list. -/
theorem AddToLinkedList_single_panics (StartID : Int) (s : Account) (a : Ptr)
    (h : s.Articles = [a]) :
    AddToLinkedList StartID s (s.mem a).ID = .error Fault.indexOutOfRange := by
  have hg : GetArticle s (s.mem a).ID = some (0, a) := by
    simp [GetArticle, h, GetArticle.find]
  simp only [AddToLinkedList, hg, h, if_true]
  rfl

/-- C18 at concrete states: linking the only listed article of `exDup` panics,
and so does `AddArticle` of the first article into an empty index. -/
theorem AddToLinkedList_single_panics_witness :
    exDup.Articles = [0] ∧
    AddToLinkedList 100 exDup (exDup.mem 0).ID = .error Fault.indexOutOfRange ∧
    AddArticle 100 plainRender {} 0 [300] none = .error Fault.indexOutOfRange :=
  ⟨rfl, AddToLinkedList_single_panics 100 exDup 0 rfl, rfl⟩

/-! ## C12: deleting a series -/

theorem reduceOption_map_some {α : Type} (l : List α) : (l.map some).reduceOption = l := by
  induction l with
  | nil => rfl
  | cons x l ih => rw [List.map_cons, List.reduceOption_cons_of_some, ih]

theorem tail_after_subset {α : Type} (x : α) (l1 l2 : List α) :
    ∀ y ∈ (l1 ++ l2 ++ (x :: l2).drop l2.length).drop (l1.length + 1), y ∈ l2 := by
  have : (l1 ++ l2 ++ (x :: l2).drop l2.length).drop (l1.length + 1)
      = (l2 ++ (x :: l2).drop l2.length).drop 1 := by
    rw [List.append_assoc, ← List.drop_drop]; simp
  rw [this]
  cases l2 with
  | nil => simp
  | cons z l2 =>
    intro y hy
    simp only [List.cons_append, List.drop_succ_cons, List.drop_zero, List.length_cons,
      List.mem_append] at hy
    rcases hy with hy | hy
    · exact List.mem_cons_of_mem _ hy
    · exact List.mem_of_mem_drop hy

/-- The loop of `DelSerie` walks over a stretch of series with other
identifiers. -/
theorem DelSerieLoop_skip (del : Int → Option Error) (id : Int) (l1 : List Serie)
    (pre rest : List (Option Serie)) (k len sent : Nat) (h : ∀ x ∈ l1, x.ID ≠ id) :
    DelSerieLoop del id (l1.length + k) pre.length
        { arr := pre ++ l1.map some ++ rest, len := len, sent := sent }
      = DelSerieLoop del id k (pre.length + l1.length)
        { arr := pre ++ l1.map some ++ rest, len := len, sent := sent } := by
  induction l1 generalizing pre with
  | nil => simp
  | cons x l1 ih =>
    have hx : (pre ++ (x :: l1).map some ++ rest)[pre.length]? = some (some x) := by
      simp only [List.map_cons, List.append_assoc, List.cons_append]
      rw [List.getElem?_append_right (le_refl _)]
      simp
    have hlen : (x :: l1).length + k = (l1.length + k) + 1 := by simp; omega
    have hne : ¬ id = x.ID := fun e => h x (List.mem_cons_self _ _) e.symm
    rw [hlen, DelSerieLoop]
    simp only [hx, if_neg hne]
    have h2 := ih (pre ++ [some x]) (fun y hy => h y (List.mem_cons_of_mem _ hy))
    simp only [List.length_append, List.length_singleton, List.append_assoc,
      List.singleton_append, List.length_cons, List.length_nil, Nat.zero_add,
      List.map_cons, List.cons_append, List.nil_append] at h2 ⊢
    rw [h2]
    congr 1
    omega

/-- From a position on from which the backing array holds only series with
other identifiers, the loop of `DelSerie` changes nothing and returns no
error. -/
theorem DelSerieLoop_clean (del : Int → Option Error) (id : Int) (k i : Nat)
    (st : SerieLoop) (h : ∀ o ∈ st.arr.drop i, ∃ x, o = some x ∧ x.ID ≠ id)
    (hk : i + k ≤ st.arr.length) : DelSerieLoop del id k i st = .ok (st, none) := by
  induction k generalizing i with
  | zero => rfl
  | succ k ih =>
    have hi : i < st.arr.length := by omega
    have hmem : st.arr[i] ∈ st.arr.drop i := by
      rw [List.mem_iff_getElem]
      refine ⟨0, by simp; omega, by simp⟩
    obtain ⟨x, hx, hxid⟩ := h _ hmem
    have hget : st.arr[i]? = some (some x) := by
      rw [List.getElem?_eq_getElem hi, hx]
    have hne : ¬ id = x.ID := fun e => hxid e.symm
    rw [DelSerieLoop]
    simp only [hget, if_neg hne]
    apply ih (i + 1) _ (by omega)
    intro o ho
    apply h
    have : st.arr.drop (i + 1) = (st.arr.drop i).drop 1 := by
      simp [List.drop_drop, Nat.add_comm]
    rw [this] at ho
    exact List.mem_of_mem_drop ho

/-- The loop of `DelSerie` on a Series Index that holds the series `se` once
and otherwise series with other identifiers, up to the round that finds
`se`. -/
theorem DelSerieLoop_reach (del : Int → Option Error) (se : Serie) (l1 l2 : List Serie)
    (h1 : ∀ x ∈ l1, x.ID ≠ se.ID) :
    DelSerieLoop del se.ID (l1 ++ se :: l2).length 0
        { arr := (l1 ++ se :: l2).map some, len := (l1 ++ se :: l2).length, sent := 0 }
      = DelSerieLoop del se.ID (l2.length + 1) l1.length
        { arr := l1.map some ++ some se :: l2.map some,
          len := l1.length + 1 + l2.length, sent := 0 } := by
  have hskip := DelSerieLoop_skip del se.ID l1 [] (some se :: l2.map some) (l2.length + 1)
    (l1.length + 1 + l2.length) 0 h1
  simp only [List.length_nil, List.nil_append, Nat.zero_add] at hskip
  have hlen : (l1 ++ se :: l2).length = l1.length + (l2.length + 1) := by simp
  have hlen2 : l1.length + (l2.length + 1) = l1.length + 1 + l2.length := by omega
  have harr : (l1 ++ se :: l2).map some = l1.map some ++ some se :: l2.map some := by simp
  rw [harr, hlen, ← hskip, hlen2]

/-- C12. Deleting a series is guarded by its membership: in a Series Index
whose identifiers are pairwise different, for a series `se` of the index: if
`se` has a member article, `DelSerie` returns an error, leaves the Series Index
as it is and sends no token; if `se` has no member and the store succeeds with
the delete, `DelSerie` returns success, the Series Index is the former one
without the series of that identifier, the others in their order, and one
`SERIES_MD` token is sent. -/
theorem DelSerie_guarded (del : Int → Option Error) (s : Account) (se : Serie)
    (hnd : (s.Series.map (fun x => x.ID)).Nodup) (hse : se ∈ s.Series) :
    (se.Articles ≠ [] →
      ∃ s1, DelSerie del s se.ID = .ok (s1, some errSerieNotEmpty) ∧
        s1.Series = s.Series ∧ s1.CH = s.CH) ∧
    (se.Articles = [] → del se.ID = none →
      ∃ s1, DelSerie del s se.ID = .ok (s1, none) ∧
        s1.Series = s.Series.filter (fun x => decide (x.ID ≠ se.ID)) ∧
        (∀ x ∈ s1.Series, x.ID ≠ se.ID) ∧
        s1.CH = s.CH ++ [SERIES_MD]) := by
  obtain ⟨l1, l2, hl⟩ := List.append_of_mem hse
  rw [hl, List.map_append, List.map_cons, List.nodup_append, List.nodup_cons] at hnd
  obtain ⟨_, ⟨hn2, _⟩, hdis⟩ := hnd
  have h1 : ∀ x ∈ l1, x.ID ≠ se.ID := by
    intro x hx hc
    exact hdis (List.mem_map.mpr ⟨x, hx, rfl⟩) (hc ▸ List.mem_cons_self _ _)
  have h2 : ∀ x ∈ l2, x.ID ≠ se.ID := by
    intro x hx hc
    exact hn2 (List.mem_map.mpr ⟨x, hx, hc⟩)
  have hget : (l1.map some ++ some se :: l2.map some)[l1.length]? = some (some se) := by
    rw [List.getElem?_append_right (by simp)]
    simp
  constructor
  · intro hmem
    have hpos : se.Articles.length > 0 := List.length_pos.mpr hmem
    unfold DelSerie
    rw [hl, DelSerieLoop_reach del se l1 l2 h1, DelSerieLoop]
    simp only [hget, if_true, hpos]
    refine ⟨_, rfl, ?_, ?_⟩
    · show ((l1.map some ++ some se :: l2.map some).take (l1.length + 1 + l2.length)
        ).reduceOption = l1 ++ se :: l2
      have : l1.map some ++ some se :: l2.map some = (l1 ++ se :: l2).map some := by simp
      rw [this, List.take_of_length_le (by simp; omega), reduceOption_map_some]
    · simp
  · intro hempty hdel
    have hnpos : ¬ se.Articles.length > 0 := by simp [hempty]
    unfold DelSerie
    rw [hl, DelSerieLoop_reach del se l1 l2 h1, DelSerieLoop]
    simp only [hget, if_true, hnpos, if_false, hdel]
    rw [if_pos (by omega)]
    have hset : (l1.map some ++ some se :: l2.map some).set l1.length none
        = l1.map some ++ none :: l2.map some := by
      rw [List.set_append_right _ _ (by simp)]
      simp
    have hrm := removeAt_mid (l1.map some) (l2.map some) (none : Option Serie)
    simp only [List.length_map] at hrm
    rw [hset, hrm]
    rw [DelSerieLoop_clean del se.ID l2.length (l1.length + 1) _ (by
      intro o ho
      have hsub := tail_after_subset (none : Option Serie) (l1.map some) (l2.map some) o
      simp only [List.length_map] at hsub
      obtain ⟨x, hx, rfl⟩ := List.mem_map.mp (hsub ho)
      exact ⟨x, rfl, h2 x hx⟩) (by
      simp only [List.length_append, List.length_map, List.length_drop, List.length_cons]
      omega)]
    have hseries : ((l1.map some ++ l2.map some ++ (none :: l2.map some).drop l2.length).take
        (l1.length + 1 + l2.length - 1)).reduceOption = l1 ++ l2 := by
      have hlen : l1.length + 1 + l2.length - 1 = (l1.map some ++ l2.map some).length := by
        simp only [List.length_append, List.length_map]; omega
      rw [hlen, List.take_left', ← List.map_append, reduceOption_map_some]
      rfl
    have hfilter : (l1 ++ se :: l2).filter (fun x => decide (x.ID ≠ se.ID)) = l1 ++ l2 := by
      rw [List.filter_append, List.filter_cons_of_neg (by simp),
        List.filter_eq_self.mpr (fun x hx => by simpa using h1 x hx),
        List.filter_eq_self.mpr (fun x hx => by simpa using h2 x hx)]
    refine ⟨_, rfl, ?_, ?_, ?_⟩
    · show _ = (l1 ++ se :: l2).filter _
      rw [hfilter]
      exact hseries
    · intro x hx
      have hx' : x ∈ l1 ++ l2 := by
        have : x ∈ ((l1.map some ++ l2.map some ++ (none :: l2.map some).drop l2.length).take
            (l1.length + 1 + l2.length - 1)).reduceOption := hx
        rwa [hseries] at this
      rcases List.mem_append.mp hx' with h | h
      · exact h1 x h
      · exact h2 x h
    · simp

/-- C12 at `exSeries`: deleting the series 7, which holds an article, is
refused and changes nothing; deleting the series 9, which holds none, removes
it, keeps the series 7 and 3 in their order and sends one token. -/
theorem DelSerie_guarded_witness :
    (exSeries.Series.map (fun x => x.ID)).Nodup ∧
    (∃ s1, DelSerie (fun _ => none) exSeries 7 = .ok (s1, some errSerieNotEmpty) ∧
      s1.Series = exSeries.Series ∧ s1.CH = exSeries.CH) ∧
    (∃ s1, DelSerie (fun _ => none) exSeries 9 = .ok (s1, none) ∧
      s1.Series.map (fun x => x.ID) = [7, 3] ∧ s1.CH = exSeries.CH ++ [SERIES_MD]) := by
  refine ⟨by decide, ?_, ?_⟩
  · exact (DelSerie_guarded (fun _ => none) exSeries
      { ID := 7, Name := "notes", Articles := [1] } (by decide) (by decide)).1 (by decide)
  · obtain ⟨s1, h1, h2, _, h4⟩ := (DelSerie_guarded (fun _ => none) exSeries
      { ID := 9, Name := "new" } (by decide) (by decide)).2 rfl rfl
    refine ⟨s1, h1, ?_, h4⟩
    rw [h2]
    decide

/-! ## C19: the navigation chain built at bootstrap -/

/-- C19: the code against the claim. With the single published article 200
fetched, `loadArticles` reads `Ei.Articles[1]` and panics. With the pages 5 and
6 fetched around the article 200 it returns, and the `Prev` of the article 200
is the page 5, below the boundary 100. -/
theorem loadArticles_chain_defects :
    loadArticles 100 plainRender exLoadOne = .error Fault.indexOutOfRange ∧
    ∃ s1, loadArticles 100 plainRender exLoadPages = .ok s1 ∧
      s1.Articles = [0, 1, 2] ∧ (s1.mem 0).ID = 5 ∧ (s1.mem 1).ID = 200 ∧
      (s1.mem 1).Prev = some 0 :=
  ⟨rfl, _, rfl, rfl, rfl, rfl, rfl⟩

/-! ## C16: the order of articles with equal creation times -/

/-- The loop of `loadArticles` keeps the list and the core of every article. -/
theorem loadLoop_keeps (StartID : Int) (R : Renderer) (k i : Nat) (s s1 : Account)
    (h : loadLoop StartID R k i s = .ok s1) :
    s1.Articles = s.Articles ∧ ∀ p, (s1.mem p).core = (s.mem p).core := by
  induction k generalizing i s with
  | zero =>
    simp only [loadLoop, Except.ok.injEq] at h
    subst h
    exact ⟨rfl, fun _ => rfl⟩
  | succ k ih =>
    rw [loadLoop] at h
    split at h
    · cases h
    · rename_i v _
      split at h
      · cases h
      · rename_i s2 h2
        have k2 := keepsOrder_GenerateExcerptAndRender _ _ _ _ h2
        simp only at h
        split at h
        · obtain ⟨ha, hc⟩ := ih _ _ h
          exact ⟨ha.trans k2.1, fun p => (hc p).trans (k2.2.2 p)⟩
        · split at h
          · cases h
          · rename_i s3 h3
            have k3 : s3.Articles = s2.Articles ∧ ∀ p, (s3.mem p).core = (s2.mem p).core := by
              split at h3
              · split at h3
                · cases h3
                · cases h3
                  exact ⟨rfl, (keepsOrder_setPrev _ _ _).2.2⟩
              · cases h3
                exact ⟨rfl, fun _ => rfl⟩
            split at h
            · cases h
            · rename_i nx _
              obtain ⟨ha, hc⟩ := ih _ _ h
              have k4 := onlyIndex_upArticle
                (if StartID ≤ (s3.mem nx).ID then s3.setNext v (some nx) else s3) v false
              rw [k4.2.1] at ha
              have k5 : (if StartID ≤ (s3.mem nx).ID then s3.setNext v (some nx) else s3).Articles
                  = s3.Articles ∧
                  ∀ p, ((if StartID ≤ (s3.mem nx).ID then s3.setNext v (some nx)
                    else s3).mem p).core = (s3.mem p).core := by
                split
                · exact ⟨rfl, (keepsOrder_setNext _ _ _).2.2⟩
                · exact ⟨rfl, fun _ => rfl⟩
              refine ⟨ha.trans (k5.1.trans (k3.1.trans k2.1)), fun p => ?_⟩
              rw [hc p, k4.1, k5.2 p, k3.2 p]
              exact k2.2.2 p

/-- The list `loadArticles` leaves is the sorted list of the fetched
articles. -/
theorem loadArticles_list (StartID : Int) (R : Renderer) (s s1 : Account)
    (h : loadArticles StartID R s = .ok s1) :
    s1.Articles = sortArticles s.mem s.Articles ∧
      ∀ p, (s1.mem p).CreateTime = (s.mem p).CreateTime := by
  unfold loadArticles at h
  simp only at h
  split at h
  · cases h
  · rename_i s2 h2
    cases h
    obtain ⟨ha, hc⟩ := loadLoop_keeps _ _ _ _ _ _ h2
    refine ⟨by simp [ha], fun p => ?_⟩
    have := hc p
    simp only [Article.core, Prod.mk.injEq] at this
    simpa using this.2.2.2.1

/-- C16, as stated, fails: the articles 200 and 300 have the same creation
time; fetched as 200, 300 the bootstrap lists them in this order, fetched as
300, 200 in that one. The listed articles are the same, the lists differ, and
in the first the smaller identifier comes first, in the second the larger. -/
theorem tie_order_counterexample :
    exLoadTieSwapped.mem = exLoadTie.mem ∧
    exLoadTieSwapped.Articles.Perm exLoadTie.Articles ∧
    (exLoadTie.mem 0).CreateTime = (exLoadTie.mem 1).CreateTime ∧
    (exLoadTie.mem 0).ID = 200 ∧ (exLoadTie.mem 1).ID = 300 ∧
    (∃ s1, loadArticles 100 plainRender exLoadTie = .ok s1 ∧ s1.Articles = [0, 1, 2]) ∧
    (∃ s1, loadArticles 100 plainRender exLoadTieSwapped = .ok s1 ∧
      s1.Articles = [1, 0, 2]) :=
  ⟨rfl, by decide, rfl, rfl, rfl, ⟨_, rfl, rfl⟩, ⟨_, rfl, rfl⟩⟩

/-- C16, amended. The list is ordered by creation time only. When the creation
times of the listed articles are pairwise different, the list order is a
function of the set of listed articles: two sorted lists of the same articles
are equal, and the bootstrap yields the same sorted list in whatever order the
store returns the articles. -/
theorem list_order_by_time_only (StartID : Int) (R : Renderer) (s s1 : Account)
    (hmem : s1.mem = s.mem) (hperm : s1.Articles.Perm s.Articles)
    (hdist : s.Articles.Pairwise
      (fun a b => (s.mem a).CreateTime ≠ (s.mem b).CreateTime)) :
    (ChronSorted s → ChronSorted s1 → s1.Articles = s.Articles) ∧
    (∀ t t1, loadArticles StartID R s = .ok t → loadArticles StartID R s1 = .ok t1 →
      t1.Articles = t.Articles ∧ ChronSorted t) := by
  constructor
  · intro hs hs1
    rw [chronSorted_iff] at hs hs1
    rw [hmem] at hs1
    exact sorted_perm_unique s.mem _ _ hperm hdist hs hs1
  · intro t t1 ht ht1
    obtain ⟨hl, htime⟩ := loadArticles_list _ _ _ _ ht
    obtain ⟨hl1, _⟩ := loadArticles_list _ _ _ _ ht1
    have hp : (sortArticles s.mem s.Articles).Perm s.Articles := sortArticles_perm _ _
    have hdist2 : (sortArticles s.mem s.Articles).Pairwise
        (fun a b => (s.mem a).CreateTime ≠ (s.mem b).CreateTime) :=
      (List.Perm.pairwise_iff (fun {x y} h => Ne.symm h) hp).mpr hdist
    constructor
    · rw [hl, hl1, hmem]
      refine sorted_perm_unique s.mem _ _ ?_ hdist2 (sortArticles_sorted _ _)
        (sortArticles_sorted _ _)
      exact ((sortArticles_perm _ _).trans hperm).trans hp.symm
    · rw [chronSorted_iff, hl]
      exact (sortArticles_sorted s.mem s.Articles).imp
        (fun {a b} hab => (notAfter_congr s.mem t.mem htime a b).mpr hab)

/-- The amended C16 at `exLoadPages`, whose three articles have different
creation times: fetched in either order the bootstrap lists them alike. -/
theorem list_order_by_time_only_witness :
    exLoadPagesSwapped.Articles.Perm exLoadPages.Articles ∧
    (∃ t, loadArticles 100 plainRender exLoadPages = .ok t ∧ t.Articles = [0, 1, 2]) ∧
    ∃ t t1, loadArticles 100 plainRender exLoadPages = .ok t ∧
      loadArticles 100 plainRender exLoadPagesSwapped = .ok t1 ∧
      t1.Articles = t.Articles ∧ ChronSorted t :=
  ⟨by decide, ⟨_, rfl, rfl⟩, _, _, rfl, rfl,
    (list_order_by_time_only 100 plainRender exLoadPages exLoadPagesSwapped rfl (by decide)
      (by decide)).2 _ _ rfl rfl⟩

/-! ## C17: the sends on the channel -/

theorem chanSendAll_isSome (buf toks : List String) :
    (chanSendAll buf toks).isSome = true ↔ toks = [] ∨ buf.length + toks.length ≤ chanCap := by
  induction toks generalizing buf with
  | nil => simp [chanSendAll]
  | cons tok rest ih =>
    simp only [chanSendAll, chanSend]
    by_cases h : buf.length < chanCap
    · simp only [if_pos h, ih, List.length_append, List.length_singleton, List.length_cons,
        List.length_nil]
      constructor
      · rintro (h2 | h2)
        · right
          rw [h2, List.length_nil]
          omega
        · right; omega
      · rintro (h2 | h2)
        · cases h2
        · right; omega
    · simp only [if_neg h, Option.isSome_none, Bool.false_eq_true, false_iff, not_or]
      refine ⟨by simp, ?_⟩
      simp only [List.length_cons]
      omega

/-- The tokens `upArticle(artc, true)` sends: `ARCHIVE_MD`, after `SERIES_MD`
when the article belongs to a series of the index. -/
theorem upArticle_sends (s : Account) (artc : Ptr) :
    (upArticle s artc true).CH = s.CH ++ [ARCHIVE_MD] ∨
    (upArticle s artc true).CH = s.CH ++ [SERIES_MD, ARCHIVE_MD] := by
  have htags : ∀ (tags : List String) (s0 : Account),
      (tags.foldl (upTag artc true) s0).CH = s0.CH := by
    intro tags
    induction tags with
    | nil => intro s0; rfl
    | cons t rest ih => intro s0; rw [List.foldl_cons, ih]; rfl
  unfold upArticle
  simp only [Bool.and_true]
  cases hfound : (upSerie (List.foldl (upTag artc true) s (s.mem artc).Tags).mem artc true
      (List.foldl (upTag artc true) s (s.mem artc).Tags).Series).2
  · left
    split <;> simp [Account.send, htags]
  · right
    split <;> simp [Account.send, htags]

/-- C17, as stated, fails: after the bootstrap of `exLoadPages` two tokens wait
in the channel of capacity 2; `AddArticle` sends a token, and with those two
still waiting that send does not complete until the worker receives. -/
theorem enqueue_blocks_counterexample :
    ∃ s1, loadArticles 100 plainRender exLoadPages = .ok s1 ∧
      s1.CH = [SERIES_MD, ARCHIVE_MD] ∧
      (∃ s2, AddArticle 100 plainRender s1 3 [400] none = .ok (s2, none) ∧
        s2.CH = s1.CH ++ [ARCHIVE_MD]) ∧
      chanSend s1.CH ARCHIVE_MD = none :=
  ⟨_, rfl, rfl, ⟨_, rfl, rfl⟩, rfl⟩

/-- C17, amended. The channel has a buffer of 2 tokens. A send completes at
once while fewer than 2 tokens wait; `upArticle(artc, true)`, through which
`AddArticle` and `ReplaceArticle` enqueue, sends one or two tokens, and these
sends complete without a receive of the worker exactly when they fit into the
buffer beside the waiting tokens; with 2 tokens waiting the first send
waits. -/
theorem enqueue_waits_when_full (s : Account) (artc : Ptr) (buf : List String) :
    (∀ tok, buf.length < chanCap → chanSend buf tok = some (buf ++ [tok])) ∧
    ∃ toks, (upArticle s artc true).CH = s.CH ++ toks ∧
      1 ≤ toks.length ∧ toks.length ≤ 2 ∧
      ((chanSendAll buf toks).isSome = true ↔ buf.length + toks.length ≤ chanCap) ∧
      (buf.length = chanCap → chanSendAll buf toks = none) := by
  refine ⟨fun tok h => by simp [chanSend, h], ?_⟩
  have key : ∀ toks : List String, 1 ≤ toks.length →
      ((chanSendAll buf toks).isSome = true ↔ buf.length + toks.length ≤ chanCap) ∧
      (buf.length = chanCap → chanSendAll buf toks = none) := by
    intro toks hlen
    have hne : toks ≠ [] := by
      intro hc; rw [hc] at hlen; simp at hlen
    have hiff : (chanSendAll buf toks).isSome = true ↔ buf.length + toks.length ≤ chanCap := by
      rw [chanSendAll_isSome]
      constructor
      · rintro (h | h)
        · exact absurd h hne
        · exact h
      · exact fun h => Or.inr h
    refine ⟨hiff, fun hfull => ?_⟩
    rw [← Option.not_isSome_iff_eq_none, hiff]
    omega
  rcases upArticle_sends s artc with h | h
  · exact ⟨[ARCHIVE_MD], h, by simp, by simp, key _ (by simp)⟩
  · exact ⟨[SERIES_MD, ARCHIVE_MD], h, by simp, by simp, key _ (by simp)⟩

/-- C17 at concrete buffers: with one token waiting a send completes; with two
tokens waiting the tokens that `upArticle` sends for the new article of `exDup`
have to wait. -/
theorem enqueue_waits_when_full_witness :
    chanSend [SERIES_MD] ARCHIVE_MD = some [SERIES_MD, ARCHIVE_MD] ∧
    ∃ toks, (upArticle exDup 1 true).CH = exDup.CH ++ toks ∧
      chanSendAll [SERIES_MD, ARCHIVE_MD] toks = none := by
  refine ⟨(enqueue_waits_when_full exDup 1 [SERIES_MD]).1 ARCHIVE_MD (by decide), ?_⟩
  obtain ⟨toks, h1, _, _, _, h5⟩ :=
    (enqueue_waits_when_full exDup 1 [SERIES_MD, ARCHIVE_MD]).2
  exact ⟨toks, h1, h5 rfl⟩

/-! ## C13, C14: the archive markup -/

theorem emphasised_append (a b : List Piece) :
    emphasised (a ++ b) = emphasised a ++ emphasised b := by
  induction a with
  | nil => rfl
  | cons p a ih => cases p <;> simp [emphasised, ih]

theorem plainMembers_append (a b : List Piece) :
    plainMembers (a ++ b) = plainMembers a ++ plainMembers b := by
  induction a with
  | nil => rfl
  | cons p a ih => cases p <;> simp [plainMembers, ih]

theorem yearHeadings_append (a b : List Piece) :
    yearHeadings (a ++ b) = yearHeadings a ++ yearHeadings b := by
  induction a with
  | nil => rfl
  | cons p a ih => cases p <;> simp [yearHeadings, ih]

theorem monthHeadings_append (a b : List Piece) :
    monthHeadings (a ++ b) = monthHeadings a ++ monthHeadings b := by
  induction a with
  | nil => rfl
  | cons p a ih => cases p <;> simp [monthHeadings, ih]

/-- Past the first index, or with at most 12 buckets, every member is written
in the plain form. -/
theorem memberPieces_plain (gt12Month : Bool) (i : Nat) (l : List Ptr)
    (h : i ≠ 0 ∨ gt12Month = false) :
    memberPieces gt12Month i l = l.map Piece.plain := by
  induction l generalizing i with
  | nil => rfl
  | cons a l ih =>
    have hc : (i = 0 && gt12Month) = false := by
      rcases h with h | h
      · simp [h]
      · simp [h]
    simp only [memberPieces, hc, List.map_cons]
    rw [ih (i + 1) (Or.inl (Nat.succ_ne_zero i))]
    rfl

theorem emphasised_plain (l : List Ptr) : emphasised (l.map Piece.plain) = [] := by
  induction l with
  | nil => rfl
  | cons a l ih => simpa [emphasised] using ih

theorem plainMembers_plain (l : List Ptr) : plainMembers (l.map Piece.plain) = l := by
  induction l with
  | nil => rfl
  | cons a l ih => simpa [plainMembers] using ih

theorem yearHeadings_plain (l : List Ptr) : yearHeadings (l.map Piece.plain) = [] := by
  induction l with
  | nil => rfl
  | cons a l ih => simpa [yearHeadings] using ih

theorem monthHeadings_plain (l : List Ptr) : monthHeadings (l.map Piece.plain) = [] := by
  induction l with
  | nil => rfl
  | cons a l ih => simpa [monthHeadings] using ih

/-- With more than 12 buckets the members of one bucket: the first emphasised,
the others plain. -/
theorem memberPieces_first (l : List Ptr) :
    memberPieces true 0 l = (l.head?.toList.map Piece.emph) ++ l.tail.map Piece.plain := by
  cases l with
  | nil => rfl
  | cons a l =>
    simp only [memberPieces, List.head?_cons, Option.toList, List.map_cons, List.map_nil,
      List.tail_cons]
    rw [memberPieces_plain true (0 + 1) l (Or.inl (by omega))]
    rfl

theorem emphasised_first (l : List Ptr) :
    emphasised (memberPieces true 0 l) = l.head?.toList := by
  rw [memberPieces_first, emphasised_append, emphasised_plain]
  cases l <;> simp [emphasised]

theorem plainMembers_first (l : List Ptr) :
    plainMembers (memberPieces true 0 l) = l.tail := by
  rw [memberPieces_first, plainMembers_append, plainMembers_plain]
  cases l <;> simp [plainMembers]

theorem yearHeadings_members (b : Bool) (i : Nat) (l : List Ptr) :
    yearHeadings (memberPieces b i l) = [] := by
  induction l generalizing i with
  | nil => rfl
  | cons a l ih =>
    simp only [memberPieces]
    split <;> simp [yearHeadings, ih]

theorem monthHeadings_members (b : Bool) (i : Nat) (l : List Ptr) :
    monthHeadings (memberPieces b i l) = [] := by
  induction l generalizing i with
  | nil => rfl
  | cons a l ih =>
    simp only [memberPieces]
    split <;> simp [monthHeadings, ih]

theorem archiveLoop_year_emphasised (cur : Option Int) (l : List Archive) :
    emphasised (archiveLoop true cur l) = l.filterMap (fun a => a.Articles.head?) ∧
    plainMembers (archiveLoop true cur l) = l.flatMap (fun a => a.Articles.tail) ∧
    monthHeadings (archiveLoop true cur l) = [] := by
  induction l generalizing cur with
  | nil => exact ⟨rfl, rfl, rfl⟩
  | cons a l ih =>
    have hf : (a :: l).filterMap (fun a => a.Articles.head?)
        = a.Articles.head?.toList ++ l.filterMap (fun a => a.Articles.head?) := by
      cases h : a.Articles.head? <;> simp [List.filterMap_cons, h]
    rw [hf]
    simp only [archiveLoop, if_true, List.flatMap_cons]
    split
    · obtain ⟨h1, h2, h3⟩ := ih (some a.Time.year)
      simp [emphasised, plainMembers, monthHeadings, emphasised_append, plainMembers_append,
        monthHeadings_append, emphasised_first, plainMembers_first, monthHeadings_members,
        h1, h2, h3]
    · obtain ⟨h1, h2, h3⟩ := ih cur
      simp [emphasised_append, plainMembers_append,
        monthHeadings_append, emphasised_first, plainMembers_first, monthHeadings_members,
        h1, h2, h3]

theorem archiveLoop_month (cur : Option Int) (l : List Archive) :
    emphasised (archiveLoop false cur l) = [] ∧
    plainMembers (archiveLoop false cur l) = l.flatMap (fun a => a.Articles) ∧
    monthHeadings (archiveLoop false cur l) = l.map (fun a => a.Time) ∧
    yearHeadings (archiveLoop false cur l) = [] := by
  induction l generalizing cur with
  | nil => exact ⟨rfl, rfl, rfl, rfl⟩
  | cons a l ih =>
    obtain ⟨h1, h2, h3, h4⟩ := ih cur
    simp [archiveLoop, emphasised, plainMembers, monthHeadings, yearHeadings,
      emphasised_append, plainMembers_append, monthHeadings_append, yearHeadings_append,
      memberPieces_plain false 0 a.Articles (Or.inr rfl), emphasised_plain, plainMembers_plain,
      monthHeadings_plain, yearHeadings_plain, h1, h2, h3, h4]

/-- C13, as stated, fails: with the 13 buckets of `exThirteen`, sorted by time
descending, the two years 2020 and 2019 occur, and the markup has 13 members in
the emphasised form, the first member of every bucket, and none in the plain
form. -/
theorem emphasis_per_year_counterexample :
    exThirteen.Archives.length = 13 ∧
    exThirteen.Archives.Pairwise (fun a b => a.Time.After b.Time = true) ∧
    (exThirteen.Archives.map (fun a => a.Time.year)).dedup = [2020, 2019] ∧
    emphasised (archivePieces exThirteen.ArchivesSay exThirteen.Archives)
      = [0, 1, 2, 3, 4, 5, 6, 7, 8, 9, 10, 11, 12] ∧
    plainMembers (archivePieces exThirteen.ArchivesSay exThirteen.Archives) = [] := by
  refine ⟨rfl, by decide, by decide, rfl, rfl⟩

/-- C13, amended. In the archive markup assembled for the buckets `l`: with
more than 12 buckets the first member of every bucket is written in the
emphasised form, whatever the year of the bucket, and every other member in the
plain bullet form; with 12 or fewer buckets no member is written in the
emphasised form and every member is written in the plain bullet form. -/
theorem emphasis_first_of_every_bucket (say : String) (l : List Archive) :
    emphasised (archivePieces say l)
      = (if 12 < l.length then l.filterMap (fun a => a.Articles.head?) else []) ∧
    plainMembers (archivePieces say l)
      = (if 12 < l.length then l.flatMap (fun a => a.Articles.tail)
          else l.flatMap (fun a => a.Articles)) := by
  unfold archivePieces
  by_cases h : 12 < l.length
  · have hd : decide (l.length > 12) = true := by simpa using h
    rw [hd, if_pos h, if_pos h]
    obtain ⟨h1, h2, _⟩ := archiveLoop_year_emphasised none l
    exact ⟨by simpa [emphasised] using h1, by simpa [plainMembers] using h2⟩
  · have hd : decide (l.length > 12) = false := by simpa using h
    rw [hd, if_neg h, if_neg h]
    obtain ⟨h1, h2, _, _⟩ := archiveLoop_month none l
    exact ⟨by simpa [emphasised] using h1, by simpa [plainMembers] using h2⟩

/-- In a list sorted by time descending the years do not increase. -/
theorem archNotAfter_year (a b : Archive) (h : archNotAfter a b) :
    b.Time.year ≤ a.Time.year := by
  unfold archNotAfter at h
  rw [Time.After_false_iff] at h
  omega

/-- The years of the year headings of the reference markup: each year that is
the year of a bucket and not seen before, once. -/
theorem archiveRef_years (seen : List Int) (l : List Archive) :
    ((yearHeadings (archiveRef seen l)).map (fun t => t.year)).Nodup ∧
    ∀ y, y ∈ (yearHeadings (archiveRef seen l)).map (fun t => t.year) ↔
      (y ∉ seen ∧ ∃ a ∈ l, a.Time.year = y) := by
  induction l generalizing seen with
  | nil => simp [archiveRef, yearHeadings]
  | cons a l ih =>
    obtain ⟨hn, hm⟩ := ih (a.Time.year :: seen)
    simp only [archiveRef, yearHeadings_append, yearHeadings_members, List.append_nil]
    by_cases hs : a.Time.year ∈ seen
    · simp only [hs, if_true, yearHeadings, List.nil_append]
      refine ⟨hn, fun y => ?_⟩
      rw [hm y]
      simp only [List.mem_cons, not_or]
      constructor
      · rintro ⟨⟨_, h2⟩, b, hb, hby⟩
        exact ⟨h2, b, Or.inr hb, hby⟩
      · rintro ⟨h2, b, hb, hby⟩
        have hne : y ≠ a.Time.year := fun hc => h2 (hc ▸ hs)
        rcases hb with hb | hb
        · exact absurd (hb ▸ hby).symm hne
        · exact ⟨⟨hne, h2⟩, b, hb, hby⟩
    · simp only [hs, if_false, yearHeadings, List.cons_append, List.nil_append, List.map_cons,
        List.nodup_cons, List.mem_cons]
      refine ⟨⟨fun hc => ?_, hn⟩, fun y => ?_⟩
      · have := (hm a.Time.year).mp hc
        exact this.1 (List.mem_cons_self _ _)
      · rw [hm y]
        simp only [List.mem_cons, not_or]
        constructor
        · rintro (h | ⟨⟨_, h2⟩, b, hb, hby⟩)
          · exact ⟨h ▸ hs, a, Or.inl rfl, h.symm⟩
          · exact ⟨h2, b, Or.inr hb, hby⟩
        · rintro ⟨h2, b, hb, hby⟩
          by_cases hya : y = a.Time.year
          · exact Or.inl hya
          · rcases hb with hb | hb
            · exact absurd (hb ▸ hby).symm hya
            · exact Or.inr ⟨⟨hya, h2⟩, b, hb, hby⟩

/-- The loop of the code with `currentYear` set writes the reference markup,
when the buckets are sorted, the current year is the least year seen and no
bucket to come has a later year. -/
theorem archiveLoop_eq_ref (y : Int) (seen : List Int) (l : List Archive)
    (hs : l.Pairwise archNotAfter) (hy : y ∈ seen) (hseen : ∀ z ∈ seen, y ≤ z)
    (hl : ∀ a ∈ l, a.Time.year ≤ y) :
    archiveLoop true (some y) l = archiveRef seen l := by
  induction l generalizing y seen with
  | nil => rfl
  | cons a l ih =>
    rw [List.pairwise_cons] at hs
    have hay : a.Time.year ≤ y := hl a (List.mem_cons_self _ _)
    simp only [archiveLoop, if_true, archiveRef]
    by_cases hc : y = a.Time.year
    · have h1 : ¬ (some y ≠ some a.Time.year) := by simp [hc]
      have h2 : a.Time.year ∈ seen := hc ▸ hy
      rw [if_neg h1, if_pos h2, List.nil_append]
      congr 1
      refine ih y (a.Time.year :: seen) hs.2 (List.mem_cons_of_mem _ hy) ?_ ?_
      · intro z hz
        rcases List.mem_cons.mp hz with hz | hz
        · omega
        · exact hseen z hz
      · exact fun b hb => hl b (List.mem_cons_of_mem _ hb)
    · have h1 : some y ≠ some a.Time.year := by simpa using hc
      have h2 : a.Time.year ∉ seen := by
        intro hm
        have := hseen _ hm
        omega
      rw [if_pos h1, if_neg h2]
      simp only [List.cons_append, List.nil_append, List.append_assoc]
      congr 2
      refine ih a.Time.year (a.Time.year :: seen) hs.2 (List.mem_cons_self _ _) ?_ ?_
      · intro z hz
        rcases List.mem_cons.mp hz with hz | hz
        · omega
        · have := hseen z hz
          omega
      · exact fun b hb => archNotAfter_year a b (hs.1 b hb)

/-- The loop of the code from its start writes the reference markup, when the
buckets are sorted. -/
theorem archiveLoop_start (l : List Archive) (hs : l.Pairwise archNotAfter) :
    archiveLoop true none l = archiveRef [] l := by
  cases l with
  | nil => rfl
  | cons a l =>
    rw [List.pairwise_cons] at hs
    have h1 : (none : Option Int) ≠ some a.Time.year := by simp
    simp only [archiveLoop, if_true, archiveRef, if_pos h1, List.not_mem_nil, if_false,
      List.cons_append, List.nil_append, List.append_assoc]
    congr 2
    refine archiveLoop_eq_ref a.Time.year [a.Time.year] l hs.2 (List.mem_cons_self _ _) ?_ ?_
    · intro z hz
      simp only [List.mem_singleton] at hz
      omega
    · exact fun b hb => archNotAfter_year a b (hs.1 b hb)

/-- C14: for buckets `l` sorted by time descending. With 12 or fewer buckets
the archive markup has one month heading per bucket, in bucket order, and no
year heading. With more than 12 buckets it has no month heading, and it is the
reference markup `archiveRef`, in which the year heading is written before the
members of the first bucket of each year; the years of its year headings are
pairwise different and are exactly the years of the buckets. -/
theorem heading_granularity (say : String) (l : List Archive)
    (hs : l.Pairwise archNotAfter) :
    (l.length ≤ 12 →
      monthHeadings (archivePieces say l) = l.map (fun a => a.Time) ∧
      yearHeadings (archivePieces say l) = []) ∧
    (12 < l.length →
      monthHeadings (archivePieces say l) = [] ∧
      archivePieces say l = Piece.text (say ++ "\n") :: archiveRef [] l ∧
      ((yearHeadings (archivePieces say l)).map (fun t => t.year)).Nodup ∧
      ∀ y, y ∈ (yearHeadings (archivePieces say l)).map (fun t => t.year) ↔
        ∃ a ∈ l, a.Time.year = y) := by
  unfold archivePieces
  constructor
  · intro h
    have hd : decide (l.length > 12) = false := by
      simp only [gt_iff_lt, decide_eq_false_iff_not, not_lt]
      exact h
    rw [hd]
    obtain ⟨_, _, h3, h4⟩ := archiveLoop_month none l
    exact ⟨by simpa [monthHeadings] using h3, by simpa [yearHeadings] using h4⟩
  · intro h
    have hd : decide (l.length > 12) = true := by simpa using h
    rw [hd]
    obtain ⟨_, _, h3⟩ := archiveLoop_year_emphasised none l
    obtain ⟨hn, hm⟩ := archiveRef_years [] l
    rw [archiveLoop_start l hs]
    refine ⟨?_, rfl, ?_, ?_⟩
    · rw [← archiveLoop_start l hs]
      simpa [monthHeadings] using h3
    · simpa [yearHeadings] using hn
    · intro y
      have := hm y
      simpa [yearHeadings] using this

/-- C14 at the 13 buckets of `exThirteen`: no month heading, the year heading
of 2020 before the member of the first bucket and the year heading of 2019
before the member of the last bucket; and at two buckets: the month headings of
both and no year heading. -/
theorem heading_granularity_witness :
    exThirteen.Archives.Pairwise archNotAfter ∧
    monthHeadings (archivePieces "" exThirteen.Archives) = [] ∧
    archivePieces "" exThirteen.Archives =
      [Piece.text "\n", Piece.yearHeading ⟨2020, 12, 0⟩, Piece.emph 0, Piece.emph 1,
        Piece.emph 2, Piece.emph 3, Piece.emph 4, Piece.emph 5, Piece.emph 6, Piece.emph 7,
        Piece.emph 8, Piece.emph 9, Piece.emph 10, Piece.emph 11,
        Piece.yearHeading ⟨2019, 12, 0⟩, Piece.emph 12] ∧
    monthHeadings (archivePieces "" (exThirteen.Archives.take 2))
      = [⟨2020, 12, 0⟩, ⟨2020, 11, 0⟩] ∧
    yearHeadings (archivePieces "" (exThirteen.Archives.take 2)) = [] := by
  have h13 := (heading_granularity "" exThirteen.Archives (by decide)).2 (by decide)
  have h2 := (heading_granularity "" (exThirteen.Archives.take 2) (by decide)).1 (by decide)
  refine ⟨by decide, h13.1, ?_, ?_, h2.2⟩
  · rw [h13.2.1]
    rfl
  · rw [h2.1]
    rfl

/-! ## C20: a new archive bucket -/

theorem archNotAfter_total (a b : Archive) : archNotAfter a b ∨ archNotAfter b a := by
  unfold archNotAfter
  rw [Time.After_false_iff, Time.After_false_iff]
  omega

theorem archNotAfter_trans (a b c : Archive) (h1 : archNotAfter a b) (h2 : archNotAfter b c) :
    archNotAfter a c := by
  unfold archNotAfter at *
  rw [Time.After_false_iff] at *
  omega

theorem sortArchives_sorted (l : List Archive) : (sortArchives l).Pairwise archNotAfter :=
  goSort_sorted (weakOrder_After (fun a : Archive => a.Time)) l

theorem sortArchives_perm (l : List Archive) : (sortArchives l).Perm l :=
  goSort_perm (weakOrder_After (fun a : Archive => a.Time)) l

/-- The archive loop of `upArticle` finds no bucket and changes none, when no
bucket has the year and month of the article. -/
theorem upArchive_absent (mem : Ptr → Article) (artc : Ptr) (needSort : Bool)
    (l : List Archive) (h : ∀ ar ∈ l, ar.Time.Date ≠ (mem artc).CreateTime.Date) :
    upArchive mem artc needSort l = (l, false) := by
  induction l with
  | nil => rfl
  | cons ar l ih =>
    have h1 : ar.Time.Date ≠ (mem artc).CreateTime.Date := h ar (List.mem_cons_self _ _)
    simp only [upArchive, if_neg h1]
    rw [ih (fun b hb => h b (List.mem_cons_of_mem _ hb))]

/-- The tag loop of `upArticle` writes neither the memory nor the archives. -/
theorem upTag_foldl_keeps (artc : Ptr) (b : Bool) (tags : List String) (s0 : Account) :
    (tags.foldl (upTag artc b) s0).mem = s0.mem ∧
    (tags.foldl (upTag artc b) s0).Archives = s0.Archives := by
  induction tags generalizing s0 with
  | nil => exact ⟨rfl, rfl⟩
  | cons t rest ih =>
    rw [List.foldl_cons]
    obtain ⟨h1, h2⟩ := ih (upTag artc b s0 t)
    exact ⟨h1.trans rfl, h2.trans rfl⟩

/-- C20, as stated, fails: the Archive Index of `exDup` is sorted, with the one
bucket of January 2020; the article at address 1 is of February 2020, for which
there is no bucket; after `upArticle` the new bucket of February stands after
the bucket of January, and the Archive Index is not sorted by time
descending. -/
theorem upArticle_archives_counterexample :
    exDup.Archives.Pairwise archNotAfter ∧
    (∀ ar ∈ exDup.Archives, ar.Time.Date ≠ (exDup.mem 1).CreateTime.Date) ∧
    (upArticle exDup 1 true).Archives =
      [{ Time := ⟨2020, 1, 5⟩, Articles := [0] }, { Time := ⟨2020, 2, 9⟩, Articles := [1] }] ∧
    ¬ (upArticle exDup 1 true).Archives.Pairwise archNotAfter := by
  refine ⟨by decide, by decide, rfl, ?_⟩
  have h : (upArticle exDup 1 true).Archives =
      [{ Time := ⟨2020, 1, 5⟩, Articles := [0] }, { Time := ⟨2020, 2, 9⟩, Articles := [1] }] := rfl
  rw [h]
  decide

/-- C20, amended. When no bucket has the year and month of the article,
`upArticle(artc, true)` leaves the buckets as they are and appends a new bucket
with the creation time of the article, holding the article, at the end of the
Archive Index, in sorted position or not; it sends `ARCHIVE_MD` as its last
token, and the round of `generateMarkdown` for that token sorts the Archive
Index by time descending, keeping the buckets. -/
theorem upArticle_appends_bucket (s : Account) (artc : Ptr)
    (h : ∀ ar ∈ s.Archives, ar.Time.Date ≠ (s.mem artc).CreateTime.Date) :
    (upArticle s artc true).Archives =
      s.Archives ++ [{ Time := (s.mem artc).CreateTime, Articles := [artc] }] ∧
    (upArticle s artc true).CH.getLast? = some ARCHIVE_MD ∧
    ∀ (renderPage : String → String) (Format : String → Time → String),
      (generateMarkdown renderPage Format (upArticle s artc true) ARCHIVE_MD).Archives.Pairwise
        archNotAfter ∧
      (generateMarkdown renderPage Format (upArticle s artc true) ARCHIVE_MD).Archives.Perm
        (s.Archives ++ [{ Time := (s.mem artc).CreateTime, Articles := [artc] }]) := by
  have hA : (upArticle s artc true).Archives =
      s.Archives ++ [{ Time := (s.mem artc).CreateTime, Articles := [artc] }] := by
    obtain ⟨hm, ha⟩ := upTag_foldl_keeps artc true (s.mem artc).Tags s
    have hab := upArchive_absent s.mem artc true s.Archives h
    unfold upArticle
    simp only [Account.send, Bool.and_true, hm, ha]
    split <;> split <;> simp_all
  have hC : (upArticle s artc true).CH.getLast? = some ARCHIVE_MD := by
    rcases upArticle_sends s artc with hc | hc
    · rw [hc]; simp
    · rw [hc]; simp
  refine ⟨hA, hC, fun renderPage Format => ?_⟩
  have hg : (generateMarkdown renderPage Format (upArticle s artc true) ARCHIVE_MD).Archives
      = sortArchives (upArticle s artc true).Archives := by
    unfold generateMarkdown
    rw [if_neg (by decide), if_pos rfl]
  rw [hg]
  exact ⟨sortArchives_sorted _, hA ▸ sortArchives_perm _⟩

/-- C20 at `exDup` and its new article of February 2020: the bucket is
appended after the bucket of January 2020, and the round of the worker puts it
first. -/
theorem upArticle_appends_bucket_witness :
    (∀ ar ∈ exDup.Archives, ar.Time.Date ≠ (exDup.mem 1).CreateTime.Date) ∧
    (upArticle exDup 1 true).Archives =
      exDup.Archives ++ [{ Time := ⟨2020, 2, 9⟩, Articles := [1] }] ∧
    (generateMarkdown id (fun _ _ => "") (upArticle exDup 1 true) ARCHIVE_MD).Archives.Pairwise
      archNotAfter ∧
    (generateMarkdown id (fun _ _ => "") (upArticle exDup 1 true) ARCHIVE_MD).Archives =
      [{ Time := ⟨2020, 2, 9⟩, Articles := [1] }, { Time := ⟨2020, 1, 5⟩, Articles := [0] }] := by
  have h := upArticle_appends_bucket exDup 1 (by decide)
  exact ⟨by decide, h.1, (h.2.2 id (fun _ _ => "")).1, rfl⟩

/-! ## C21: unindexing after indexing -/

/-- The tag loop of `upArticle` writes only the tag index. -/
theorem upTag_foldl_fields (artc : Ptr) (b : Bool) (tags : List String) (s0 : Account) :
    (tags.foldl (upTag artc b) s0).mem = s0.mem ∧
    (tags.foldl (upTag artc b) s0).Series = s0.Series ∧
    (tags.foldl (upTag artc b) s0).Archives = s0.Archives ∧
    (tags.foldl (upTag artc b) s0).CH = s0.CH := by
  induction tags generalizing s0 with
  | nil => exact ⟨rfl, rfl, rfl, rfl⟩
  | cons t rest ih =>
    rw [List.foldl_cons]
    obtain ⟨h1, h2, h3, h4⟩ := ih (upTag artc b s0 t)
    exact ⟨h1.trans rfl, h2.trans rfl, h3.trans rfl, h4.trans rfl⟩

/-- The tag index after the tag loop of `upArticle(artc, true)` over pairwise
distinct tags: the bucket of each tag of the list has the article appended and
is sorted, the other buckets are untouched. -/
theorem upTag_foldl_Tags (artc : Ptr) (tags : List String) (s0 : Account)
    (hnd : tags.Nodup) (t : String) :
    (tags.foldl (upTag artc true) s0).Tags t =
      if t ∈ tags then some (sortArticles s0.mem ((s0.Tags t).getD [] ++ [artc]))
      else s0.Tags t := by
  induction tags generalizing s0 with
  | nil => simp
  | cons t0 rest ih =>
    rw [List.nodup_cons] at hnd
    rw [List.foldl_cons, ih (upTag artc true s0 t0) hnd.2]
    have hm : (upTag artc true s0 t0).mem = s0.mem := rfl
    have ht : (upTag artc true s0 t0).Tags t =
        if t = t0 then some (sortArticles s0.mem ((s0.Tags t0).getD [] ++ [artc]))
        else s0.Tags t := by
      simp [upTag, Account.setTag]
    rw [hm, ht]
    by_cases h0 : t = t0
    · subst h0
      simp [hnd.1]
    · by_cases hr : t ∈ rest
      · simp [h0, hr]
      · simp [h0, hr]

/-- One round of the outer tag loop of `dropArticle` on a bucket that holds the
article once: the article is taken out, and the key is deleted when nothing is
left. -/
theorem dropTag_exact (a : Ptr) (s : Account) (tag : String) (B : List Ptr)
    (hB : s.Tags tag = some B) (hc : B.count a = 1) :
    dropTag a s tag =
      .ok (s.setTag tag (if B.erase a = [] then none else some (B.erase a))) := by
  have hm : a ∈ B := List.count_pos_iff.mp (by omega)
  obtain ⟨l1, l2, rfl⟩ := List.append_of_mem hm
  have hcnt : List.count a l1 + List.count a l2 = 0 := by
    simp only [List.count_append, List.count_cons_self] at hc
    omega
  have h1 : a ∉ l1 := List.count_eq_zero.mp (by omega)
  have h2 : a ∉ l2 := List.count_eq_zero.mp (by omega)
  have he : (l1 ++ a :: l2).erase a = l1 ++ l2 := by
    rw [List.erase_append_right _ h1, List.erase_cons_head]
  unfold dropTag
  simp only [hB, dropTagLoop_once a l1 l2 h1 h2, he]
  congr 2
  by_cases hz : l1.length + l2.length = 0
  · have : l1 ++ l2 = [] := by
      rw [← List.length_eq_zero, List.length_append]; exact hz
    simp [hz, this]
  · have : l1 ++ l2 ≠ [] := by
      intro hc2
      apply hz
      rw [← List.length_append, hc2]; rfl
    simp only [hz, this, if_false, Option.map_some', Option.some.injEq]
    rw [List.append_assoc, ← List.length_append, List.take_append_eq_append_take]
    simp

/-- The outer tag loop of `dropArticle` over pairwise distinct tags whose
buckets hold the article once each: it returns, every such bucket has lost the
article, the keys of the emptied buckets are deleted, and nothing else is
written. -/
theorem dropTags_exact (a : Ptr) (tags : List String) (s : Account) (hnd : tags.Nodup)
    (h : ∀ t ∈ tags, ∃ B, s.Tags t = some B ∧ B.count a = 1) :
    ∃ s1, dropTags a s tags = .ok s1 ∧ s1.mem = s.mem ∧ s1.Series = s.Series ∧
      s1.Archives = s.Archives ∧ s1.CH = s.CH ∧
      ∀ t, s1.Tags t =
        if t ∈ tags then
          (s.Tags t).bind (fun B => if B.erase a = [] then none else some (B.erase a))
        else s.Tags t := by
  induction tags generalizing s with
  | nil => exact ⟨s, rfl, rfl, rfl, rfl, rfl, fun t => by simp⟩
  | cons t0 rest ih =>
    rw [List.nodup_cons] at hnd
    obtain ⟨B, hB, hc⟩ := h t0 (List.mem_cons_self _ _)
    have hstep := dropTag_exact a s t0 B hB hc
    have hrest : ∀ t ∈ rest, ∃ B1,
        (s.setTag t0 (if B.erase a = [] then none else some (B.erase a))).Tags t = some B1 ∧
          B1.count a = 1 := by
      intro t ht
      have hne : t ≠ t0 := fun hc2 => hnd.1 (hc2 ▸ ht)
      obtain ⟨B1, hB1, hc1⟩ := h t (List.mem_cons_of_mem _ ht)
      exact ⟨B1, by simp [Account.setTag, hne, hB1], hc1⟩
    obtain ⟨s1, h1, hm, hse, har, hch, htags⟩ := ih _ hnd.2 hrest
    refine ⟨s1, ?_, hm.trans rfl, hse.trans rfl, har.trans rfl, hch.trans rfl, ?_⟩
    · simp only [dropTags, hstep, h1]
    · intro t
      rw [htags t]
      by_cases h0 : t = t0
      · subst h0
        simp [hnd.1, Account.setTag, hB]
      · by_cases hr : t ∈ rest
        · simp [h0, hr, Account.setTag]
        · simp [h0, hr, Account.setTag]

/-- A bucket after the article is appended and the bucket sorted holds the
article once, and without the article it has the members it had. -/
theorem sort_append_erase (mem : Ptr → Article) (a : Ptr) (b : List Ptr) (h : a ∉ b) :
    (sortArticles mem (b ++ [a])).count a = 1 ∧ a ∈ sortArticles mem (b ++ [a]) ∧
    ((sortArticles mem (b ++ [a])).erase a).Perm b := by
  have hp := sortArticles_perm mem (b ++ [a])
  refine ⟨?_, ?_, ?_⟩
  · rw [hp.count_eq, List.count_append, List.count_eq_zero_of_not_mem h]
    simp
  · exact hp.symm.subset (by simp)
  · have he : (b ++ [a]).erase a = b := by
      rw [List.erase_append_right _ h]
      simp
    have hq := hp.erase a
    rw [he] at hq
    exact hq

/-- The series loop of `dropArticle` changes nothing when no member list holds
the article. -/
theorem dropSeries_clean (sid : Int) (a : Ptr) (l : List Serie)
    (h : ∀ se ∈ l, a ∉ se.Articles) : dropSeries sid a l = (l, 0) := by
  induction l with
  | nil => rfl
  | cons x rest ih =>
    have hx : ¬ (x.ID = sid ∧ a ∈ x.Articles) := fun hc => h x (List.mem_cons_self _ _) hc.2
    simp only [dropSeries, ih (fun se hse => h se (List.mem_cons_of_mem _ hse)), if_neg hx]

/-- The series loop of `upArticle(a, true)` followed by the series loop of
`dropArticle(a)`, on series of which none holds the article: the same series
in the same order, each with the members it had. -/
theorem upSerie_dropSeries (mem : Ptr → Article) (a : Ptr) (l : List Serie)
    (h : ∀ se ∈ l, a ∉ se.Articles) :
    List.Forall₂ (fun x y => x = { y with Articles := x.Articles } ∧ x.Articles.Perm y.Articles)
      (dropSeries (mem a).SerieID a (upSerie mem a true l).1).1 l := by
  have hrefl : ∀ l1 : List Serie, List.Forall₂
      (fun x y => x = { y with Articles := x.Articles } ∧ x.Articles.Perm y.Articles) l1 l1 := by
    intro l1
    induction l1 with
    | nil => exact List.Forall₂.nil
    | cons x rest ih => exact List.Forall₂.cons ⟨rfl, List.Perm.refl _⟩ ih
  induction l with
  | nil => exact List.Forall₂.nil
  | cons x rest ih =>
    have hx : a ∉ x.Articles := h x (List.mem_cons_self _ _)
    have hr : ∀ se ∈ rest, a ∉ se.Articles := fun se hse => h se (List.mem_cons_of_mem _ hse)
    obtain ⟨_, hin, hperm⟩ := sort_append_erase mem a x.Articles hx
    by_cases hid : x.ID = (mem a).SerieID
    · simp only [upSerie, if_pos hid, if_true, dropSeries, dropSeries_clean _ a rest hr]
      rw [if_pos ⟨hid, hin⟩]
      exact List.Forall₂.cons ⟨rfl, hperm⟩ (hrefl rest)
    · simp only [upSerie, if_neg hid, dropSeries]
      rw [if_neg (fun hc => hid hc.1)]
      exact List.Forall₂.cons ⟨rfl, List.Perm.refl _⟩ (ih hr)

/-- The archive loop passes over positions whose Archive objects do not hold
the article. -/
theorem dropArchLoop_skip (ym : Int × Nat) (a : Ptr) (st : ArchLoop) (m k i : Nat)
    (h : ∀ j, i ≤ j → j < i + m →
      ∃ o ar, st.arr[j]? = some o ∧ st.objs[o]? = some ar ∧ a ∉ ar.Articles) :
    dropArchLoop ym a (m + k) i st = dropArchLoop ym a k (i + m) st := by
  induction m generalizing i with
  | zero => simp
  | succ m ih =>
    obtain ⟨o, ar, h1, h2, h3⟩ := h i (le_refl i) (by omega)
    have hk : m + 1 + k = (m + k) + 1 := by omega
    rw [hk, dropArchLoop]
    simp only [h1, h2]
    rw [if_neg (fun hc => h3 hc.2), ih (i + 1) (fun j hj1 hj2 => h j (by omega) (by omega))]
    congr 1
    omega

/-- Reading a list at the positions `0`, ..., `n - 1`. -/
theorem filterMap_range_take {α : Type} (L : List α) (n : Nat) :
    (List.range n).filterMap (fun o => L[o]?) = L.take n := by
  induction n with
  | zero => simp
  | succ n ih =>
    rw [List.range_succ, List.filterMap_append, ih, List.take_succ]
    congr 1

theorem range_split (p q : Nat) :
    List.range (p + 1 + q) = List.range p ++ p :: (List.range q).map (fun j => p + 1 + j) := by
  rw [List.range_add, List.range_succ]
  simp

/-- The names left in `Ei.Archives` after the removal of the bucket at
position `p`. -/
theorem removeAt_range (p q : Nat) :
    (removeAt (List.range (p + 1 + q)) (p + 1 + q) p).take (p + 1 + q - 1)
      = List.range p ++ (List.range q).map (fun j => p + 1 + j) := by
  have h := removeAt_mid (List.range p) ((List.range q).map (fun j => p + 1 + j)) p
  simp only [List.length_range, List.length_map] at h
  rw [range_split, h]
  have hl : (List.range p ++ (List.range q).map (fun j => p + 1 + j)).length = p + 1 + q - 1 := by
    simp only [List.length_append, List.length_range, List.length_map]
    omega
  rw [← hl, List.take_left]

/-- Reading the Archive objects at the names left after the removal of the
bucket at the position of `x`. -/
theorem filterMap_removed {α : Type} (pre post : List α) (x : α) :
    (List.range pre.length ++ (List.range post.length).map (fun j => pre.length + 1 + j)).filterMap
      (fun o => (pre ++ x :: post)[o]?) = pre ++ post := by
  rw [List.filterMap_append, filterMap_range_take, List.take_left, List.filterMap_map]
  congr 1
  have hf : ∀ j ∈ List.range post.length,
      ((fun o => (pre ++ x :: post)[o]?) ∘ fun j => pre.length + 1 + j) j = post[j]? := by
    intro j _
    simp only [Function.comp]
    rw [List.getElem?_append_right (by omega)]
    have : pre.length + 1 + j - pre.length = j + 1 := by omega
    rw [this, List.getElem?_cons_succ]
  rw [List.filterMap_congr hf, filterMap_range_take, List.take_length]

/-- The archive part of `dropArticle` on archives of which one bucket, of the
month of the article, holds the article once and no other holds it: the article
is taken out of that bucket, the bucket is removed when nothing is left in it,
the other buckets stay as they are, in their order, and one token is sent. -/
theorem dropArchives_one (ym : Int × Nat) (a : Ptr) (pre post : List Archive) (X : Archive)
    (hpre : ∀ ar ∈ pre, a ∉ ar.Articles) (hpost : ∀ ar ∈ post, a ∉ ar.Articles)
    (hX : X.Time.Date = ym) (hin : a ∈ X.Articles) (hcnt : X.Articles.count a ≤ 1) :
    dropArchives ym a (pre ++ X :: post) =
      .ok (if X.Articles.erase a = [] then pre ++ post
        else pre ++ { X with Articles := X.Articles.erase a } :: post, 1) := by
  have hn : (pre ++ X :: post).length = pre.length + 1 + post.length := by
    simp only [List.length_append, List.length_cons]
    omega
  have hset : (pre ++ X :: post).set pre.length { X with Articles := X.Articles.erase a }
      = pre ++ { X with Articles := X.Articles.erase a } :: post := by
    simp
  have hclean : ∀ o ∈ pre ++ { X with Articles := X.Articles.erase a } :: post,
      a ∉ o.Articles := by
    intro o ho
    rcases List.mem_append.mp ho with ho | ho
    · exact hpre o ho
    · rcases List.mem_cons.mp ho with ho | ho
      · subst ho
        exact not_mem_erase_of_count_le_one a _ hcnt
      · exact hpost o ho
  have hskip := dropArchLoop_skip ym a
    { objs := pre ++ X :: post, arr := List.range (pre.length + 1 + post.length),
      len := pre.length + 1 + post.length, sent := 0 } pre.length (post.length + 1) 0 (by
      intro j _ hj
      have hj' : j < pre.length := by omega
      refine ⟨j, pre[j], ?_, ?_, hpre _ (List.getElem_mem hj')⟩
      · exact List.getElem?_range (by omega)
      · show (pre ++ X :: post)[j]? = some pre[j]
        rw [List.getElem?_append_left hj']
        exact List.getElem?_eq_getElem hj')
  have hk : pre.length + 1 + post.length = pre.length + (post.length + 1) := by omega
  have harr : (List.range (pre.length + 1 + post.length))[pre.length]? = some pre.length :=
    List.getElem?_range (by omega)
  have hobj : (pre ++ X :: post)[pre.length]? = some X := by
    rw [List.getElem?_append_right (le_refl _)]
    simp
  unfold dropArchives
  rw [hn]
  nth_rewrite 1 [hk]
  rw [hskip, Nat.zero_add, dropArchLoop]
  simp only [harr, hobj]
  rw [if_pos ⟨hX, hin⟩, if_pos (by omega), hset]
  by_cases hz : X.Articles.erase a = []
  · have hz0 : (X.Articles.erase a).length = 0 := by rw [hz]; rfl
    rw [if_pos hz0, if_pos hz]
    rw [dropArchLoop_clean ym a post.length (pre.length + 1) _ hclean (by
        intro x hx
        have hx1 := mem_removeAt _ _ _ _ hx
        simp only [List.mem_range] at hx1
        simp only [List.length_append, List.length_cons]
        omega) (by
        have hl := removeAt_length (List.range (pre.length + 1 + post.length))
          (pre.length + 1 + post.length) pre.length (by omega) (by rw [List.length_range])
        rw [List.length_range] at hl
        show pre.length + 1 + post.length ≤
          (removeAt (List.range (pre.length + 1 + post.length))
            (pre.length + 1 + post.length) pre.length).length
        omega)]
    simp only [Nat.zero_add]
    rw [removeAt_range, filterMap_removed]
  · have hz0 : ¬ (X.Articles.erase a).length = 0 := by
      rw [List.length_eq_zero]; exact hz
    rw [if_neg hz0, if_neg hz]
    rw [dropArchLoop_clean ym a post.length (pre.length + 1) _ hclean (by
        intro x hx
        simp only [List.mem_range] at hx
        simp only [List.length_append, List.length_cons]
        omega) (by
        simp only [List.length_range]
        omega)]
    simp only [Nat.zero_add]
    have hlen : pre.length + 1 + post.length
        = (pre ++ { X with Articles := X.Articles.erase a } :: post).length := by
      simp only [List.length_append, List.length_cons]
      omega
    rw [List.take_of_length_le (by rw [List.length_range]), hlen, filterMap_range_take,
      List.take_length]

/-- The archive loop of `upArticle(a, true)` when it finds a bucket: that
bucket has the article appended and is sorted, the others are as they were. -/
theorem upArchive_found (mem : Ptr → Article) (a : Ptr) (l : List Archive)
    (h : (upArchive mem a true l).2 = true) :
    ∃ pre X post, l = pre ++ X :: post ∧ X.Time.Date = (mem a).CreateTime.Date ∧
      (upArchive mem a true l).1 =
        pre ++ { X with Articles := sortArticles mem (X.Articles ++ [a]) } :: post := by
  induction l with
  | nil => simp [upArchive] at h
  | cons ar rest ih =>
    by_cases hd : ar.Time.Date = (mem a).CreateTime.Date
    · refine ⟨[], ar, rest, rfl, hd, ?_⟩
      simp [upArchive, hd]
    · simp only [upArchive, if_neg hd] at h ⊢
      obtain ⟨pre, X, post, hl, hX, hr⟩ := ih h
      exact ⟨ar :: pre, X, post, by rw [hl]; rfl, hX, by rw [hr]; rfl⟩

/-- The fields of the state after `upArticle(a, true)`. -/
theorem upArticle_fields (s : Account) (a : Ptr) :
    (upArticle s a true).mem = s.mem ∧
    (upArticle s a true).Tags = ((s.mem a).Tags.foldl (upTag a true) s).Tags ∧
    (upArticle s a true).Series = (upSerie s.mem a true s.Series).1 ∧
    (upArticle s a true).Archives =
      if (upArchive s.mem a true s.Archives).2 = true then (upArchive s.mem a true s.Archives).1
      else s.Archives ++ [{ Time := (s.mem a).CreateTime, Articles := [a] }] := by
  obtain ⟨hm, hse, har, _⟩ := upTag_foldl_fields a true (s.mem a).Tags s
  unfold upArticle
  simp only [Account.send, Bool.and_true, hm, hse, har]
  split <;> split <;> simp_all

/-- The function `dropArticle` from the results of its tag loop and of its
archive loop. -/
theorem dropArticle_of (s s1 : Account) (a : Ptr) (r : List Archive × Nat)
    (h1 : dropTags a s (s.mem a).Tags = .ok s1)
    (h2 : dropArchives (s1.mem a).CreateTime.Date a s1.Archives = .ok r) :
    ∃ s2, dropArticle s a = .ok s2 ∧ s2.mem = s1.mem ∧ s2.Tags = s1.Tags ∧
      s2.Series = (dropSeries (s1.mem a).SerieID a s1.Series).1 ∧ s2.Archives = r.1 := by
  unfold dropArticle
  simp only [h1, h2]
  exact ⟨_, rfl, rfl, rfl, rfl, rfl⟩

/-- C21, as stated, fails: in `exRound` the article at address 2, of January
2020 and without tags, is a member of no bucket, and the archive bucket of
January 2020 is there, without a member. `upArticle` puts the article in that
bucket, `dropArticle` takes it out and removes the emptied bucket: the archive
index has lost the key of January 2020, which `upArticle` did not create. -/
theorem unindex_after_index_counterexample :
    (exRound.mem 2).Tags.Nodup ∧
    (∀ t b, exRound.Tags t = some b → 2 ∉ b) ∧
    (∀ se ∈ exRound.Series, 2 ∉ se.Articles) ∧
    (∀ ar ∈ exRound.Archives, 2 ∉ ar.Articles) ∧
    exRound.Archives.map (fun ar => ar.Time) = [⟨2020, 3, 0⟩, ⟨2020, 1, 0⟩] ∧
    (upArticle exRound 2 true).Archives.map (fun ar => ar.Time)
      = [⟨2020, 3, 0⟩, ⟨2020, 1, 0⟩] ∧
    ∃ s1, dropArticle (upArticle exRound 2 true) 2 = .ok s1 ∧
      s1.Archives.map (fun ar => ar.Time) = [⟨2020, 3, 0⟩] := by
  refine ⟨by decide, ?_, by decide, by decide, rfl, rfl, _, rfl, rfl⟩
  intro t b hb
  by_cases ht : t = "go"
  · subst ht
    have : b = [0] := by
      simp only [exRound, if_true, Option.some.injEq] at hb; exact hb.symm
    subst this; decide
  · simp [exRound, ht] at hb

/-- C21, amended. For an article `a` with pairwise distinct tags that is a
member of no bucket, in a state where no bucket of a tag of `a` and no archive
bucket of the month of `a` is empty: `upArticle(a, true)` followed by
`dropArticle(a)` returns; the tag index has the keys it had, each bucket with
the members it had; the series are the same, in the same order, each with the
members it had; the archive index has the buckets it had, in the same order,
each with the members it had. The Article objects are not written. -/
theorem unindex_after_index (s : Account) (a : Ptr)
    (hnd : (s.mem a).Tags.Nodup)
    (htag : ∀ t b, s.Tags t = some b → a ∉ b)
    (hser : ∀ se ∈ s.Series, a ∉ se.Articles)
    (harch : ∀ ar ∈ s.Archives, a ∉ ar.Articles)
    (hne : ∀ t ∈ (s.mem a).Tags, s.Tags t ≠ some [])
    (hna : ∀ ar ∈ s.Archives, ar.Time.Date = (s.mem a).CreateTime.Date → ar.Articles ≠ []) :
    ∃ s1, dropArticle (upArticle s a true) a = .ok s1 ∧ s1.mem = s.mem ∧
      (∀ t, (s1.Tags t = none ↔ s.Tags t = none) ∧
        ((s1.Tags t).getD []).Perm ((s.Tags t).getD [])) ∧
      List.Forall₂
        (fun x y => x = { y with Articles := x.Articles } ∧ x.Articles.Perm y.Articles)
        s1.Series s.Series ∧
      List.Forall₂ (fun x y => x.Time = y.Time ∧ x.Articles.Perm y.Articles)
        s1.Archives s.Archives := by
  obtain ⟨um, ut, us, ua⟩ := upArticle_fields s a
  have hrefl : ∀ l1 : List Archive, List.Forall₂
      (fun x y => x.Time = y.Time ∧ x.Articles.Perm y.Articles) l1 l1 := by
    intro l1
    induction l1 with
    | nil => exact List.Forall₂.nil
    | cons x rest ih => exact List.Forall₂.cons ⟨rfl, List.Perm.refl _⟩ ih
  -- the bucket of every tag of the article before the article is dropped
  have hbucket : ∀ t, a ∉ (s.Tags t).getD [] := by
    intro t
    cases hb : s.Tags t with
    | none => simp
    | some b => exact htag t b hb
  have hup : ∀ t ∈ (s.mem a).Tags, (upArticle s a true).Tags t =
      some (sortArticles s.mem ((s.Tags t).getD [] ++ [a])) := by
    intro t ht
    rw [ut, upTag_foldl_Tags a (s.mem a).Tags s hnd t, if_pos ht]
  -- the tag loop
  obtain ⟨s2, hd2, hm2, hse2, har2, _, htags2⟩ :=
    dropTags_exact a (s.mem a).Tags (upArticle s a true) hnd (fun t ht =>
      ⟨_, hup t ht, (sort_append_erase s.mem a _ (hbucket t)).1⟩)
  -- the archive loop
  have harchives : ∃ r, dropArchives (s2.mem a).CreateTime.Date a s2.Archives = .ok r ∧
      List.Forall₂ (fun x y => x.Time = y.Time ∧ x.Articles.Perm y.Articles)
        r.1 s.Archives := by
    rw [hm2, um, har2, ua]
    by_cases hf : (upArchive s.mem a true s.Archives).2 = true
    · rw [if_pos hf]
      obtain ⟨pre, X, post, hl, hX, hr⟩ := upArchive_found s.mem a s.Archives hf
      have hXin : X ∈ s.Archives := by rw [hl]; simp
      obtain ⟨hc, hin, hperm⟩ := sort_append_erase s.mem a X.Articles (harch X hXin)
      rw [hr, dropArchives_one (s.mem a).CreateTime.Date a pre post
        { X with Articles := sortArticles s.mem (X.Articles ++ [a]) }
        (fun ar har => harch ar (by rw [hl]; simp [har]))
        (fun ar har => harch ar (by rw [hl]; simp [har])) hX hin (le_of_eq hc)]
      have hnz : (sortArticles s.mem (X.Articles ++ [a])).erase a ≠ [] := by
        intro hc2
        rw [hc2] at hperm
        exact hna X hXin hX hperm.symm.eq_nil
      refine ⟨_, rfl, ?_⟩
      simp only [if_neg hnz]
      rw [hl]
      exact List.rel_append (hrefl pre) (List.Forall₂.cons ⟨rfl, hperm⟩ (hrefl post))
    · rw [if_neg hf]
      have hone := dropArchives_one (s.mem a).CreateTime.Date a s.Archives []
        { Time := (s.mem a).CreateTime, Articles := [a] } harch
        (fun ar har => absurd har (List.not_mem_nil ar)) rfl (by simp) (by simp)
      rw [hone]
      refine ⟨_, rfl, ?_⟩
      simp only [List.erase_cons_head, if_true, List.append_nil]
      exact hrefl s.Archives
  obtain ⟨r, hr, hrel⟩ := harchives
  have hd2' : dropTags a (upArticle s a true) ((upArticle s a true).mem a).Tags = .ok s2 := by
    rw [um]; exact hd2
  obtain ⟨s1, hd1, hm1, ht1, hse1, har1⟩ := dropArticle_of (upArticle s a true) s2 a r hd2' hr
  refine ⟨s1, hd1, by rw [hm1, hm2, um], ?_, ?_, ?_⟩
  · intro t
    rw [ht1, htags2 t]
    by_cases ht : t ∈ (s.mem a).Tags
    · rw [if_pos ht, hup t ht]
      obtain ⟨_, _, hperm⟩ := sort_append_erase s.mem a _ (hbucket t)
      simp only [Option.some_bind]
      cases hb : s.Tags t with
      | none =>
        rw [hb] at hperm
        simp only [Option.getD_none] at hperm ⊢
        have he := hperm.eq_nil
        simp only [List.nil_append] at he ⊢
        simp [he]
      | some b =>
        rw [hb] at hperm
        simp only [Option.getD_some] at hperm ⊢
        have hbne : b ≠ [] := fun hc => hne t ht (hc ▸ hb)
        have hnz : (sortArticles s.mem (b ++ [a])).erase a ≠ [] := by
          intro hc2
          rw [hc2] at hperm
          exact hbne hperm.symm.eq_nil
        simp only [if_neg hnz, Option.getD_some]
        exact ⟨by simp, hperm⟩
    · rw [if_neg ht, ut, upTag_foldl_Tags a (s.mem a).Tags s hnd t, if_neg ht]
      exact ⟨Iff.rfl, List.Perm.refl _⟩
  · rw [hse1, hm2, um, hse2, us]
    exact upSerie_dropSeries s.mem a s.Series hser
  · rw [har1]
    exact hrel

/-- C21 at `exRound` and its new article of March 2020, with the tags "go" and
"lean" and the series 7: after `upArticle` and `dropArticle` the tag "lean",
whose bucket `upArticle` created, is no key again, the bucket of "go" has its
member 0, and the series and the archive buckets have the members they had. -/
theorem unindex_after_index_witness :
    (exRound.mem 1).Tags.Nodup ∧
    (∀ t b, exRound.Tags t = some b → 1 ∉ b) ∧
    (∀ se ∈ exRound.Series, 1 ∉ se.Articles) ∧
    (∀ ar ∈ exRound.Archives, 1 ∉ ar.Articles) ∧
    (∀ t ∈ (exRound.mem 1).Tags, exRound.Tags t ≠ some []) ∧
    (∀ ar ∈ exRound.Archives,
      ar.Time.Date = (exRound.mem 1).CreateTime.Date → ar.Articles ≠ []) ∧
    (upArticle exRound 1 true).Tags "lean" = some [1] ∧
    ∃ s1, dropArticle (upArticle exRound 1 true) 1 = .ok s1 ∧
      s1.Tags "lean" = none ∧ ((s1.Tags "go").getD []).Perm [0] ∧
      List.Forall₂
        (fun x y => x = { y with Articles := x.Articles } ∧ x.Articles.Perm y.Articles)
        s1.Series exRound.Series ∧
      List.Forall₂ (fun x y => x.Time = y.Time ∧ x.Articles.Perm y.Articles)
        s1.Archives exRound.Archives := by
  have htag : ∀ t b, exRound.Tags t = some b → 1 ∉ b := by
    intro t b hb
    by_cases ht : t = "go"
    · subst ht
      have : b = [0] := by
        simp only [exRound, if_true, Option.some.injEq] at hb; exact hb.symm
      subst this; decide
    · simp [exRound, ht] at hb
  have hne : ∀ t ∈ (exRound.mem 1).Tags, exRound.Tags t ≠ some [] := by
    intro t _ hc
    by_cases ht : t = "go"
    · subst ht
      simp [exRound] at hc
    · simp [exRound, ht] at hc
  obtain ⟨s1, h1, _, h3, h4, h5⟩ :=
    unindex_after_index exRound 1 (by decide) htag (by decide) (by decide) hne (by decide)
  refine ⟨by decide, htag, by decide, by decide, hne, by decide, rfl, s1, h1, ?_, ?_, h4, h5⟩
  · exact (h3 "lean").1.mpr rfl
  · exact (h3 "go").2

end Eiblog
